import Mathlib

/-!
Verification of the AI-Scholar research-assistant core against its code.

The development shallowly embeds the response-parsing pipeline, the error
classifier, the result cache and the prompt builder of
`src/services/geminiService.ts` and `src/App.tsx`.  JavaScript strings are
modelled as `List Char`; JS `String.prototype.trim` / `split` /
`startsWith` / `toLowerCase` / `includes` are modelled by executable list
functions below.  Regular-expression matching (only the fixed field regex
`\*\*([A-Za-z]+):\*\*\s*([\s\S]*?)(?=\s*\*\*[A-Za-z]+:\*\*|$)/gi` is used
by the code) is embedded by a deterministic scanner that implements the
leftmost-match / lazy-capture / lookahead semantics of that particular
pattern.
-/

namespace AIScholar

/-- JS whitespace for `trim` and the regex class `\s` (ASCII fragment). -/
def isWs (c : Char) : Bool := c.isWhitespace

/-- Strip leading whitespace (JS `trimStart`). -/
def trimLeft (l : List Char) : List Char := l.dropWhile isWs

/-- Strip trailing whitespace (JS `trimEnd`). -/
def trimR (l : List Char) : List Char := (l.reverse.dropWhile isWs).reverse

/-- JS `String.prototype.trim`. -/
def trimL (l : List Char) : List Char := trimR (trimLeft l)

/-- JS `String.prototype.toLowerCase` (ASCII data here). -/
def lower (l : List Char) : List Char := l.map Char.toLower

/-- JS `value.split('\n')[0]`. -/
def firstLine (l : List Char) : List Char := l.takeWhile (fun c => c ≠ '\n')

/-- JS `text.split('\n')`. -/
def splitNl : List Char → List (List Char)
  | [] => [[]]
  | c :: cs =>
    if c = '\n' then [] :: splitNl cs
    else
      match splitNl cs with
      | r :: rs => (c :: r) :: rs
      | [] => [[c]]

/-- Fuelled worker for splitting on the three-character separator `---`
(leftmost, non-overlapping, as JS `split`); `length` fuel suffices since
every step consumes at least one character. -/
def splitDashesAux : Nat → List Char → List (List Char)
  | _, [] => [[]]
  | 0, _ :: _ => [[]]
  | fuel + 1, c :: cs =>
    if ['-', '-', '-'].isPrefixOf (c :: cs) then
      [] :: splitDashesAux fuel (cs.drop 2)
    else
      match splitDashesAux fuel cs with
      | r :: rs => (c :: r) :: rs
      | [] => [[c]]

/-- JS `text.split('---')`. -/
def splitDashes (s : List Char) : List (List Char) := splitDashesAux s.length s

/-- JS `haystack.includes(pat)` (substring occurrence). -/
def containsSub (pat : List Char) : List Char → Bool
  | [] => pat.isEmpty
  | c :: cs => pat.isPrefixOf (c :: cs) || containsSub pat cs

/-- `/5\d{2}/.test(msg)`: some occurrence of `5` followed by two digits. -/
def has5xx : List Char → Bool
  | [] => false
  | c :: cs =>
    (c == '5' && (match cs with
      | a :: b :: _ => a.isDigit && b.isDigit
      | _ => false)) || has5xx cs

/-- `Array.prototype.join('\n')`-style concatenation. -/
def joinNl : List (List Char) → List Char
  | [] => []
  | [l] => l
  | l :: ls => l ++ '\n' :: joinNl ls

/-- Parsed paper record (`ResearchPaper` of `types.ts`); `sourceURL` is the
only optional field. -/
@[ext]
structure Paper where
  title : List Char
  authors : List Char
  year : List Char
  summary : List Char
  sourceURL : Option (List Char)
deriving DecidableEq, Repr

/-- Partially filled record built while scanning a block
(`Partial<ResearchPaper>` in the code). -/
@[ext]
structure PartialPaper where
  title : Option (List Char) := none
  authors : Option (List Char) := none
  year : Option (List Char) := none
  sourceURL : Option (List Char) := none
  summary : Option (List Char) := none
deriving DecidableEq, Repr

/-- JS truthiness of an optional string field: present and non-empty. -/
def fieldOk : Option (List Char) → Bool
  | some v => !v.isEmpty
  | none => false

/-! ### The field regex, embedded

`labelParse s` succeeds iff `s` begins with `**<letters>:**` (the pattern
`\*\*([A-Za-z]+):\*\*`), returning the letters and the remainder. -/

def labelParse : List Char → Option (List Char × List Char)
  | '*' :: '*' :: rest =>
    let ls := rest.takeWhile Char.isAlpha
    match rest.dropWhile Char.isAlpha with
    | ':' :: '*' :: '*' :: r3 => if ls.isEmpty then none else some (ls, r3)
    | _ => none
  | _ => none

/-- The regex lookahead `(?=\s*\*\*[A-Za-z]+:\*\*)`: skipping whitespace
reaches a label marker. -/
def labelReachable (s : List Char) : Bool := (labelParse (s.dropWhile isWs)).isSome

/-- Lazy capture `[\s\S]*?` bounded by the lookahead (or end of input):
splits `s` at the earliest position where the lookahead holds. -/
def scanValue : List Char → List Char × List Char
  | [] => ([], [])
  | c :: cs =>
    if labelReachable (c :: cs) then ([], c :: cs)
    else
      let p := scanValue cs
      (c :: p.1, p.2)

/-- Leftmost occurrence of the label pattern. -/
def findLabel : List Char → Option (List Char × List Char)
  | [] => none
  | c :: cs =>
    match labelParse (c :: cs) with
    | some lr => some lr
    | none => findLabel cs

/-- One `regex.exec` loop step after another, fuelled (each step consumes at
least the six marker characters, so `length + 1` fuel suffices). -/
def scanFieldsAux : Nat → List Char → List (List Char × List Char)
  | 0, _ => []
  | fuel + 1, s =>
    match findLabel s with
    | none => []
    | some (label, after) =>
      let p := scanValue (after.dropWhile isWs)
      (label, p.1) :: scanFieldsAux fuel p.2

/-- All `(label, raw captured value)` pairs the `while ((match = fieldRegex
.exec(trimmedBlock)) !== null)` loop produces, in order. -/
def scanFields (s : List Char) : List (List Char × List Char) :=
  scanFieldsAux (s.length + 1) s

namespace GeminiService

/-- The `switch (key)` body of `parseGeminiResponse`
(`src/services/geminiService.ts`): lowercase the label, trim the captured
value, keep only the first line for the single-line fields and the full
value for `summary`; unrecognized labels are ignored. -/
def applyField (p : PartialPaper) (f : List Char × List Char) : PartialPaper :=
  let key := lower f.1
  let value := trimL f.2
  if key = "title".toList then { p with title := some (trimL (firstLine value)) }
  else if key = "authors".toList then { p with authors := some (trimL (firstLine value)) }
  else if key = "year".toList then { p with year := some (trimL (firstLine value)) }
  else if key = "sourceurl".toList then { p with sourceURL := some (trimL (firstLine value)) }
  else if key = "summary".toList then { p with summary := some value }
  else p

/-- Run the field loop of one block. -/
def collectFields (fs : List (List Char × List Char)) : PartialPaper :=
  fs.foldl applyField {}

/-- Fields scanned from a (trimmed) block. -/
def blockFields (block : List Char) : List (List Char × List Char) :=
  scanFields (trimL block)

/-- All four mandatory fields of a block were found with non-empty values
(the `if (paper.title && paper.authors && paper.year && paper.summary)`
guard); `sourceURL` plays no role. -/
def mandatoryPresent (block : List Char) : Bool :=
  let p := collectFields (blockFields block)
  fieldOk p.title && fieldOk p.authors && fieldOk p.year && fieldOk p.summary

/-- What one block of the response contributes: a full record, or nothing. -/
def blockToPaper (block : List Char) : Option Paper :=
  let t := trimL block
  if t.isEmpty then none
  else
    let p := collectFields (scanFields t)
    if fieldOk p.title && fieldOk p.authors && fieldOk p.year && fieldOk p.summary then
      some ⟨p.title.getD [], p.authors.getD [], p.year.getD [], p.summary.getD [], p.sourceURL⟩
    else none

/-- `parseGeminiResponse` of `src/services/geminiService.ts` (the
regex-based implementation, lines 618-665 of the concatenated source). -/
def parseGeminiResponse (text : List Char) : List Paper :=
  if (trimL text).isEmpty then []
  else (splitDashes text).filterMap blockToPaper

/-- Partially filled record of the connected-papers variant
(`parseConnectedPapersResponse`, lines 667-702): a `ResearchPaper` plus the
`connection` field. -/
structure PartialConn where
  title : Option (List Char) := none
  authors : Option (List Char) := none
  year : Option (List Char) := none
  sourceURL : Option (List Char) := none
  summary : Option (List Char) := none
  connection : Option (List Char) := none
deriving DecidableEq, Repr

/-- The `switch (key)` body of `parseConnectedPapersResponse`: the same five
cases as `applyField` plus `connection`, which keeps the full multi-line
value like `summary`. -/
def applyFieldConn (p : PartialConn) (f : List Char × List Char) : PartialConn :=
  let key := lower f.1
  let value := trimL f.2
  if key = "title".toList then { p with title := some (trimL (firstLine value)) }
  else if key = "authors".toList then { p with authors := some (trimL (firstLine value)) }
  else if key = "year".toList then { p with year := some (trimL (firstLine value)) }
  else if key = "sourceurl".toList then { p with sourceURL := some (trimL (firstLine value)) }
  else if key = "summary".toList then { p with summary := some value }
  else if key = "connection".toList then { p with connection := some value }
  else p

/-! ### Error classifier (`handleApiError` and the JSON-parse catches) -/

/-- The error taxonomy the service raises. -/
inductive ErrorKind where
  | rateLimit
  | serverError
  | apiError
  | parsingError
deriving DecidableEq, Repr

/-- A value thrown by the gateway / JSON parsing, as JS sees it:
an `Error` instance carries a message and may specifically be a
`SyntaxError`; anything else is a non-`Error` throw. -/
inductive Thrown where
  | jsError (message : List Char) (isSyntaxErr : Bool)
  | nonError
deriving DecidableEq, Repr

/-- The rate-limit test of `handleApiError`:
`message.includes('429') || message.toLowerCase().includes('rate limit')`. -/
def rateLimitMatch (msg : List Char) : Bool :=
  containsSub "429".toList msg || containsSub "rate limit".toList (lower msg)

/-- The server-error test of `handleApiError`:
`/5\d{2}/.test(message) || message.toLowerCase().includes('server error')`. -/
def serverErrorMatch (msg : List Char) : Bool :=
  has5xx msg || containsSub "server error".toList (lower msg)

/-- `handleApiError` (lines 41-56): which error class is raised. -/
def handleApiError : Thrown → ErrorKind
  | .jsError msg _ =>
    if rateLimitMatch msg then .rateLimit
    else if serverErrorMatch msg then .serverError
    else .apiError
  | .nonError => .apiError

/-- The catch-block of the structured-output calls
(`analyzeAndClusterPapers`, `generateCitations`): a `SyntaxError` from
`JSON.parse` becomes a `ParsingError`, everything else goes through
`handleApiError`. -/
def classifyStructuredFailure : Thrown → ErrorKind
  | .jsError _ true => .parsingError
  | e => handleApiError e

/-! ### Prompt builder (`buildAdvancedSearchPrompt`, lines 98-119) -/

structure AdvancedSearchOptions where
  startYear : List Char
  endYear : List Char
  authors : List Char
  excludeKeywords : List Char
deriving DecidableEq, Repr

/-- The year-range `if/else if` chain. -/
def yearsPart (o : AdvancedSearchOptions) : List Char :=
  if !o.startYear.isEmpty && !o.endYear.isEmpty then
    "\n- The papers MUST be published between ".toList ++ o.startYear
      ++ " and ".toList ++ o.endYear ++ ".".toList
  else if !o.startYear.isEmpty then
    "\n- The papers MUST be published in or after ".toList ++ o.startYear ++ ".".toList
  else if !o.endYear.isEmpty then
    "\n- The papers MUST be published in or before ".toList ++ o.endYear ++ ".".toList
  else []

/-- The authors clause. -/
def authorsPart (o : AdvancedSearchOptions) : List Char :=
  if !o.authors.isEmpty then
    "\n- The papers MUST include at least one of the following authors: \"".toList
      ++ o.authors ++ "\".".toList
  else []

/-- The excluded-keywords clause. -/
def excludePart (o : AdvancedSearchOptions) : List Char :=
  if !o.excludeKeywords.isEmpty then
    "\n- The search results MUST NOT include papers primarily about the following keywords: \"".toList
      ++ o.excludeKeywords ++ "\".".toList
  else []

/-- `buildAdvancedSearchPrompt`: the three `promptPart +=` steps in order. -/
def buildAdvancedSearchPrompt (o : AdvancedSearchOptions) : List Char :=
  yearsPart o ++ authorsPart o ++ excludePart o

/-- The `CONSTRAINTS:` interpolation of `fetchResearchPapers`:
`${advancedSearchInstruction || '\n- None.'}`. -/
def constraintsSection (o : AdvancedSearchOptions) : List Char :=
  if (buildAdvancedSearchPrompt o).isEmpty then "\n- None.".toList
  else buildAdvancedSearchPrompt o

/-! ### Search suggestions (`generateSearchSuggestions`, lines 284-322) -/

/-- How the suggestions call can end once a request has been issued. -/
inductive SuggestOutcome where
  | gatewayError (e : Thrown)
  | jsonError
  | parsed (suggestions : Option (List (List Char)))
deriving DecidableEq, Repr

/-- `generateSearchSuggestions` short-circuits without any model request
when the trimmed query is under 5 characters. -/
def suggestRequestIssued (q : List Char) : Bool := !((trimL q).length < 5)

/-- `generateSearchSuggestions`: result of the call; any failure inside the
`try` is caught and degraded to `[]`, and a missing `suggestions` key also
yields `[]` (`result.suggestions as string[] || []`). -/
def generateSearchSuggestions (q : List Char) (o : SuggestOutcome) : List (List Char) :=
  if (trimL q).length < 5 then []
  else
    match o with
    | .gatewayError _ => []
    | .jsonError => []
    | .parsed none => []
    | .parsed (some s) => s

/-! ### Result cache and `handleSearch` (App embedded in
`src/services/geminiService.ts`, lines 555-853 of the concatenated file) -/

/-- `CacheEntry` of the App: papers, citations and the write time
(`Date.now()`, milliseconds). -/
structure CacheEntry where
  papers : List Paper
  citations : List (List Char)
  timestamp : Int
deriving DecidableEq, Repr

/-- `CACHE_DURATION_MS = 5 * 60 * 1000`. -/
def CACHE_DURATION_MS : Int := 5 * 60 * 1000

/-- The `Map<string, CacheEntry>` modelled as an association list; a newer
binding for a key shadows an older one, observationally matching
`Map.set`'s overwrite. -/
abbrev Cache := List (List Char × CacheEntry)

/-- `searchCache.current.get(key)`. -/
def cacheGet (c : Cache) (k : List Char) : Option CacheEntry :=
  (c.find? (fun e => e.1 == k)).map (·.2)

/-- `searchCache.current.set(key, entry)` (unconditional overwrite). -/
def cachePut (c : Cache) (k : List Char) (e : CacheEntry) : Cache :=
  (k, e) :: c

/-- The freshness test of `handleSearch`:
`cachedData && (Date.now() - cachedData.timestamp < CACHE_DURATION_MS)`. -/
def isCacheHit (c : Cache) (k : List Char) (now : Int) : Bool :=
  match cacheGet c k with
  | some e => decide (now - e.timestamp < CACHE_DURATION_MS)
  | none => false

/-! The cache key of `handleSearch` (line 759):
```${query.trim().toLowerCase()}|${searchSource}|${summaryLength}|${summaryStyle}|${startYear}-${endYear}|${authors}|${excludeKeywords}|favs:${favoritePapers.map(p => p.title).join(';')}```. -/

inductive SearchSource where
  | google_scholar | general | jstor | pubmed | arxiv
deriving DecidableEq, Repr

inductive SummaryLength where
  | short | medium | detailed
deriving DecidableEq, Repr

inductive SummaryStyle where
  | paragraph | bullets | qa
deriving DecidableEq, Repr

/-- String interpolation of the `SearchSource` union value. -/
def sourceStr : SearchSource → List Char
  | .google_scholar => "google_scholar".toList
  | .general => "general".toList
  | .jstor => "jstor".toList
  | .pubmed => "pubmed".toList
  | .arxiv => "arxiv".toList

/-- String interpolation of the `SummaryLength` union value. -/
def lengthStr : SummaryLength → List Char
  | .short => "short".toList
  | .medium => "medium".toList
  | .detailed => "detailed".toList

/-- String interpolation of the `SummaryStyle` union value. -/
def styleStr : SummaryStyle → List Char
  | .paragraph => "paragraph".toList
  | .bullets => "bullets".toList
  | .qa => "qa".toList

/-- `favoritePapers.map(p => p.title).join(';')`. -/
def joinSemi : List (List Char) → List Char
  | [] => []
  | [t] => t
  | t :: ts => t ++ ';' :: joinSemi ts

/-- The composite cache key of `handleSearch`. -/
def cacheKeyOf (q : List Char) (src : SearchSource) (len : SummaryLength)
    (sty : SummaryStyle) (adv : AdvancedSearchOptions)
    (favTitles : List (List Char)) : List Char :=
  lower (trimL q) ++ '|' ::
    (sourceStr src ++ '|' ::
      (lengthStr len ++ '|' ::
        (styleStr sty ++ '|' ::
          (adv.startYear ++ '-' ::
            (adv.endYear ++ '|' ::
              (adv.authors ++ '|' ::
                (adv.excludeKeywords ++ '|' ::
                  ("favs:".toList ++ joinSemi favTitles))))))))

/-- `"The model returned an empty response. Please try refining your search
query."` -/
def emptyResponseMsg : List Char :=
  "The model returned an empty response. Please try refining your search query.".toList

/-- The unparsable-format message of `handleSearch`. -/
def unparsableMsg : List Char :=
  "Couldn't parse the research papers from the response. The model may have returned a non-standard format.".toList

/-- `"Failed to get a valid response from the research service."` -/
def nullResultMsg : List Char :=
  "Failed to get a valid response from the research service.".toList

/-- The message carried by the error `handleApiError` raises for a gateway
failure of `fetchResearchPapers` (all raised classes extend `ApiError`, so
`handleSearch`'s catch displays exactly this message). -/
def raisedMessage : Thrown → List Char
  | .jsError msg _ =>
    if rateLimitMatch msg then
      "You've exceeded the request rate limit. Please wait a moment and try again.".toList
    else if serverErrorMatch msg then
      "The research service is currently experiencing issues. Please try again later.".toList
    else
      "An issue occurred while fetching research papers: ".toList ++ msg
  | .nonError => "An unknown error occurred while fetching research papers.".toList

/-- How the awaited `fetchResearchPapers` call can end. -/
inductive FetchOutcome where
  | ok (text : List Char)
  | nullResult
  | threw (e : Thrown)
deriving DecidableEq, Repr

/-- Observable outcome of one `handleSearch` run. -/
structure SearchStep where
  issuedRequest : Bool
  cache : Cache
  papers : List Paper
  errorMsg : Option (List Char)
deriving DecidableEq, Repr

/-- The cache/parse/store slice of `handleSearch` (lines 755-853): `key` is
the computed cache key, `now` the `Date.now()` of the lookup, `outcome` how
the issued request ends, `citationsResult` what `handleGenerateCitations`
returns when invoked, and `now2` the `Date.now()` of the cache write. -/
def handleSearchModel (cache : Cache) (key : List Char) (now : Int)
    (outcome : FetchOutcome) (citationsResult : List (List Char))
    (now2 : Int) : SearchStep :=
  if isCacheHit cache key now then
    { issuedRequest := false
      cache := cache
      papers := ((cacheGet cache key).map (·.papers)).getD []
      errorMsg := none }
  else
    match outcome with
    | .ok text =>
      let parsed := parseGeminiResponse text
      let cits := if parsed.length > 0 then citationsResult else []
      { issuedRequest := true
        cache := cachePut cache key ⟨parsed, cits, now2⟩
        papers := parsed
        errorMsg :=
          if parsed.isEmpty && text.isEmpty then some emptyResponseMsg
          else if parsed.isEmpty && !text.isEmpty then some unparsableMsg
          else none }
    | .nullResult =>
      { issuedRequest := true, cache := cache, papers := [], errorMsg := some nullResultMsg }
    | .threw e =>
      { issuedRequest := true, cache := cache, papers := [], errorMsg := some (raisedMessage e) }

end GeminiService

namespace AppTsx

/-- Accumulator of the `lines.forEach` loop of `parseGeminiResponse` in
`src/App.tsx` (lines 40-79): the partially filled paper, the
`summaryBuffer` and the `isReadingSummary` flag. -/
structure LineState where
  title : Option (List Char) := none
  authors : Option (List Char) := none
  year : Option (List Char) := none
  sourceURL : Option (List Char) := none
  buf : List Char := []
  reading : Bool := false
deriving DecidableEq, Repr

/-- One iteration of the `forEach`: case-sensitive `startsWith` tests for
the five labels, in source order, then the summary-continuation branch. -/
def lineStep (st : LineState) (line : List Char) : LineState :=
  if ("**Title:**".toList).isPrefixOf line then
    { st with title := some (trimL (line.drop 10)), reading := false }
  else if ("**Authors:**".toList).isPrefixOf line then
    { st with authors := some (trimL (line.drop 12)), reading := false }
  else if ("**Year:**".toList).isPrefixOf line then
    { st with year := some (trimL (line.drop 9)), reading := false }
  else if ("**SourceURL:**".toList).isPrefixOf line then
    { st with sourceURL := some (trimL (line.drop 14)), reading := false }
  else if ("**Summary:**".toList).isPrefixOf line then
    { st with buf := trimL (line.drop 12), reading := true }
  else if st.reading then
    { st with buf := st.buf ++ ' ' :: trimL line }
  else st

/-- One block of the `.map(...)` followed by the `.filter(p => p.title &&
p.authors && p.year && p.summary)` truthiness test. -/
def blockToPaper (block : List Char) : Option Paper :=
  let st := (splitNl (trimL block)).foldl lineStep {}
  if fieldOk st.title && fieldOk st.authors && fieldOk st.year && !st.buf.isEmpty then
    some ⟨st.title.getD [], st.authors.getD [], st.year.getD [], st.buf, st.sourceURL⟩
  else none

/-- `parseGeminiResponse` of `src/App.tsx` (the line-based implementation). -/
def parseGeminiResponse (text : List Char) : List Paper :=
  if (trimL text).isEmpty then []
  else (splitDashes text).filterMap blockToPaper

end AppTsx

/-! ### Rendering papers into the delimited text format

For the round-trip and parser-equivalence claims we render a list of papers
into the exact text format the prompt requests: one `**Label:** value` field
per line (fields in an arbitrary per-paper order, `Summary` possibly
spanning several lines), entries separated by `---` on its own line. -/

/-- A recognized field of a paper block. -/
inductive FTag where
  | title | authors | year | sourceurl | summary
deriving DecidableEq, Repr

/-- Canonical label text of a field. -/
def tagLabel : FTag → List Char
  | .title => "Title".toList
  | .authors => "Authors".toList
  | .year => "Year".toList
  | .sourceurl => "SourceURL".toList
  | .summary => "Summary".toList

/-- A paper with known field values, together with the order in which the
renderer lays out its fields. -/
structure PaperSpec where
  title : List Char
  authors : List Char
  year : List Char
  sourceURL : Option (List Char)
  summary : List Char
  order : List FTag
deriving DecidableEq, Repr

/-- Value rendered for a field of the paper. -/
def valueOf (p : PaperSpec) : FTag → List Char
  | .title => p.title
  | .authors => p.authors
  | .year => p.year
  | .sourceurl => p.sourceURL.getD []
  | .summary => p.summary

/-- `**<label>:** <value>`. -/
def mkFieldLine (label v : List Char) : List Char :=
  '*' :: '*' :: (label ++ ':' :: '*' :: '*' :: ' ' :: v)

/-- A block: its fields, one `**Label:** value` line each, joined by
newlines (a multi-line value simply continues on the following lines). -/
def renderBlockFields (fields : List (List Char × List Char)) : List Char :=
  joinNl (fields.map fun f => mkFieldLine f.1 f.2)

/-- Render one paper as a block. -/
def renderPaperSpec (p : PaperSpec) : List Char :=
  renderBlockFields (p.order.map fun t => (tagLabel t, valueOf p t))

/-- Join blocks with the `---` delimiter on its own line. -/
def joinDashes : List (List Char) → List Char
  | [] => []
  | [b] => b
  | b :: bs => b ++ '\n' :: '-' :: '-' :: '-' :: '\n' :: joinDashes bs

/-- Render a whole response text. -/
def renderText (ps : List PaperSpec) : List Char :=
  joinDashes (ps.map renderPaperSpec)

/-- No position of `l` starts a `**<letters>:**` label marker. -/
def noMarkerB : List Char → Bool
  | [] => true
  | c :: cs => !(labelParse (c :: cs)).isSome && noMarkerB cs

/-- No position of `l` starts the `---` delimiter. -/
def noTripleB : List Char → Bool
  | [] => true
  | c :: cs => !(['-', '-', '-'].isPrefixOf (c :: cs)) && noTripleB cs

/-- No line of `l` begins with a label marker. -/
def linesNoMarker (l : List Char) : Bool :=
  (splitNl l).all fun x => !(labelParse x).isSome

/-- A value representable in the delimited format: trim-fixed, non-empty,
free of the `---` delimiter and of label markers. -/
def cleanValueB (v : List Char) : Bool :=
  (trimL v == v) && !v.isEmpty && noTripleB v && noMarkerB v && linesNoMarker v

/-- A single-line value. -/
def singleLineB (v : List Char) : Bool := !v.contains '\n'

/-- All field values of the paper are representable; the single-line fields
really are single lines. -/
def cleanSpecB (p : PaperSpec) : Bool :=
  cleanValueB p.title && singleLineB p.title &&
  cleanValueB p.authors && singleLineB p.authors &&
  cleanValueB p.year && singleLineB p.year &&
  (match p.sourceURL with
   | some u => cleanValueB u && singleLineB u
   | none => true) &&
  cleanValueB p.summary

/-- The rendering order lists each field at most once and lists
`sourceurl` exactly when the paper has a URL. -/
def orderOkB (p : PaperSpec) : Bool :=
  decide p.order.Nodup && (p.sourceURL.isSome == p.order.contains .sourceurl)

/-- The record the regex-based parser should recover for the paper. -/
def specPaper (p : PaperSpec) : Paper :=
  ⟨p.title, p.authors, p.year, p.summary, p.sourceURL⟩

/-- `join(' ')`. -/
def joinSp : List (List Char) → List Char
  | [] => []
  | [l] => l
  | l :: ls => l ++ ' ' :: joinSp ls

/-- The line-based parser joins a multi-line summary by trimming each line
and interposing single spaces. -/
def normSummary (s : List Char) : List Char :=
  joinSp ((splitNl s).map trimL)

/-- Whether all four mandatory fields appear in the rendering order. -/
def mandatoryTags (p : PaperSpec) : Bool :=
  p.order.contains .title && p.order.contains .authors &&
    p.order.contains .year && p.order.contains .summary

/-- Cleanliness required of a `(label, value)` pair for exact recovery. -/
def CleanFieldPair (f : List Char × List Char) : Prop :=
  f.1 ≠ [] ∧ f.1.all Char.isAlpha = true ∧ trimL f.2 = f.2 ∧
    noMarkerB f.2 = true ∧ f.2 ≠ []

/-- The partial record the regex field loop builds from a clean rendered
block: each component is present exactly when its field was rendered. -/
def expectedPartial (p : PaperSpec) : PartialPaper :=
  { title := if FTag.title ∈ p.order then some p.title else none
    authors := if FTag.authors ∈ p.order then some p.authors else none
    year := if FTag.year ∈ p.order then some p.year else none
    sourceURL := if FTag.sourceurl ∈ p.order then some (p.sourceURL.getD []) else none
    summary := if FTag.summary ∈ p.order then some p.summary else none }

/-- The record the line-based parser should recover: the same paper with the
summary lines joined by single spaces. -/
def specPaperLine (p : PaperSpec) : Paper :=
  ⟨p.title, p.authors, p.year, normSummary p.summary, p.sourceURL⟩

/-- The lines one rendered field of a paper contributes to its block. -/
def lineGroupOf (p : PaperSpec) (t : FTag) : List (List Char) :=
  match splitNl (valueOf p t) with
  | v0 :: vtail => (('*' :: '*' :: (tagLabel t ++ [':', '*', '*', ' '])) ++ v0) :: vtail
  | [] => []

/-- First character is not whitespace (vacuously true for `[]`). -/
def headNonWsB : List Char → Bool
  | [] => true
  | c :: _ => !isWs c

/-- Last character is not whitespace. -/
def lastNonWsB (l : List Char) : Bool := headNonWsB l.reverse

/-! ## Lemmas: trimming -/

theorem length_dropWhile_le (p : Char → Bool) (l : List Char) :
    (l.dropWhile p).length ≤ l.length :=
  (List.dropWhile_sublist (p := p) (l := l)).length_le

theorem dropWhile_fix {l : List Char} (h : headNonWsB l = true) :
    l.dropWhile isWs = l := by
  cases l with
  | nil => rfl
  | cons c cs =>
    simp only [headNonWsB, Bool.not_eq_true'] at h
    simp [List.dropWhile_cons, h]

theorem trimL_fix {l : List Char} (h1 : headNonWsB l = true)
    (h2 : lastNonWsB l = true) : trimL l = l := by
  unfold trimL trimLeft trimR
  rw [dropWhile_fix h1, dropWhile_fix h2, List.reverse_reverse]

theorem dropWhile_length_fix {l : List Char} (h : (l.dropWhile isWs).length = l.length) :
    l.dropWhile isWs = l := by
  cases l with
  | nil => rfl
  | cons c cs =>
    by_cases hc : isWs c = true
    · exfalso
      rw [List.dropWhile_cons, if_pos hc] at h
      have := length_dropWhile_le isWs cs
      simp at h; omega
    · simp at hc; simp [List.dropWhile_cons, hc]

theorem trimLeft_of_trim_fix {l : List Char} (h : trimL l = l) : trimLeft l = l := by
  have hlen1 : (trimLeft l).length ≤ l.length := length_dropWhile_le _ _
  have hlen2 : (trimR (trimLeft l)).length ≤ (trimLeft l).length := by
    unfold trimR
    rw [List.length_reverse]
    have := length_dropWhile_le isWs (trimLeft l).reverse
    simpa using this
  have hl : (trimLeft l).length = l.length := by
    have hx : (trimL l).length = l.length := by rw [h]
    unfold trimL at hx; omega
  exact dropWhile_length_fix hl

theorem trimR_of_trim_fix {l : List Char} (h : trimL l = l) : trimR l = l := by
  have h1 := trimLeft_of_trim_fix h
  unfold trimL at h; rw [h1] at h; exact h

theorem headNonWs_of_trim_fix {l : List Char} (h : trimL l = l) :
    headNonWsB l = true := by
  have h1 := trimLeft_of_trim_fix h
  cases l with
  | nil => rfl
  | cons c cs =>
    by_cases hc : isWs c = true
    · exfalso
      unfold trimLeft at h1
      rw [List.dropWhile_cons, if_pos hc] at h1
      have h2 := length_dropWhile_le isWs cs
      have h3 := congrArg List.length h1
      simp at h3; omega
    · simpa [headNonWsB] using hc

theorem lastNonWs_of_trim_fix {l : List Char} (h : trimL l = l) :
    lastNonWsB l = true := by
  have h1 := trimR_of_trim_fix h
  unfold trimR at h1
  have h2 : l.reverse.dropWhile isWs = l.reverse := by
    have := congrArg List.reverse h1
    simpa using this
  unfold lastNonWsB
  cases hr : l.reverse with
  | nil => rfl
  | cons c cs =>
    rw [hr] at h2
    by_cases hc : isWs c = true
    · exfalso
      rw [List.dropWhile_cons, if_pos hc] at h2
      have h3 := length_dropWhile_le isWs cs
      have h4 := congrArg List.length h2
      simp at h4; omega
    · simpa [headNonWsB] using hc

theorem trimL_cons_ws {c : Char} {l : List Char} (h : isWs c = true) :
    trimL (c :: l) = trimL l := by
  unfold trimL trimLeft
  rw [List.dropWhile_cons, if_pos h]

theorem trimR_append_ws {c : Char} {l : List Char} (h : isWs c = true) :
    trimR (l ++ [c]) = trimR l := by
  unfold trimR
  rw [List.reverse_append]
  simp only [List.reverse_cons, List.reverse_nil, List.nil_append, List.singleton_append]
  rw [List.dropWhile_cons, if_pos h]

theorem trimL_append_ws {c : Char} {l : List Char} (h : isWs c = true) :
    trimL (l ++ [c]) = trimL l := by
  unfold trimL trimLeft
  rw [List.dropWhile_append]
  by_cases he : (l.dropWhile isWs).isEmpty
  · rw [if_pos he]
    have h1 : ([c] : List Char).dropWhile isWs = [] := by
      simp [List.dropWhile_cons, h]
    have h2 : l.dropWhile isWs = [] := by simpa using he
    rw [h1, h2]
  · rw [if_neg he]
    exact trimR_append_ws h

theorem trimL_nil : trimL ([] : List Char) = [] := rfl

/-! ## Lemmas: newline splitting -/

theorem splitNl_cons (c : Char) (cs : List Char) :
    splitNl (c :: cs) = if c = '\n' then [] :: splitNl cs
      else (match splitNl cs with | r :: rs => (c :: r) :: rs | [] => [[c]]) := rfl

theorem splitNl_ne_nil (l : List Char) : splitNl l ≠ [] := by
  cases l with
  | nil => simp [splitNl]
  | cons c cs =>
    rw [splitNl_cons]
    by_cases h : c = '\n'
    · simp [h]
    · rw [if_neg h]
      cases splitNl cs <;> simp

theorem splitNl_cons_nl (l : List Char) : splitNl ('\n' :: l) = [] :: splitNl l := by
  rw [splitNl_cons, if_pos rfl]

theorem splitNl_cons_head {c : Char} {cs x : List Char} {xs : List (List Char)}
    (h : c ≠ '\n') (hs : splitNl cs = x :: xs) :
    splitNl (c :: cs) = (c :: x) :: xs := by
  rw [splitNl_cons, if_neg h, hs]

theorem splitNl_append (a b : List Char) :
    splitNl (a ++ '\n' :: b) = splitNl a ++ splitNl b := by
  induction a with
  | nil => simp [splitNl_cons_nl, splitNl]
  | cons c cs ih =>
    by_cases h : c = '\n'
    · subst h
      rw [List.cons_append, splitNl_cons_nl, splitNl_cons_nl, ih, List.cons_append]
    · obtain ⟨x, xs, hx⟩ : ∃ x xs, splitNl cs = x :: xs := by
        cases hs : splitNl cs with
        | nil => exact absurd hs (splitNl_ne_nil cs)
        | cons x xs => exact ⟨x, xs, rfl⟩
      have h1 : splitNl (cs ++ '\n' :: b) = x :: (xs ++ splitNl b) := by
        rw [ih, hx]; rfl
      rw [List.cons_append, splitNl_cons_head h h1, splitNl_cons_head h hx,
        List.cons_append]

theorem splitNl_no_nl {a : List Char} (h : ('\n' : Char) ∉ a) : splitNl a = [a] := by
  induction a with
  | nil => rfl
  | cons c cs ih =>
    have hc : c ≠ '\n' := by intro hh; exact h (hh ▸ List.mem_cons_self c cs)
    have hcs : ('\n' : Char) ∉ cs := fun hh => h (List.mem_cons_of_mem c hh)
    rw [splitNl_cons_head hc (ih hcs)]

theorem splitNl_prepend {p v x : List Char} {xs : List (List Char)}
    (hp : ('\n' : Char) ∉ p) (hv : splitNl v = x :: xs) :
    splitNl (p ++ v) = (p ++ x) :: xs := by
  induction p with
  | nil => simpa using hv
  | cons c cs ih =>
    have hc : c ≠ '\n' := by intro hh; exact hp (hh ▸ List.mem_cons_self c cs)
    have hcs : ('\n' : Char) ∉ cs := fun hh => hp (List.mem_cons_of_mem c hh)
    rw [List.cons_append, splitNl_cons_head hc (ih hcs), List.cons_append]

/-! ## Lemmas: dash splitting -/

theorem splitDashesAux_congr : ∀ (f g : Nat) (s : List Char),
    s.length ≤ f → s.length ≤ g → splitDashesAux f s = splitDashesAux g s := by
  intro f
  induction f with
  | zero =>
    intro g s hf _
    have : s = [] := List.length_eq_zero.mp (Nat.le_zero.mp hf)
    subst this
    cases g <;> rfl
  | succ f ih =>
    intro g s hf hg
    cases s with
    | nil => cases g <;> rfl
    | cons c cs =>
      cases g with
      | zero => simp at hg
      | succ g =>
        show (if ['-', '-', '-'].isPrefixOf (c :: cs) then
            [] :: splitDashesAux f (cs.drop 2)
          else match splitDashesAux f cs with
            | r :: rs => (c :: r) :: rs
            | [] => [[c]]) =
          (if ['-', '-', '-'].isPrefixOf (c :: cs) then
            [] :: splitDashesAux g (cs.drop 2)
          else match splitDashesAux g cs with
            | r :: rs => (c :: r) :: rs
            | [] => [[c]])
        simp only [List.length_cons] at hf hg
        by_cases h : ['-', '-', '-'].isPrefixOf (c :: cs)
        · rw [if_pos h, if_pos h,
            ih g (cs.drop 2) (by have := List.length_drop 2 cs; omega)
              (by have := List.length_drop 2 cs; omega)]
        · rw [if_neg h, if_neg h, ih g cs (by omega) (by omega)]

theorem splitDashes_of_le {f : Nat} {s : List Char} (h : s.length ≤ f) :
    splitDashesAux f s = splitDashes s :=
  splitDashesAux_congr f s.length s h (Nat.le_refl _)

theorem splitDashes_nil : splitDashes [] = [[]] := rfl

theorem splitDashes_triple (r : List Char) :
    splitDashes ('-' :: '-' :: '-' :: r) = [] :: splitDashes r := by
  show (if ['-', '-', '-'].isPrefixOf ('-' :: '-' :: '-' :: r) then
      [] :: splitDashesAux (r.length + 2) (('-' :: '-' :: r).drop 2)
    else _) = _
  rw [if_pos (by simp [List.isPrefixOf])]
  simp only [List.drop_succ_cons, List.drop_zero]
  rw [splitDashes_of_le (by omega)]

theorem splitDashes_cons {c : Char} {cs : List Char}
    (h : ['-', '-', '-'].isPrefixOf (c :: cs) = false) :
    splitDashes (c :: cs) =
      (match splitDashes cs with | r :: rs => (c :: r) :: rs | [] => [[c]]) := by
  show (if ['-', '-', '-'].isPrefixOf (c :: cs) then
      [] :: splitDashesAux cs.length (cs.drop 2)
    else match splitDashesAux cs.length cs with
      | r :: rs => (c :: r) :: rs
      | [] => [[c]]) = _
  rw [if_neg (by simp [h])]
  rfl

theorem splitDashesAux_ne_nil : ∀ (f : Nat) (s : List Char), splitDashesAux f s ≠ [] := by
  intro f
  induction f with
  | zero => intro s; cases s <;> simp [splitDashesAux]
  | succ f ih =>
    intro s
    cases s with
    | nil => simp [splitDashesAux]
    | cons c cs =>
      show (if ['-', '-', '-'].isPrefixOf (c :: cs) then
          [] :: splitDashesAux f (cs.drop 2)
        else match splitDashesAux f cs with
          | r :: rs => (c :: r) :: rs
          | [] => [[c]]) ≠ []
      by_cases h : ['-', '-', '-'].isPrefixOf (c :: cs)
      · rw [if_pos h]; simp
      · rw [if_neg h]
        cases splitDashesAux f cs <;> simp

theorem splitDashes_ne_nil (l : List Char) : splitDashes l ≠ [] :=
  splitDashesAux_ne_nil _ _

theorem noTripleB_cons (c : Char) (cs : List Char) :
    noTripleB (c :: cs) = (!(['-', '-', '-'].isPrefixOf (c :: cs)) && noTripleB cs) := rfl

theorem splitDashes_no_triple {l : List Char} (h : noTripleB l = true) :
    splitDashes l = [l] := by
  induction l with
  | nil => rfl
  | cons c cs ih =>
    rw [noTripleB_cons, Bool.and_eq_true, Bool.not_eq_true'] at h
    rw [splitDashes_cons h.1, ih h.2]

theorem noTripleB_append_nondash {b : List Char} {c : Char}
    (h : noTripleB b = true) (hc : c ≠ '-') : noTripleB (b ++ [c]) = true := by
  induction b with
  | nil => simp [noTripleB, List.isPrefixOf, hc]
  | cons x xs ih =>
    rw [noTripleB_cons, Bool.and_eq_true, Bool.not_eq_true'] at h
    rw [List.cons_append, noTripleB_cons, Bool.and_eq_true, Bool.not_eq_true']
    refine ⟨?_, ih h.2⟩
    cases xs with
    | nil => simp [List.isPrefixOf, hc]
    | cons y ys =>
      cases ys with
      | nil =>
        simp [List.isPrefixOf]
        exact fun _ _ h3 => hc h3.symm
      | cons z zs =>
        have := h.1
        simpa [List.isPrefixOf] using this

theorem splitDashes_append_sep {a : List Char} (b : List Char)
    (ha : noTripleB a = true) (h2 : a.getLast? ≠ some '-') :
    splitDashes (a ++ '-' :: '-' :: '-' :: b) = a :: splitDashes b := by
  induction a with
  | nil => simpa using splitDashes_triple b
  | cons c cs ih =>
    rw [noTripleB_cons, Bool.and_eq_true, Bool.not_eq_true'] at ha
    have hpref : ['-', '-', '-'].isPrefixOf (c :: (cs ++ '-' :: '-' :: '-' :: b)) = false := by
      cases cs with
      | nil =>
        have hc : c ≠ '-' := by simpa using h2
        simp [List.isPrefixOf]
        exact fun h => hc h.symm
      | cons d ds =>
        cases ds with
        | nil =>
          have hd : d ≠ '-' := by simpa using h2
          simp [List.isPrefixOf]
          exact fun _ h => hd h.symm
        | cons e es =>
          have := ha.1
          simpa [List.isPrefixOf] using this
    rw [List.cons_append, splitDashes_cons hpref]
    cases cs with
    | nil =>
      rw [show ([] : List Char) ++ '-' :: '-' :: '-' :: b = '-' :: '-' :: '-' :: b from rfl,
        splitDashes_triple]
    | cons d ds =>
      have hlast : (d :: ds).getLast? ≠ some '-' := by
        rwa [List.getLast?_cons_cons] at h2
      rw [ih ha.2 hlast]

theorem joinDashes_cons (b b2 : List Char) (rest : List (List Char)) :
    joinDashes (b :: b2 :: rest) =
      (b ++ ['\n']) ++ '-' :: '-' :: '-' :: ('\n' :: joinDashes (b2 :: rest)) := by
  show b ++ '\n' :: '-' :: '-' :: '-' :: '\n' :: joinDashes (b2 :: rest) = _
  simp

theorem splitDashes_joinDashes : ∀ (bs : List (List Char)) (b : List Char),
    noTripleB b = true → trimL b = b →
    (∀ x ∈ bs, noTripleB x = true ∧ trimL x = x) →
    (splitDashes (joinDashes (b :: bs))).map trimL = b :: bs := by
  intro bs
  induction bs with
  | nil =>
    intro b hb htb _
    show (splitDashes b).map trimL = [b]
    rw [splitDashes_no_triple hb]
    simp [htb]
  | cons b2 rest ih =>
    intro b hb htb hall
    rw [joinDashes_cons, splitDashes_append_sep _
      (noTripleB_append_nondash hb (by decide)) (by rw [List.getLast?_concat]; decide)]
    have hpref2 : ['-', '-', '-'].isPrefixOf ('\n' :: joinDashes (b2 :: rest)) = false := by
      simp [List.isPrefixOf]
    rw [splitDashes_cons hpref2]
    obtain ⟨y, ys, hy⟩ : ∃ y ys, splitDashes (joinDashes (b2 :: rest)) = y :: ys := by
      cases hs : splitDashes (joinDashes (b2 :: rest)) with
      | nil => exact absurd hs (splitDashes_ne_nil _)
      | cons y ys => exact ⟨y, ys, rfl⟩
    have hrec := ih b2 (hall b2 (List.mem_cons_self _ _)).1 (hall b2 (List.mem_cons_self _ _)).2
      (fun x hx => hall x (List.mem_cons_of_mem _ hx))
    rw [hy] at hrec
    simp only [List.map_cons] at hrec
    rw [hy]
    simp only [List.map_cons]
    rw [trimL_append_ws (by decide), htb, trimL_cons_ws (by decide)]
    rw [List.cons_eq_cons] at hrec
    rw [hrec.1, hrec.2]

theorem trimL_ne_nil {l : List Char} (hh : headNonWsB l = true) (hne : l ≠ []) :
    trimL l ≠ [] := by
  intro h0
  unfold trimL at h0
  rw [show trimLeft l = l from dropWhile_fix hh] at h0
  unfold trimR at h0
  have h1 : l.reverse.dropWhile isWs = [] := by
    have := congrArg List.reverse h0
    simpa using this
  have h2 : ∀ c ∈ l.reverse, isWs c = true := List.dropWhile_eq_nil_iff.mp h1
  cases l with
  | nil => exact hne rfl
  | cons c cs =>
    have hc : isWs c = true := h2 c (by simp)
    simp [headNonWsB, hc] at hh

theorem headNonWsB_append {x y : List Char} (h : x ≠ []) :
    headNonWsB (x ++ y) = headNonWsB x := by
  cases x with
  | nil => exact absurd rfl h
  | cons c cs => rfl

/-! ## Lemmas: the label marker -/

theorem labelParse_some_iff {s l r : List Char} :
    labelParse s = some (l, r) ↔
      l ≠ [] ∧ l.all Char.isAlpha = true ∧ s = '*' :: '*' :: (l ++ ':' :: '*' :: '*' :: r) := by
  constructor
  · intro h
    unfold labelParse at h
    split at h
    case _ rest =>
      split at h
      case _ r3 heq =>
        have h' : (if (rest.takeWhile Char.isAlpha).isEmpty = true then none
            else some (rest.takeWhile Char.isAlpha, r3)) = some (l, r) := h
        split at h'
        case isTrue => exact absurd h' (by simp)
        case isFalse hne =>
          rw [Option.some_inj, Prod.mk.injEq] at h'
          obtain ⟨hl, hr⟩ := h'
          subst hl; subst hr
          refine ⟨by simpa using hne, ?_, ?_⟩
          · rw [List.all_eq_true]
            exact fun a ha => List.mem_takeWhile_imp ha
          · have hsplit := List.takeWhile_append_dropWhile (p := Char.isAlpha) (l := rest)
            rw [heq] at hsplit
            rw [hsplit]
      case _ => exact absurd h (by simp)
    case _ => exact absurd h (by simp)
  · rintro ⟨h1, h2, rfl⟩
    show (let ls := (l ++ ':' :: '*' :: '*' :: r).takeWhile Char.isAlpha
      match (l ++ ':' :: '*' :: '*' :: r).dropWhile Char.isAlpha with
      | ':' :: '*' :: '*' :: r3 => if ls.isEmpty then none else some (ls, r3)
      | _ => none) = some (l, r)
    have hall : ∀ a ∈ l, Char.isAlpha a = true := List.all_eq_true.mp h2
    have htake : (l ++ ':' :: '*' :: '*' :: r).takeWhile Char.isAlpha = l := by
      rw [List.takeWhile_append_of_pos hall]
      simp [List.takeWhile_cons]
    have hdrop : (l ++ ':' :: '*' :: '*' :: r).dropWhile Char.isAlpha = ':' :: '*' :: '*' :: r := by
      rw [List.dropWhile_append_of_pos hall]
      simp [List.dropWhile_cons]
    simp only [htake, hdrop]
    rw [if_neg (by simpa using h1)]

theorem labelParse_marker {l r : List Char} (h1 : l ≠ [])
    (h2 : l.all Char.isAlpha = true) :
    labelParse ('*' :: '*' :: (l ++ ':' :: '*' :: '*' :: r)) = some (l, r) :=
  labelParse_some_iff.mpr ⟨h1, h2, rfl⟩

theorem marker_chars {l : List Char} (h2 : l.all Char.isAlpha = true) :
    ∀ c ∈ '*' :: '*' :: (l ++ [':', '*', '*']),
      c = '*' ∨ c = ':' ∨ c.isAlpha = true := by
  intro c hc
  rcases List.mem_cons.mp hc with rfl | hc
  · exact Or.inl rfl
  rcases List.mem_cons.mp hc with rfl | hc
  · exact Or.inl rfl
  rcases List.mem_append.mp hc with hl | hr
  · exact Or.inr (Or.inr (List.all_eq_true.mp h2 _ hl))
  · rcases List.mem_cons.mp hr with rfl | hr
    · exact Or.inr (Or.inl rfl)
    rcases List.mem_cons.mp hr with rfl | hr
    · exact Or.inl rfl
    rcases List.mem_cons.mp hr with rfl | hr
    · exact Or.inl rfl
    · exact absurd hr (List.not_mem_nil c)

theorem nl_not_marker_char : ¬(('\n' : Char) = '*' ∨ ('\n' : Char) = ':' ∨
    ('\n' : Char).isAlpha = true) := by decide

theorem labelParse_append_nl {a w l r : List Char}
    (h : labelParse (a ++ '\n' :: w) = some (l, r)) :
    ∃ rr, labelParse a = some (l, rr) ∧ r = rr ++ '\n' :: w := by
  obtain ⟨h1, h2, h3⟩ := labelParse_some_iff.mp h
  have hre : a ++ '\n' :: w = ('*' :: '*' :: (l ++ [':', '*', '*'])) ++ r := by
    rw [h3]; simp
  rcases List.append_eq_append_iff.mp hre with ⟨k, hk1, hk2⟩ | ⟨k, hk1, hk2⟩
  · -- marker = a ++ k and '\n' :: w = k ++ r
    cases k with
    | nil =>
      refine ⟨[], ?_, by simpa using hk2.symm⟩
      have ha : a = '*' :: '*' :: (l ++ ':' :: '*' :: '*' :: ([] : List Char)) := by
        have h0 := hk1
        simp only [List.append_nil] at h0
        rw [← h0]
      rw [ha]
      exact labelParse_marker h1 h2
    | cons d ds =>
      exfalso
      have hd : d = '\n' := by
        rw [List.cons_append, List.cons_eq_cons] at hk2
        exact hk2.1.symm
      have hmem : d ∈ '*' :: '*' :: (l ++ [':', '*', '*']) := by
        rw [hk1]
        exact List.mem_append.mpr (Or.inr (by simp))
      subst hd
      exact nl_not_marker_char (marker_chars h2 _ hmem)
  · -- a = marker ++ k, r = k ++ '\n' :: w
    refine ⟨k, ?_, hk2⟩
    have ha : a = '*' :: '*' :: (l ++ ':' :: '*' :: '*' :: k) := by
      rw [hk1]; simp
    rw [ha]
    exact labelParse_marker h1 h2

theorem labelParse_not_star {c : Char} {cs : List Char} (h : c ≠ '*') :
    labelParse (c :: cs) = none := by
  cases hl : labelParse (c :: cs) with
  | none => rfl
  | some lr =>
    obtain ⟨l, r⟩ := lr
    obtain ⟨_, _, h3⟩ := labelParse_some_iff.mp hl
    rw [List.cons_eq_cons] at h3
    exact absurd h3.1 h

/-! ## Lemmas: the value scanner -/

theorem noMarkerB_cons (c : Char) (cs : List Char) :
    noMarkerB (c :: cs) = (!(labelParse (c :: cs)).isSome && noMarkerB cs) := rfl

theorem lastNonWsB_cons {c : Char} {cs : List Char} (h : cs ≠ []) :
    lastNonWsB (c :: cs) = lastNonWsB cs := by
  unfold lastNonWsB
  rw [List.reverse_cons]
  exact headNonWsB_append (by simpa using h)

theorem labelReachable_cons_ws {c : Char} {x : List Char} (h : isWs c = true) :
    labelReachable (c :: x) = labelReachable x := by
  unfold labelReachable
  rw [List.dropWhile_cons, if_pos h]

theorem labelReachable_cons_nonws {c : Char} {x : List Char} (h : isWs c = false) :
    labelReachable (c :: x) = (labelParse (c :: x)).isSome := by
  unfold labelReachable
  rw [List.dropWhile_cons, if_neg (by simp [h])]

theorem not_reachable {v : List Char} (suffix : List Char) (hv : v ≠ [])
    (hlast : lastNonWsB v = true) (hm : noMarkerB v = true)
    (hsuf : suffix = [] ∨ ∃ w, suffix = '\n' :: w) :
    labelReachable (v ++ suffix) = false := by
  induction v with
  | nil => exact absurd rfl hv
  | cons c cs ih =>
    rw [noMarkerB_cons, Bool.and_eq_true, Bool.not_eq_true'] at hm
    by_cases hc : isWs c = true
    · cases cs with
      | nil =>
        exfalso
        unfold lastNonWsB headNonWsB at hlast
        simp [hc] at hlast
      | cons d ds =>
        rw [List.cons_append, labelReachable_cons_ws hc]
        exact ih (by simp) (by rw [← lastNonWsB_cons (c := c) (by simp)]; exact hlast) hm.2
    · simp only [Bool.not_eq_true] at hc
      rw [List.cons_append, labelReachable_cons_nonws hc]
      rcases hsuf with rfl | ⟨w, rfl⟩
      · simpa using hm.1
      · cases hp : labelParse (c :: (cs ++ '\n' :: w)) with
        | none => simp
        | some lr =>
          exfalso
          obtain ⟨ll, rr⟩ := lr
          have hp2 : labelParse ((c :: cs) ++ '\n' :: w) = some (ll, rr) := by
            simpa using hp
          obtain ⟨rr2, hfound, _⟩ := labelParse_append_nl hp2
          rw [hfound] at hm
          simp at hm

theorem scanValue_cons (c : Char) (cs : List Char) :
    scanValue (c :: cs) = if labelReachable (c :: cs) then ([], c :: cs)
      else (c :: (scanValue cs).1, (scanValue cs).2) := rfl

theorem scanValue_stop : ∀ (v : List Char) {suffix : List Char},
    lastNonWsB v = true → noMarkerB v = true →
    (suffix = [] ∨ ∃ w l r, suffix = '\n' :: w ∧ labelParse w = some (l, r)) →
    scanValue (v ++ suffix) = (v, suffix) := by
  intro v
  induction v with
  | nil =>
    intro suffix _ _ hsuf
    rcases hsuf with rfl | ⟨w, l, r, rfl, hw⟩
    · rfl
    · show scanValue ('\n' :: w) = ([], '\n' :: w)
      obtain ⟨_, _, hw3⟩ := labelParse_some_iff.mp hw
      have h1 : labelReachable ('\n' :: w) = true := by
        rw [labelReachable_cons_ws (by decide), hw3,
          labelReachable_cons_nonws (by decide), ← hw3, hw]
        rfl
      rw [scanValue_cons, if_pos h1]
  | cons c cs ih =>
    intro suffix hlast hm hsuf
    have hm' := hm
    rw [noMarkerB_cons, Bool.and_eq_true, Bool.not_eq_true'] at hm'
    have hsuf' : suffix = [] ∨ ∃ w, suffix = '\n' :: w := by
      rcases hsuf with rfl | ⟨w, l, r, rfl, _⟩
      · exact Or.inl rfl
      · exact Or.inr ⟨w, rfl⟩
    have hnr := not_reachable suffix (v := c :: cs) (by simp) hlast hm hsuf'
    rw [List.cons_append] at hnr
    rw [List.cons_append, scanValue_cons, if_neg (by simp [hnr])]
    have hlcs : lastNonWsB cs = true := by
      cases cs with
      | nil => rfl
      | cons d ds =>
        rw [← lastNonWsB_cons (c := c) (by simp)]
        exact hlast
    rw [ih hlcs hm'.2 hsuf]

/-! ## Lemmas: leftmost label search and the field scanner -/

theorem findLabel_cons_eq (c : Char) (cs : List Char) :
    findLabel (c :: cs) = (match labelParse (c :: cs) with
      | some lr => some lr
      | none => findLabel cs) := rfl

theorem findLabel_of_some {s : List Char} {x : List Char × List Char}
    (h : labelParse s = some x) : findLabel s = some x := by
  cases s with
  | nil => simp [labelParse] at h
  | cons c cs => rw [findLabel_cons_eq, h]

theorem findLabel_cons_of_none {c : Char} {cs : List Char}
    (h : labelParse (c :: cs) = none) : findLabel (c :: cs) = findLabel cs := by
  rw [findLabel_cons_eq, h]

theorem findLabel_length : ∀ {s l after : List Char},
    findLabel s = some (l, after) → after.length + 6 ≤ s.length := by
  intro s
  induction s with
  | nil => intro l after h; simp [findLabel] at h
  | cons c cs ih =>
    intro l after h
    rw [findLabel_cons_eq] at h
    cases hp : labelParse (c :: cs) with
    | some lr =>
      rw [hp] at h
      obtain ⟨hl⟩ := h
      obtain ⟨h1, _, h3⟩ := labelParse_some_iff.mp hp
      have hlen := congrArg List.length h3
      have hlp : 1 ≤ l.length := by
        cases l with
        | nil => exact absurd rfl h1
        | cons _ _ => simp
      simp at hlen
      simp only [List.length_cons]
      omega
    | none =>
      rw [hp] at h
      have := ih h
      simp only [List.length_cons]
      omega

theorem scanValue_length_le : ∀ s : List Char, (scanValue s).2.length ≤ s.length := by
  intro s
  induction s with
  | nil => simp [scanValue]
  | cons c cs ih =>
    rw [scanValue_cons]
    by_cases h : labelReachable (c :: cs) = true
    · rw [if_pos h]
    · rw [if_neg h]
      simp only [List.length_cons]
      omega

theorem scanFieldsAux_congr : ∀ (f g : Nat) (s : List Char),
    s.length < f → s.length < g → scanFieldsAux f s = scanFieldsAux g s := by
  intro f
  induction f with
  | zero => intro g s hf; omega
  | succ f ih =>
    intro g s hf hg
    cases g with
    | zero => omega
    | succ g =>
      show (match findLabel s with
        | none => []
        | some (label, after) =>
          (label, (scanValue (after.dropWhile isWs)).1) ::
            scanFieldsAux f (scanValue (after.dropWhile isWs)).2) =
        (match findLabel s with
        | none => []
        | some (label, after) =>
          (label, (scanValue (after.dropWhile isWs)).1) ::
            scanFieldsAux g (scanValue (after.dropWhile isWs)).2)
      cases hfind : findLabel s with
      | none => rfl
      | some la =>
        obtain ⟨label, after⟩ := la
        have hlen := findLabel_length hfind
        have h1 : (scanValue (after.dropWhile isWs)).2.length < s.length := by
          have h2 := scanValue_length_le (after.dropWhile isWs)
          have h3 := length_dropWhile_le isWs after
          omega
        simp only []
        rw [ih g _ (by omega) (by omega)]

theorem scanFields_eq (s : List Char) : scanFields s =
    match findLabel s with
    | none => []
    | some (label, after) =>
      (label, (scanValue (after.dropWhile isWs)).1) ::
        scanFields (scanValue (after.dropWhile isWs)).2 := by
  show scanFieldsAux (s.length + 1) s = _
  have h1 : scanFieldsAux (s.length + 1) s =
      (match findLabel s with
      | none => []
      | some (label, after) =>
        (label, (scanValue (after.dropWhile isWs)).1) ::
          scanFieldsAux s.length (scanValue (after.dropWhile isWs)).2) := rfl
  rw [h1]
  cases hfind : findLabel s with
  | none => rfl
  | some la =>
    obtain ⟨label, after⟩ := la
    have hlen := findLabel_length hfind
    have h2 : (scanValue (after.dropWhile isWs)).2.length < s.length := by
      have h3 := scanValue_length_le (after.dropWhile isWs)
      have h4 := length_dropWhile_le isWs after
      omega
    simp only []
    rw [scanFieldsAux_congr s.length ((scanValue (after.dropWhile isWs)).2.length + 1) _
      (by omega) (by omega)]
    rfl

theorem scanFields_nil : scanFields [] = [] := rfl

theorem scanFields_cons_of_none {c : Char} {cs : List Char}
    (h : labelParse (c :: cs) = none) : scanFields (c :: cs) = scanFields cs := by
  rw [scanFields_eq, scanFields_eq (s := cs), findLabel_cons_of_none h]

theorem scanFields_of_findLabel_some {s label after : List Char}
    (h : findLabel s = some (label, after)) :
    scanFields s = (label, (scanValue (after.dropWhile isWs)).1) ::
      scanFields (scanValue (after.dropWhile isWs)).2 := by
  rw [scanFields_eq, h]

/-! ## Lemmas: scanning a rendered block -/

theorem mkFieldLine_append (lab v s : List Char) :
    mkFieldLine lab v ++ s = '*' :: '*' :: (lab ++ ':' :: '*' :: '*' :: (' ' :: (v ++ s))) := by
  simp [mkFieldLine]

theorem labelParse_mkFieldLine {lab v : List Char} (h1 : lab ≠ [])
    (h2 : lab.all Char.isAlpha = true) :
    labelParse (mkFieldLine lab v) = some (lab, ' ' :: v) :=
  labelParse_marker h1 h2

theorem labelParse_renderBlock_cons {l2 v2 : List Char} {ft : List (List Char × List Char)}
    (g1 : l2 ≠ []) (g2 : l2.all Char.isAlpha = true) :
    ∃ rr, labelParse (renderBlockFields ((l2, v2) :: ft)) = some (l2, rr) := by
  cases ft with
  | nil => exact ⟨' ' :: v2, labelParse_mkFieldLine g1 g2⟩
  | cons f3 f4 =>
    refine ⟨' ' :: (v2 ++ '\n' :: renderBlockFields (f3 :: f4)), ?_⟩
    show labelParse (mkFieldLine l2 v2 ++ '\n' :: renderBlockFields (f3 :: f4)) = _
    rw [mkFieldLine_append]
    exact labelParse_marker g1 g2

theorem scanFields_renderBlock : ∀ (fields : List (List Char × List Char)),
    (∀ f ∈ fields, CleanFieldPair f) →
    scanFields (renderBlockFields fields) = fields := by
  intro fields
  induction fields with
  | nil => intro _; rfl
  | cons f fs ih =>
    intro hclean
    obtain ⟨lab, v⟩ := f
    obtain ⟨h1, h2, h3, h4, h5⟩ := hclean (lab, v) (List.mem_cons_self _ _)
    cases fs with
    | nil =>
      have hfind : findLabel (mkFieldLine lab v) = some (lab, ' ' :: v) :=
        findLabel_of_some (labelParse_mkFieldLine h1 h2)
      have hdw : (' ' :: v).dropWhile isWs = v := by
        rw [List.dropWhile_cons, if_pos (by decide)]
        exact dropWhile_fix (headNonWs_of_trim_fix h3)
      have hsv : scanValue v = (v, []) := by
        have hs := @scanValue_stop v [] (lastNonWs_of_trim_fix h3) h4 (Or.inl rfl)
        simpa using hs
      show scanFields (mkFieldLine lab v) = [(lab, v)]
      rw [scanFields_of_findLabel_some hfind, hdw, hsv]
      rfl
    | cons f2 ft =>
      obtain ⟨l2, v2⟩ := f2
      obtain ⟨g1, g2, _, _, _⟩ := hclean (l2, v2) (List.mem_cons_of_mem _ (List.mem_cons_self _ _))
      obtain ⟨rr, hlpR⟩ := @labelParse_renderBlock_cons l2 v2 ft g1 g2
      have hrb : renderBlockFields ((lab, v) :: (l2, v2) :: ft) =
          mkFieldLine lab v ++ '\n' :: renderBlockFields ((l2, v2) :: ft) := rfl
      have hlp : labelParse (mkFieldLine lab v ++ '\n' :: renderBlockFields ((l2, v2) :: ft)) =
          some (lab, ' ' :: (v ++ '\n' :: renderBlockFields ((l2, v2) :: ft))) := by
        rw [mkFieldLine_append]
        exact labelParse_marker h1 h2
      have hdw : (' ' :: (v ++ '\n' :: renderBlockFields ((l2, v2) :: ft))).dropWhile isWs =
          v ++ '\n' :: renderBlockFields ((l2, v2) :: ft) := by
        rw [List.dropWhile_cons, if_pos (by decide)]
        refine dropWhile_fix ?_
        rw [headNonWsB_append h5]
        exact headNonWs_of_trim_fix h3
      have hsv : scanValue (v ++ '\n' :: renderBlockFields ((l2, v2) :: ft)) =
          (v, '\n' :: renderBlockFields ((l2, v2) :: ft)) :=
        scanValue_stop v (lastNonWs_of_trim_fix h3) h4
          (Or.inr ⟨renderBlockFields ((l2, v2) :: ft), l2, rr, rfl, hlpR⟩)
      rw [hrb, scanFields_of_findLabel_some (findLabel_of_some hlp), hdw, hsv]
      show (lab, v) :: scanFields ('\n' :: renderBlockFields ((l2, v2) :: ft)) = _
      rw [scanFields_cons_of_none (labelParse_not_star (by decide)),
        ih (fun f hf => hclean f (List.mem_cons_of_mem _ hf))]

/-! ## Lemmas: the field collector on rendered fields -/

theorem applyField_eq (p : PartialPaper) (f : List Char × List Char) :
    GeminiService.applyField p f =
      if lower f.1 = "title".toList then
        { p with title := some (trimL (firstLine (trimL f.2))) }
      else if lower f.1 = "authors".toList then
        { p with authors := some (trimL (firstLine (trimL f.2))) }
      else if lower f.1 = "year".toList then
        { p with year := some (trimL (firstLine (trimL f.2))) }
      else if lower f.1 = "sourceurl".toList then
        { p with sourceURL := some (trimL (firstLine (trimL f.2))) }
      else if lower f.1 = "summary".toList then
        { p with summary := some (trimL f.2) }
      else p := rfl

theorem applyField_title_ne {p : PartialPaper} {f : List Char × List Char}
    (h : lower f.1 ≠ "title".toList) :
    (GeminiService.applyField p f).title = p.title := by
  rw [applyField_eq]
  split_ifs with h1 h2 h3 h4 h5 <;> first | rfl | exact absurd h1 h

theorem applyField_authors_ne {p : PartialPaper} {f : List Char × List Char}
    (h : lower f.1 ≠ "authors".toList) :
    (GeminiService.applyField p f).authors = p.authors := by
  rw [applyField_eq]
  split_ifs with h1 h2 h3 h4 h5 <;> first | rfl | exact absurd h2 h

theorem applyField_year_ne {p : PartialPaper} {f : List Char × List Char}
    (h : lower f.1 ≠ "year".toList) :
    (GeminiService.applyField p f).year = p.year := by
  rw [applyField_eq]
  split_ifs with h1 h2 h3 h4 h5 <;> first | rfl | exact absurd h3 h

theorem applyField_sourceURL_ne {p : PartialPaper} {f : List Char × List Char}
    (h : lower f.1 ≠ "sourceurl".toList) :
    (GeminiService.applyField p f).sourceURL = p.sourceURL := by
  rw [applyField_eq]
  split_ifs with h1 h2 h3 h4 h5 <;> first | rfl | exact absurd h4 h

theorem applyField_summary_ne {p : PartialPaper} {f : List Char × List Char}
    (h : lower f.1 ≠ "summary".toList) :
    (GeminiService.applyField p f).summary = p.summary := by
  rw [applyField_eq]
  split_ifs with h1 h2 h3 h4 h5 <;> first | rfl | exact absurd h5 h

theorem applyField_set_title (p : PartialPaper) (v : List Char) :
    GeminiService.applyField p (tagLabel .title, v) =
      { p with title := some (trimL (firstLine (trimL v))) } := by
  rw [applyField_eq]
  dsimp only
  rw [if_pos (by decide)]

theorem applyField_set_authors (p : PartialPaper) (v : List Char) :
    GeminiService.applyField p (tagLabel .authors, v) =
      { p with authors := some (trimL (firstLine (trimL v))) } := by
  rw [applyField_eq]
  dsimp only
  rw [if_neg (by decide), if_pos (by decide)]

theorem applyField_set_year (p : PartialPaper) (v : List Char) :
    GeminiService.applyField p (tagLabel .year, v) =
      { p with year := some (trimL (firstLine (trimL v))) } := by
  rw [applyField_eq]
  dsimp only
  rw [if_neg (by decide), if_neg (by decide), if_pos (by decide)]

theorem applyField_set_sourceURL (p : PartialPaper) (v : List Char) :
    GeminiService.applyField p (tagLabel .sourceurl, v) =
      { p with sourceURL := some (trimL (firstLine (trimL v))) } := by
  rw [applyField_eq]
  dsimp only
  rw [if_neg (by decide), if_neg (by decide), if_neg (by decide), if_pos (by decide)]

theorem applyField_set_summary (p : PartialPaper) (v : List Char) :
    GeminiService.applyField p (tagLabel .summary, v) =
      { p with summary := some (trimL v) } := by
  rw [applyField_eq]
  dsimp only
  rw [if_neg (by decide), if_neg (by decide), if_neg (by decide), if_neg (by decide),
    if_pos (by decide)]

theorem tagLabel_lower_ne_title {t : FTag} (h : t ≠ .title) :
    lower (tagLabel t) ≠ "title".toList := by
  cases t
  case title => exact absurd rfl h
  all_goals decide

theorem tagLabel_lower_ne_authors {t : FTag} (h : t ≠ .authors) :
    lower (tagLabel t) ≠ "authors".toList := by
  cases t
  case authors => exact absurd rfl h
  all_goals decide

theorem tagLabel_lower_ne_year {t : FTag} (h : t ≠ .year) :
    lower (tagLabel t) ≠ "year".toList := by
  cases t
  case year => exact absurd rfl h
  all_goals decide

theorem tagLabel_lower_ne_sourceurl {t : FTag} (h : t ≠ .sourceurl) :
    lower (tagLabel t) ≠ "sourceurl".toList := by
  cases t
  case sourceurl => exact absurd rfl h
  all_goals decide

theorem tagLabel_lower_ne_summary {t : FTag} (h : t ≠ .summary) :
    lower (tagLabel t) ≠ "summary".toList := by
  cases t
  case summary => exact absurd rfl h
  all_goals decide

theorem foldl_title_absent (p : PaperSpec) : ∀ (ts : List FTag) (st : PartialPaper),
    FTag.title ∉ ts →
    ((ts.map fun t => (tagLabel t, valueOf p t)).foldl GeminiService.applyField st).title
      = st.title := by
  intro ts
  induction ts with
  | nil => intro st _; rfl
  | cons t ts ih =>
    intro st h
    have ht : t ≠ FTag.title := fun hh => h (hh ▸ List.mem_cons_self t ts)
    simp only [List.map_cons, List.foldl_cons]
    rw [ih _ (fun hh => h (List.mem_cons_of_mem _ hh)),
      applyField_title_ne (tagLabel_lower_ne_title ht)]

theorem foldl_authors_absent (p : PaperSpec) : ∀ (ts : List FTag) (st : PartialPaper),
    FTag.authors ∉ ts →
    ((ts.map fun t => (tagLabel t, valueOf p t)).foldl GeminiService.applyField st).authors
      = st.authors := by
  intro ts
  induction ts with
  | nil => intro st _; rfl
  | cons t ts ih =>
    intro st h
    have ht : t ≠ FTag.authors := fun hh => h (hh ▸ List.mem_cons_self t ts)
    simp only [List.map_cons, List.foldl_cons]
    rw [ih _ (fun hh => h (List.mem_cons_of_mem _ hh)),
      applyField_authors_ne (tagLabel_lower_ne_authors ht)]

theorem foldl_year_absent (p : PaperSpec) : ∀ (ts : List FTag) (st : PartialPaper),
    FTag.year ∉ ts →
    ((ts.map fun t => (tagLabel t, valueOf p t)).foldl GeminiService.applyField st).year
      = st.year := by
  intro ts
  induction ts with
  | nil => intro st _; rfl
  | cons t ts ih =>
    intro st h
    have ht : t ≠ FTag.year := fun hh => h (hh ▸ List.mem_cons_self t ts)
    simp only [List.map_cons, List.foldl_cons]
    rw [ih _ (fun hh => h (List.mem_cons_of_mem _ hh)),
      applyField_year_ne (tagLabel_lower_ne_year ht)]

theorem foldl_sourceURL_absent (p : PaperSpec) : ∀ (ts : List FTag) (st : PartialPaper),
    FTag.sourceurl ∉ ts →
    ((ts.map fun t => (tagLabel t, valueOf p t)).foldl GeminiService.applyField st).sourceURL
      = st.sourceURL := by
  intro ts
  induction ts with
  | nil => intro st _; rfl
  | cons t ts ih =>
    intro st h
    have ht : t ≠ FTag.sourceurl := fun hh => h (hh ▸ List.mem_cons_self t ts)
    simp only [List.map_cons, List.foldl_cons]
    rw [ih _ (fun hh => h (List.mem_cons_of_mem _ hh)),
      applyField_sourceURL_ne (tagLabel_lower_ne_sourceurl ht)]

theorem foldl_summary_absent (p : PaperSpec) : ∀ (ts : List FTag) (st : PartialPaper),
    FTag.summary ∉ ts →
    ((ts.map fun t => (tagLabel t, valueOf p t)).foldl GeminiService.applyField st).summary
      = st.summary := by
  intro ts
  induction ts with
  | nil => intro st _; rfl
  | cons t ts ih =>
    intro st h
    have ht : t ≠ FTag.summary := fun hh => h (hh ▸ List.mem_cons_self t ts)
    simp only [List.map_cons, List.foldl_cons]
    rw [ih _ (fun hh => h (List.mem_cons_of_mem _ hh)),
      applyField_summary_ne (tagLabel_lower_ne_summary ht)]

theorem foldl_title_found (p : PaperSpec) : ∀ (ts : List FTag) (st : PartialPaper),
    FTag.title ∈ ts → ts.Nodup →
    ((ts.map fun t => (tagLabel t, valueOf p t)).foldl GeminiService.applyField st).title
      = some (trimL (firstLine (trimL p.title))) := by
  intro ts
  induction ts with
  | nil => intro st h; exact absurd h (List.not_mem_nil _)
  | cons t ts ih =>
    intro st hmem hnd
    simp only [List.map_cons, List.foldl_cons]
    by_cases ht : t = FTag.title
    · subst ht
      rw [foldl_title_absent p ts _ (List.Nodup.not_mem hnd), applyField_set_title]
      rfl
    · rcases List.mem_cons.mp hmem with hh | hh
      · exact absurd hh.symm ht
      · exact ih _ hh (List.Nodup.of_cons hnd)

theorem foldl_authors_found (p : PaperSpec) : ∀ (ts : List FTag) (st : PartialPaper),
    FTag.authors ∈ ts → ts.Nodup →
    ((ts.map fun t => (tagLabel t, valueOf p t)).foldl GeminiService.applyField st).authors
      = some (trimL (firstLine (trimL p.authors))) := by
  intro ts
  induction ts with
  | nil => intro st h; exact absurd h (List.not_mem_nil _)
  | cons t ts ih =>
    intro st hmem hnd
    simp only [List.map_cons, List.foldl_cons]
    by_cases ht : t = FTag.authors
    · subst ht
      rw [foldl_authors_absent p ts _ (List.Nodup.not_mem hnd), applyField_set_authors]
      rfl
    · rcases List.mem_cons.mp hmem with hh | hh
      · exact absurd hh.symm ht
      · exact ih _ hh (List.Nodup.of_cons hnd)

theorem foldl_year_found (p : PaperSpec) : ∀ (ts : List FTag) (st : PartialPaper),
    FTag.year ∈ ts → ts.Nodup →
    ((ts.map fun t => (tagLabel t, valueOf p t)).foldl GeminiService.applyField st).year
      = some (trimL (firstLine (trimL p.year))) := by
  intro ts
  induction ts with
  | nil => intro st h; exact absurd h (List.not_mem_nil _)
  | cons t ts ih =>
    intro st hmem hnd
    simp only [List.map_cons, List.foldl_cons]
    by_cases ht : t = FTag.year
    · subst ht
      rw [foldl_year_absent p ts _ (List.Nodup.not_mem hnd), applyField_set_year]
      rfl
    · rcases List.mem_cons.mp hmem with hh | hh
      · exact absurd hh.symm ht
      · exact ih _ hh (List.Nodup.of_cons hnd)

theorem foldl_sourceURL_found (p : PaperSpec) : ∀ (ts : List FTag) (st : PartialPaper),
    FTag.sourceurl ∈ ts → ts.Nodup →
    ((ts.map fun t => (tagLabel t, valueOf p t)).foldl GeminiService.applyField st).sourceURL
      = some (trimL (firstLine (trimL (p.sourceURL.getD [])))) := by
  intro ts
  induction ts with
  | nil => intro st h; exact absurd h (List.not_mem_nil _)
  | cons t ts ih =>
    intro st hmem hnd
    simp only [List.map_cons, List.foldl_cons]
    by_cases ht : t = FTag.sourceurl
    · subst ht
      rw [foldl_sourceURL_absent p ts _ (List.Nodup.not_mem hnd), applyField_set_sourceURL]
      rfl
    · rcases List.mem_cons.mp hmem with hh | hh
      · exact absurd hh.symm ht
      · exact ih _ hh (List.Nodup.of_cons hnd)

theorem foldl_summary_found (p : PaperSpec) : ∀ (ts : List FTag) (st : PartialPaper),
    FTag.summary ∈ ts → ts.Nodup →
    ((ts.map fun t => (tagLabel t, valueOf p t)).foldl GeminiService.applyField st).summary
      = some (trimL p.summary) := by
  intro ts
  induction ts with
  | nil => intro st h; exact absurd h (List.not_mem_nil _)
  | cons t ts ih =>
    intro st hmem hnd
    simp only [List.map_cons, List.foldl_cons]
    by_cases ht : t = FTag.summary
    · subst ht
      rw [foldl_summary_absent p ts _ (List.Nodup.not_mem hnd), applyField_set_summary]
      rfl
    · rcases List.mem_cons.mp hmem with hh | hh
      · exact absurd hh.symm ht
      · exact ih _ hh (List.Nodup.of_cons hnd)

/-! ## Lemmas: cleanliness decompositions -/

theorem cleanValueB_spec {v : List Char} (h : cleanValueB v = true) :
    trimL v = v ∧ v ≠ [] ∧ noTripleB v = true ∧ noMarkerB v = true ∧
      linesNoMarker v = true := by
  unfold cleanValueB at h
  simp only [Bool.and_eq_true, beq_iff_eq, Bool.not_eq_true'] at h
  refine ⟨h.1.1.1.1, ?_, h.1.1.2, h.1.2, h.2⟩
  have := h.1.1.1.2
  simpa using this

theorem cleanSpec_parts {p : PaperSpec} (h : cleanSpecB p = true) :
    cleanValueB p.title = true ∧ singleLineB p.title = true ∧
    cleanValueB p.authors = true ∧ singleLineB p.authors = true ∧
    cleanValueB p.year = true ∧ singleLineB p.year = true ∧
    (∀ u, p.sourceURL = some u → cleanValueB u = true ∧ singleLineB u = true) ∧
    cleanValueB p.summary = true := by
  unfold cleanSpecB at h
  simp only [Bool.and_eq_true] at h
  have hm : (match p.sourceURL with
      | some u => cleanValueB u && singleLineB u
      | none => true) = true := by tauto
  refine ⟨by tauto, by tauto, by tauto, by tauto, by tauto, by tauto, ?_, by tauto⟩
  intro u hu
  rw [hu] at hm
  simpa [Bool.and_eq_true] using hm

theorem orderOkB_spec {p : PaperSpec} (h : orderOkB p = true) :
    p.order.Nodup ∧ p.sourceURL.isSome = p.order.contains FTag.sourceurl := by
  unfold orderOkB at h
  simp only [Bool.and_eq_true, decide_eq_true_eq, beq_iff_eq] at h
  exact h

theorem clean_single_value {v : List Char} (h1 : cleanValueB v = true)
    (h2 : singleLineB v = true) :
    trimL (firstLine (trimL v)) = v := by
  obtain ⟨ht, _, _, _, _⟩ := cleanValueB_spec h1
  have hnl : ('\n' : Char) ∉ v := by
    unfold singleLineB at h2
    simpa using h2
  have hfl : firstLine v = v := by
    unfold firstLine
    rw [List.takeWhile_eq_self_iff]
    intro x hx
    simp only [decide_eq_true_eq]
    intro hc
    exact hnl (hc ▸ hx)
  rw [ht, hfl, ht]

/-! ## Lemmas: collecting a clean rendered block -/

theorem collect_rendered (p : PaperSpec) (hc : cleanSpecB p = true)
    (hnd : p.order.Nodup)
    (hurl : p.sourceURL.isSome = p.order.contains FTag.sourceurl) :
    GeminiService.collectFields (p.order.map fun t => (tagLabel t, valueOf p t)) =
      expectedPartial p := by
  obtain ⟨ct, st, ca, sa, cy, sy, curl, csum⟩ := cleanSpec_parts hc
  refine PartialPaper.ext ?_ ?_ ?_ ?_ ?_
  · rw [show (expectedPartial p).title =
        (if FTag.title ∈ p.order then some p.title else none) from rfl]
    by_cases hm : FTag.title ∈ p.order
    · rw [if_pos hm]
      rw [show GeminiService.collectFields (p.order.map fun t => (tagLabel t, valueOf p t)) =
          (p.order.map fun t => (tagLabel t, valueOf p t)).foldl GeminiService.applyField {}
          from rfl]
      rw [foldl_title_found p _ _ hm hnd, clean_single_value ct st]
    · rw [if_neg hm]
      exact foldl_title_absent p _ _ hm
  · rw [show (expectedPartial p).authors =
        (if FTag.authors ∈ p.order then some p.authors else none) from rfl]
    by_cases hm : FTag.authors ∈ p.order
    · rw [if_pos hm]
      rw [show GeminiService.collectFields (p.order.map fun t => (tagLabel t, valueOf p t)) =
          (p.order.map fun t => (tagLabel t, valueOf p t)).foldl GeminiService.applyField {}
          from rfl]
      rw [foldl_authors_found p _ _ hm hnd, clean_single_value ca sa]
    · rw [if_neg hm]
      exact foldl_authors_absent p _ _ hm
  · rw [show (expectedPartial p).year =
        (if FTag.year ∈ p.order then some p.year else none) from rfl]
    by_cases hm : FTag.year ∈ p.order
    · rw [if_pos hm]
      rw [show GeminiService.collectFields (p.order.map fun t => (tagLabel t, valueOf p t)) =
          (p.order.map fun t => (tagLabel t, valueOf p t)).foldl GeminiService.applyField {}
          from rfl]
      rw [foldl_year_found p _ _ hm hnd, clean_single_value cy sy]
    · rw [if_neg hm]
      exact foldl_year_absent p _ _ hm
  · rw [show (expectedPartial p).sourceURL =
        (if FTag.sourceurl ∈ p.order then some (p.sourceURL.getD []) else none) from rfl]
    by_cases hm : FTag.sourceurl ∈ p.order
    · rw [if_pos hm]
      rw [show GeminiService.collectFields (p.order.map fun t => (tagLabel t, valueOf p t)) =
          (p.order.map fun t => (tagLabel t, valueOf p t)).foldl GeminiService.applyField {}
          from rfl]
      obtain ⟨u, hu⟩ : ∃ u, p.sourceURL = some u := by
        have hs : p.sourceURL.isSome = true := by
          rw [hurl]
          exact List.elem_iff.mpr hm
        exact Option.isSome_iff_exists.mp hs
      obtain ⟨cu, su⟩ := curl u hu
      rw [foldl_sourceURL_found p _ _ hm hnd, hu]
      rw [show (Option.some u).getD [] = u from rfl, clean_single_value cu su]
    · rw [if_neg hm]
      exact foldl_sourceURL_absent p _ _ hm
  · rw [show (expectedPartial p).summary =
        (if FTag.summary ∈ p.order then some p.summary else none) from rfl]
    by_cases hm : FTag.summary ∈ p.order
    · rw [if_pos hm]
      rw [show GeminiService.collectFields (p.order.map fun t => (tagLabel t, valueOf p t)) =
          (p.order.map fun t => (tagLabel t, valueOf p t)).foldl GeminiService.applyField {}
          from rfl]
      rw [foldl_summary_found p _ _ hm hnd, (cleanValueB_spec csum).1]
    · rw [if_neg hm]
      exact foldl_summary_absent p _ _ hm

/-! ## Lemmas: blockToPaper on a rendered block -/

theorem renderBlockFields_ne_nil (f : List Char × List Char)
    (fs : List (List Char × List Char)) : renderBlockFields (f :: fs) ≠ [] := by
  cases fs with
  | nil => simp [renderBlockFields, joinNl, mkFieldLine]
  | cons g gs => simp [renderBlockFields, joinNl, mkFieldLine]

theorem headNonWsB_renderBlock (f : List Char × List Char)
    (fs : List (List Char × List Char)) :
    headNonWsB (renderBlockFields (f :: fs)) = true := by
  cases fs with
  | nil => rfl
  | cons g gs => rfl

theorem lastNonWsB_append {x y : List Char} (h : y ≠ []) :
    lastNonWsB (x ++ y) = lastNonWsB y := by
  unfold lastNonWsB
  rw [List.reverse_append]
  exact headNonWsB_append (by simpa using h)

theorem mkFieldLine_decomp (lab v : List Char) :
    mkFieldLine lab v = ('*' :: '*' :: (lab ++ [':', '*', '*', ' '])) ++ v := by
  simp [mkFieldLine]

theorem lastNonWsB_renderBlock : ∀ (fields : List (List Char × List Char)),
    fields ≠ [] → (∀ f ∈ fields, trimL f.2 = f.2 ∧ f.2 ≠ []) →
    lastNonWsB (renderBlockFields fields) = true := by
  intro fields
  induction fields with
  | nil => intro h; exact absurd rfl h
  | cons f fs ih =>
    intro _ hall
    obtain ⟨ht, hne⟩ := hall f (List.mem_cons_self _ _)
    cases fs with
    | nil =>
      show lastNonWsB (mkFieldLine f.1 f.2) = true
      rw [mkFieldLine_decomp, lastNonWsB_append hne]
      exact lastNonWs_of_trim_fix ht
    | cons g gs =>
      have hrb : renderBlockFields (f :: g :: gs) =
          mkFieldLine f.1 f.2 ++ '\n' :: renderBlockFields (g :: gs) := rfl
      rw [hrb, lastNonWsB_append (by simp),
        lastNonWsB_cons (renderBlockFields_ne_nil g gs),
        ih (by simp) (fun x hx => hall x (List.mem_cons_of_mem _ hx))]

theorem fieldOk_some_of_ne {v : List Char} (h : v ≠ []) : fieldOk (some v) = true := by
  show (!v.isEmpty) = true
  cases v with
  | nil => exact absurd rfl h
  | cons a as => rfl

theorem contains_eq_true_iff {l : List FTag} {t : FTag} : l.contains t = true ↔ t ∈ l :=
  List.elem_iff

theorem contains_eq_false_of_not_mem {l : List FTag} {t : FTag} (h : t ∉ l) :
    l.contains t = false := by
  cases hmt : l.contains t with
  | false => rfl
  | true => exact absurd (List.elem_iff.mp hmt) h

theorem fieldPairs_clean (p : PaperSpec) (hc : cleanSpecB p = true)
    (hurl : p.sourceURL.isSome = p.order.contains FTag.sourceurl) :
    ∀ f ∈ (p.order.map fun t => (tagLabel t, valueOf p t)), CleanFieldPair f := by
  obtain ⟨ct, _, ca, _, cy, _, curl, csum⟩ := cleanSpec_parts hc
  intro f hf
  obtain ⟨t, hmem, rfl⟩ := List.mem_map.mp hf
  have hlab : tagLabel t ≠ [] ∧ (tagLabel t).all Char.isAlpha = true := by
    cases t <;> exact ⟨by decide, by decide⟩
  have hval : trimL (valueOf p t) = valueOf p t ∧ noMarkerB (valueOf p t) = true ∧
      valueOf p t ≠ [] := by
    cases t with
    | title =>
      obtain ⟨a, b, _, c, _⟩ := cleanValueB_spec ct
      exact ⟨a, c, b⟩
    | authors =>
      obtain ⟨a, b, _, c, _⟩ := cleanValueB_spec ca
      exact ⟨a, c, b⟩
    | year =>
      obtain ⟨a, b, _, c, _⟩ := cleanValueB_spec cy
      exact ⟨a, c, b⟩
    | sourceurl =>
      obtain ⟨u, hu⟩ : ∃ u, p.sourceURL = some u := by
        have hs : p.sourceURL.isSome = true := by
          rw [hurl]
          exact contains_eq_true_iff.mpr hmem
        exact Option.isSome_iff_exists.mp hs
      obtain ⟨cu, _⟩ := curl u hu
      obtain ⟨a, b, _, c, _⟩ := cleanValueB_spec cu
      show trimL (p.sourceURL.getD []) = p.sourceURL.getD [] ∧
        noMarkerB (p.sourceURL.getD []) = true ∧ p.sourceURL.getD [] ≠ []
      rw [hu]
      exact ⟨a, c, b⟩
    | summary =>
      obtain ⟨a, b, _, c, _⟩ := cleanValueB_spec csum
      exact ⟨a, c, b⟩
  exact ⟨hlab.1, hlab.2, hval.1, hval.2.1, hval.2.2⟩

theorem blockToPaper_render (p : PaperSpec) (hc : cleanSpecB p = true)
    (ho : orderOkB p = true) :
    GeminiService.blockToPaper (renderPaperSpec p) =
      if mandatoryTags p = true then some (specPaper p) else none := by
  obtain ⟨hnd, hurl⟩ := orderOkB_spec ho
  obtain ⟨ct, _, ca, _, cy, _, curl, csum⟩ := cleanSpec_parts hc
  cases horder : p.order with
  | nil =>
    have hrp : renderPaperSpec p = [] := by
      unfold renderPaperSpec
      rw [horder]
      rfl
    have hmt : mandatoryTags p = false := by
      unfold mandatoryTags
      rw [horder]
      rfl
    rw [hrp, hmt]
    rfl
  | cons t ts =>
    have hfields : renderPaperSpec p =
        renderBlockFields (p.order.map fun u => (tagLabel u, valueOf p u)) := rfl
    obtain ⟨g, gs, hgs⟩ : ∃ g gs,
        (p.order.map fun u => (tagLabel u, valueOf p u)) = g :: gs := by
      rw [horder]
      exact ⟨_, _, rfl⟩
    have hvals : ∀ f ∈ (p.order.map fun u => (tagLabel u, valueOf p u)),
        trimL f.2 = f.2 ∧ f.2 ≠ [] := by
      intro f hf
      obtain ⟨_, _, h3, _, h5⟩ := fieldPairs_clean p hc hurl f hf
      exact ⟨h3, h5⟩
    have htrim : trimL (renderPaperSpec p) = renderPaperSpec p := by
      rw [hfields, hgs]
      exact trimL_fix (headNonWsB_renderBlock g gs)
        (lastNonWsB_renderBlock (g :: gs) (by simp) (by rw [← hgs]; exact hvals))
    have hnonempty : (renderPaperSpec p).isEmpty = false := by
      rw [hfields, hgs]
      simpa using renderBlockFields_ne_nil g gs
    have hscan : scanFields (renderPaperSpec p) =
        (p.order.map fun u => (tagLabel u, valueOf p u)) := by
      rw [hfields]
      exact scanFields_renderBlock _ (fieldPairs_clean p hc hurl)
    have hbp : GeminiService.blockToPaper (renderPaperSpec p) =
        (let q := GeminiService.collectFields (scanFields (renderPaperSpec p))
         if fieldOk q.title && fieldOk q.authors && fieldOk q.year && fieldOk q.summary then
           some ({ title := q.title.getD [], authors := q.authors.getD [],
                   year := q.year.getD [], summary := q.summary.getD [],
                   sourceURL := q.sourceURL } : Paper)
         else none) := by
      unfold GeminiService.blockToPaper
      dsimp only
      rw [htrim, hnonempty]
      rfl
    rw [hbp, hscan]
    show (let q := GeminiService.collectFields (p.order.map fun u => (tagLabel u, valueOf p u))
      if fieldOk q.title && fieldOk q.authors && fieldOk q.year && fieldOk q.summary then
        some ({ title := q.title.getD [], authors := q.authors.getD [],
                year := q.year.getD [], summary := q.summary.getD [],
                sourceURL := q.sourceURL } : Paper)
      else none) = if mandatoryTags p = true then some (specPaper p) else none
    rw [show GeminiService.collectFields (p.order.map fun u => (tagLabel u, valueOf p u)) =
      expectedPartial p from collect_rendered p hc hnd hurl]
    have hfo_t : fieldOk (expectedPartial p).title = p.order.contains FTag.title := by
      rw [show (expectedPartial p).title =
          (if FTag.title ∈ p.order then some p.title else none) from rfl]
      by_cases hm : FTag.title ∈ p.order
      · have hcont : p.order.contains FTag.title = true := contains_eq_true_iff.mpr hm
        rw [if_pos hm, hcont]
        exact fieldOk_some_of_ne (cleanValueB_spec ct).2.1
      · rw [if_neg hm, contains_eq_false_of_not_mem hm]
        rfl
    have hfo_a : fieldOk (expectedPartial p).authors = p.order.contains FTag.authors := by
      rw [show (expectedPartial p).authors =
          (if FTag.authors ∈ p.order then some p.authors else none) from rfl]
      by_cases hm : FTag.authors ∈ p.order
      · have hcont : p.order.contains FTag.authors = true := contains_eq_true_iff.mpr hm
        rw [if_pos hm, hcont]
        exact fieldOk_some_of_ne (cleanValueB_spec ca).2.1
      · rw [if_neg hm, contains_eq_false_of_not_mem hm]
        rfl
    have hfo_y : fieldOk (expectedPartial p).year = p.order.contains FTag.year := by
      rw [show (expectedPartial p).year =
          (if FTag.year ∈ p.order then some p.year else none) from rfl]
      by_cases hm : FTag.year ∈ p.order
      · have hcont : p.order.contains FTag.year = true := contains_eq_true_iff.mpr hm
        rw [if_pos hm, hcont]
        exact fieldOk_some_of_ne (cleanValueB_spec cy).2.1
      · rw [if_neg hm, contains_eq_false_of_not_mem hm]
        rfl
    have hfo_s : fieldOk (expectedPartial p).summary = p.order.contains FTag.summary := by
      rw [show (expectedPartial p).summary =
          (if FTag.summary ∈ p.order then some p.summary else none) from rfl]
      by_cases hm : FTag.summary ∈ p.order
      · have hcont : p.order.contains FTag.summary = true := contains_eq_true_iff.mpr hm
        rw [if_pos hm, hcont]
        exact fieldOk_some_of_ne (cleanValueB_spec csum).2.1
      · rw [if_neg hm, contains_eq_false_of_not_mem hm]
        rfl
    show (if fieldOk (expectedPartial p).title && fieldOk (expectedPartial p).authors &&
        fieldOk (expectedPartial p).year && fieldOk (expectedPartial p).summary then
        some ({ title := (expectedPartial p).title.getD [],
                authors := (expectedPartial p).authors.getD [],
                year := (expectedPartial p).year.getD [],
                summary := (expectedPartial p).summary.getD [],
                sourceURL := (expectedPartial p).sourceURL } : Paper)
      else none) = if mandatoryTags p = true then some (specPaper p) else none
    rw [hfo_t, hfo_a, hfo_y, hfo_s]
    rw [show (p.order.contains FTag.title && p.order.contains FTag.authors &&
        p.order.contains FTag.year && p.order.contains FTag.summary) = mandatoryTags p
        from rfl]
    by_cases hmand : mandatoryTags p = true
    · rw [if_pos hmand, if_pos hmand]
      have hmems : FTag.title ∈ p.order ∧ FTag.authors ∈ p.order ∧
          FTag.year ∈ p.order ∧ FTag.summary ∈ p.order := by
        unfold mandatoryTags at hmand
        simp only [Bool.and_eq_true] at hmand
        exact ⟨List.elem_iff.mp hmand.1.1.1, List.elem_iff.mp hmand.1.1.2,
          List.elem_iff.mp hmand.1.2, List.elem_iff.mp hmand.2⟩
      have he_t : (expectedPartial p).title = some p.title := by
        rw [show (expectedPartial p).title =
            (if FTag.title ∈ p.order then some p.title else none) from rfl,
          if_pos hmems.1]
      have he_a : (expectedPartial p).authors = some p.authors := by
        rw [show (expectedPartial p).authors =
            (if FTag.authors ∈ p.order then some p.authors else none) from rfl,
          if_pos hmems.2.1]
      have he_y : (expectedPartial p).year = some p.year := by
        rw [show (expectedPartial p).year =
            (if FTag.year ∈ p.order then some p.year else none) from rfl,
          if_pos hmems.2.2.1]
      have he_s : (expectedPartial p).summary = some p.summary := by
        rw [show (expectedPartial p).summary =
            (if FTag.summary ∈ p.order then some p.summary else none) from rfl,
          if_pos hmems.2.2.2]
      have he_u : (expectedPartial p).sourceURL = p.sourceURL := by
        rw [show (expectedPartial p).sourceURL =
            (if FTag.sourceurl ∈ p.order then some (p.sourceURL.getD []) else none) from rfl]
        cases hsrc : p.sourceURL with
        | some u =>
          have hm : FTag.sourceurl ∈ p.order := by
            apply contains_eq_true_iff.mp
            rw [← hurl, hsrc]
            rfl
          rw [if_pos hm]
          rfl
        | none =>
          have hm : FTag.sourceurl ∉ p.order := by
            intro hmm
            have hcont : p.order.contains FTag.sourceurl = true := contains_eq_true_iff.mpr hmm
            rw [← hurl, hsrc] at hcont
            simp at hcont
          rw [if_neg hm]
      rw [he_t, he_a, he_y, he_s, he_u]
      rfl
    · rw [if_neg hmand, if_neg hmand]

/-! ## Lemmas: rendered blocks contain no delimiter -/

theorem isAlpha_ne_dash {c : Char} (h : c.isAlpha = true) : c ≠ '-' := by
  intro hc
  rw [hc] at h
  simp [Char.isAlpha, Char.isUpper, Char.isLower] at h

theorem noTripleB_prepend_nondash : ∀ {x y : List Char},
    (∀ c ∈ x, c ≠ '-') → noTripleB y = true → noTripleB (x ++ y) = true := by
  intro x
  induction x with
  | nil => intro y _ hy; simpa using hy
  | cons c cs ih =>
    intro y hx hy
    rw [List.cons_append, noTripleB_cons, Bool.and_eq_true, Bool.not_eq_true']
    refine ⟨?_, ih (fun d hd => hx d (List.mem_cons_of_mem _ hd)) hy⟩
    have hc : c ≠ '-' := hx c (List.mem_cons_self _ _)
    simp [List.isPrefixOf]
    exact fun h => absurd h.symm hc

theorem noTripleB_append_nl : ∀ {a b : List Char},
    noTripleB a = true → noTripleB b = true → noTripleB (a ++ '\n' :: b) = true := by
  intro a
  induction a with
  | nil =>
    intro b _ hb
    rw [List.nil_append, noTripleB_cons, Bool.and_eq_true, Bool.not_eq_true']
    exact ⟨by simp [List.isPrefixOf], hb⟩
  | cons x xs ih =>
    intro b ha hb
    rw [noTripleB_cons, Bool.and_eq_true, Bool.not_eq_true'] at ha
    rw [List.cons_append, noTripleB_cons, Bool.and_eq_true, Bool.not_eq_true']
    refine ⟨?_, ih ha.2 hb⟩
    cases xs with
    | nil => simp [List.isPrefixOf]
    | cons y ys =>
      cases ys with
      | nil => simp [List.isPrefixOf]
      | cons z zs =>
        have := ha.1
        simpa [List.isPrefixOf] using this

theorem marker_nondash {lab : List Char} (h2 : lab.all Char.isAlpha = true) :
    ∀ c ∈ '*' :: '*' :: (lab ++ [':', '*', '*', ' ']), c ≠ '-' := by
  intro c hc
  rcases List.mem_cons.mp hc with rfl | hc
  · decide
  rcases List.mem_cons.mp hc with rfl | hc
  · decide
  rcases List.mem_append.mp hc with hl | hr
  · exact isAlpha_ne_dash (List.all_eq_true.mp h2 _ hl)
  · rcases List.mem_cons.mp hr with rfl | hr
    · decide
    rcases List.mem_cons.mp hr with rfl | hr
    · decide
    rcases List.mem_cons.mp hr with rfl | hr
    · decide
    rcases List.mem_cons.mp hr with rfl | hr
    · decide
    · exact absurd hr (List.not_mem_nil c)

theorem noTripleB_renderBlock : ∀ (fields : List (List Char × List Char)),
    (∀ f ∈ fields, f.1.all Char.isAlpha = true ∧ noTripleB f.2 = true) →
    noTripleB (renderBlockFields fields) = true := by
  intro fields
  induction fields with
  | nil => intro _; rfl
  | cons f fs ih =>
    intro hall
    obtain ⟨h2, hv⟩ := hall f (List.mem_cons_self _ _)
    cases fs with
    | nil =>
      show noTripleB (mkFieldLine f.1 f.2) = true
      rw [mkFieldLine_decomp]
      exact noTripleB_prepend_nondash (marker_nondash h2) hv
    | cons g gs =>
      have hrb : renderBlockFields (f :: g :: gs) =
          mkFieldLine f.1 f.2 ++ '\n' :: renderBlockFields (g :: gs) := rfl
      rw [hrb]
      have hrest := ih (fun x hx => hall x (List.mem_cons_of_mem _ hx))
      have hfl : noTripleB (mkFieldLine f.1 f.2) = true := by
        rw [mkFieldLine_decomp]
        exact noTripleB_prepend_nondash (marker_nondash h2) hv
      exact noTripleB_append_nl hfl hrest

/-! ## Lemmas: the full rendered text, regex parser -/

theorem renderPaperSpec_noTriple (p : PaperSpec) (hc : cleanSpecB p = true)
    (ho : orderOkB p = true) : noTripleB (renderPaperSpec p) = true := by
  obtain ⟨_, hurl⟩ := orderOkB_spec ho
  refine noTripleB_renderBlock _ ?_
  intro f hf
  obtain ⟨_, h2, _, _, _⟩ := fieldPairs_clean p hc hurl f hf
  refine ⟨h2, ?_⟩
  obtain ⟨t, hmem, rfl⟩ := List.mem_map.mp hf
  obtain ⟨ct, _, ca, _, cy, _, curl, csum⟩ := cleanSpec_parts hc
  cases t with
  | title => exact (cleanValueB_spec ct).2.2.1
  | authors => exact (cleanValueB_spec ca).2.2.1
  | year => exact (cleanValueB_spec cy).2.2.1
  | sourceurl =>
    obtain ⟨u, hu⟩ : ∃ u, p.sourceURL = some u := by
      have hs : p.sourceURL.isSome = true := by
        rw [hurl]
        exact contains_eq_true_iff.mpr hmem
      exact Option.isSome_iff_exists.mp hs
    show noTripleB (valueOf p FTag.sourceurl) = true
    show noTripleB (p.sourceURL.getD []) = true
    rw [hu]
    exact (cleanValueB_spec (curl u hu).1).2.2.1
  | summary => exact (cleanValueB_spec csum).2.2.1

theorem renderPaperSpec_trim_fix (p : PaperSpec) (hc : cleanSpecB p = true)
    (ho : orderOkB p = true) : trimL (renderPaperSpec p) = renderPaperSpec p := by
  obtain ⟨_, hurl⟩ := orderOkB_spec ho
  cases horder : p.order with
  | nil =>
    have hrp : renderPaperSpec p = [] := by
      unfold renderPaperSpec
      rw [horder]
      rfl
    rw [hrp]
    rfl
  | cons t ts =>
    obtain ⟨g, gs, hgs⟩ : ∃ g gs,
        (p.order.map fun u => (tagLabel u, valueOf p u)) = g :: gs := by
      rw [horder]
      exact ⟨_, _, rfl⟩
    have hvals : ∀ f ∈ (p.order.map fun u => (tagLabel u, valueOf p u)),
        trimL f.2 = f.2 ∧ f.2 ≠ [] := by
      intro f hf
      obtain ⟨_, _, h3, _, h5⟩ := fieldPairs_clean p hc hurl f hf
      exact ⟨h3, h5⟩
    show trimL (renderBlockFields (p.order.map fun u => (tagLabel u, valueOf p u))) =
      renderBlockFields (p.order.map fun u => (tagLabel u, valueOf p u))
    rw [hgs]
    exact trimL_fix (headNonWsB_renderBlock g gs)
      (lastNonWsB_renderBlock (g :: gs) (by simp) (by rw [← hgs]; exact hvals))

theorem blockToPaper_trim_congr {x y : List Char} (h : trimL x = trimL y) :
    GeminiService.blockToPaper x = GeminiService.blockToPaper y := by
  unfold GeminiService.blockToPaper
  rw [h]

theorem filterMap_blockToPaper_trim : ∀ (ds bs : List (List Char)),
    ds.map trimL = bs.map trimL →
    ds.filterMap GeminiService.blockToPaper = bs.filterMap GeminiService.blockToPaper := by
  intro ds
  induction ds with
  | nil =>
    intro bs h
    cases bs with
    | nil => rfl
    | cons b bs => simp at h
  | cons d ds ih =>
    intro bs h
    cases bs with
    | nil => simp at h
    | cons b bs =>
      simp only [List.map_cons, List.cons_eq_cons] at h
      rw [List.filterMap_cons, List.filterMap_cons, blockToPaper_trim_congr h.1, ih bs h.2]

theorem all_ws_of_trimL_nil {l : List Char} (h : trimL l = []) :
    ∀ c ∈ l, isWs c = true := by
  unfold trimL trimR at h
  have h2 : (trimLeft l).reverse.dropWhile isWs = [] := by
    have := congrArg List.reverse h
    simpa using this
  have h3 : ∀ c ∈ (trimLeft l).reverse, isWs c = true := List.dropWhile_eq_nil_iff.mp h2
  have h4 : ∀ c ∈ trimLeft l, isWs c = true := fun c hc => h3 c (List.mem_reverse.mpr hc)
  intro c hc
  rw [← List.takeWhile_append_dropWhile (p := isWs) (l := l)] at hc
  rcases List.mem_append.mp hc with hc1 | hc2
  · exact List.mem_takeWhile_imp hc1
  · exact h4 c hc2

theorem trimL_ne_nil_of_nonws {l : List Char} {c : Char} (hmem : c ∈ l)
    (hc : isWs c = false) : trimL l ≠ [] := by
  intro h0
  have := all_ws_of_trimL_nil h0 c hmem
  rw [hc] at this
  simp at this

theorem parse_renderText (ps : List PaperSpec)
    (h : ∀ p ∈ ps, cleanSpecB p = true ∧ orderOkB p = true) :
    GeminiService.parseGeminiResponse (renderText ps) =
      ps.filterMap (fun p => if mandatoryTags p = true then some (specPaper p) else none) := by
  cases ps with
  | nil => rfl
  | cons p rest =>
    have hblocks : ∀ b ∈ (p :: rest).map renderPaperSpec,
        noTripleB b = true ∧ trimL b = b := by
      intro b hb
      obtain ⟨q, hq, rfl⟩ := List.mem_map.mp hb
      exact ⟨renderPaperSpec_noTriple q (h q hq).1 (h q hq).2,
        renderPaperSpec_trim_fix q (h q hq).1 (h q hq).2⟩
    have hsj : (splitDashes (joinDashes ((p :: rest).map renderPaperSpec))).map trimL =
        (p :: rest).map renderPaperSpec := by
      rw [List.map_cons]
      exact splitDashes_joinDashes _ _
        (hblocks _ (by simp)).1 (hblocks _ (by simp)).2
        (fun x hx => hblocks x (by simp only [List.map_cons]; exact List.mem_cons_of_mem _ hx))
    have hfm : (splitDashes (renderText (p :: rest))).filterMap GeminiService.blockToPaper =
        ((p :: rest).map renderPaperSpec).filterMap GeminiService.blockToPaper := by
      apply filterMap_blockToPaper_trim
      rw [show renderText (p :: rest) = joinDashes ((p :: rest).map renderPaperSpec) from rfl,
        hsj, List.map_map]
      apply List.map_congr_left
      intro q hq
      exact (hblocks (renderPaperSpec q) (List.mem_map_of_mem _ hq)).2.symm
    have hper : ((p :: rest).map renderPaperSpec).filterMap GeminiService.blockToPaper =
        (p :: rest).filterMap
          (fun q => if mandatoryTags q = true then some (specPaper q) else none) := by
      rw [List.filterMap_map]
      apply List.filterMap_congr
      intro q hq
      exact blockToPaper_render q (h q hq).1 (h q hq).2
    unfold GeminiService.parseGeminiResponse
    by_cases hguard : (trimL (renderText (p :: rest))).isEmpty = true
    · -- the rendered text is all whitespace: only possible when there is a
      -- single paper whose rendered block is empty
      cases rest with
      | cons p2 rest2 =>
        exfalso
        have hmem : ('-' : Char) ∈ renderText (p :: p2 :: rest2) := by
          show ('-' : Char) ∈ joinDashes (renderPaperSpec p :: (p2 :: rest2).map renderPaperSpec)
          rw [show (p2 :: rest2).map renderPaperSpec =
            renderPaperSpec p2 :: rest2.map renderPaperSpec from rfl]
          show ('-' : Char) ∈ renderPaperSpec p ++
            '\n' :: '-' :: '-' :: '-' :: '\n' :: joinDashes (renderPaperSpec p2 :: rest2.map renderPaperSpec)
          exact List.mem_append.mpr (Or.inr (by simp))
        exact trimL_ne_nil_of_nonws hmem (by decide) (by simpa using hguard)
      | nil =>
        cases horder : p.order with
        | cons t ts =>
          exfalso
          have htf := renderPaperSpec_trim_fix p (h p (by simp)).1 (h p (by simp)).2
          have hne : renderPaperSpec p ≠ [] := by
            show renderBlockFields (p.order.map fun u => (tagLabel u, valueOf p u)) ≠ []
            rw [horder]
            exact renderBlockFields_ne_nil _ _
          have : trimL (renderText [p]) ≠ [] := by
            show trimL (renderPaperSpec p) ≠ []
            rw [htf]
            exact hne
          exact this (by simpa using hguard)
        | nil =>
          have hmt : mandatoryTags p = false := by
            unfold mandatoryTags
            rw [horder]
            rfl
          rw [if_pos hguard]
          simp [hmt]
    · rw [if_neg hguard]
      rw [show renderText (p :: rest) = joinDashes ((p :: rest).map renderPaperSpec) from rfl]
        at hfm ⊢
      rw [hfm, hper]

/-! ## Lemmas: the line-based parser on rendered blocks -/

theorem isPrefixOf_append_true : ∀ (pat a b : List Char),
    pat.isPrefixOf a = true → pat.isPrefixOf (a ++ b) = true := by
  intro pat
  induction pat with
  | nil => intro a b _; simp [List.isPrefixOf]
  | cons x xs ih =>
    intro a b h
    cases a with
    | nil => simp [List.isPrefixOf] at h
    | cons c cs =>
      simp only [List.isPrefixOf, Bool.and_eq_true] at h
      rw [List.cons_append]
      simp only [List.isPrefixOf, Bool.and_eq_true]
      exact ⟨h.1, ih cs b h.2⟩

theorem isPrefixOf_append_false : ∀ (pat a b : List Char),
    pat.isPrefixOf a = false → pat.length ≤ a.length →
    pat.isPrefixOf (a ++ b) = false := by
  intro pat
  induction pat with
  | nil => intro a b h; simp [List.isPrefixOf] at h
  | cons x xs ih =>
    intro a b h hlen
    cases a with
    | nil => simp at hlen
    | cons c cs =>
      rw [List.cons_append]
      simp only [List.isPrefixOf, Bool.and_eq_false_iff] at h ⊢
      rcases h with h | h
      · exact Or.inl h
      · exact Or.inr (ih cs b h (by simpa using hlen))

theorem isPrefixOf_append_false2 : ∀ (pat a b : List Char),
    pat.isPrefixOf a = false → a.isPrefixOf pat = false →
    pat.isPrefixOf (a ++ b) = false := by
  intro pat
  induction pat with
  | nil => intro a b h1 _; simp [List.isPrefixOf] at h1
  | cons x xs ih =>
    intro a b h1 h2
    cases a with
    | nil => simp [List.isPrefixOf] at h2
    | cons c cs =>
      rw [List.cons_append]
      show (x == c && xs.isPrefixOf (cs ++ b)) = false
      by_cases hxc : x = c
      · subst hxc
        have h1h : xs.isPrefixOf cs = false := by
          simpa [List.isPrefixOf] using h1
        have h2h : cs.isPrefixOf xs = false := by
          simpa [List.isPrefixOf] using h2
        simp [ih cs b h1h h2h]
      · have hb : (x == c) = false := by simp [hxc]
        simp [hb]

theorem tagLabel_marker_eq_title :
    ('*' :: '*' :: (tagLabel FTag.title ++ [':', '*', '*']) : List Char) =
      "**Title:**".toList := by decide

theorem labelParse_isSome_of_marker (t : FTag) {l : List Char}
    (h : (('*' :: '*' :: (tagLabel t ++ [':', '*', '*'])) : List Char).isPrefixOf l = true) :
    (labelParse l).isSome = true := by
  obtain ⟨rest, hrest⟩ := List.isPrefixOf_iff_prefix.mp h
  have hsh : l = '*' :: '*' :: (tagLabel t ++ ':' :: '*' :: '*' :: rest) := by
    rw [← hrest]
    simp
  rw [hsh, labelParse_marker (by cases t <;> decide) (by cases t <;> decide)]
  rfl

theorem marker_pref_false_of_no_label {l : List Char} (t : FTag)
    (hnm : (labelParse l).isSome = false) :
    (('*' :: '*' :: (tagLabel t ++ [':', '*', '*'])) : List Char).isPrefixOf l = false := by
  cases hp : (('*' :: '*' :: (tagLabel t ++ [':', '*', '*'])) : List Char).isPrefixOf l with
  | false => rfl
  | true =>
    exfalso
    rw [labelParse_isSome_of_marker t hp] at hnm
    simp at hnm

theorem lineStep_cont {st : AppTsx.LineState} {l : List Char} (hr : st.reading = true)
    (hnm : (labelParse l).isSome = false) :
    AppTsx.lineStep st l = { st with buf := st.buf ++ ' ' :: trimL l } := by
  unfold AppTsx.lineStep
  rw [if_neg (by
    rw [show ("**Title:**".toList : List Char) =
      '*' :: '*' :: (tagLabel FTag.title ++ [':', '*', '*']) from by decide]
    simp [marker_pref_false_of_no_label FTag.title hnm])]
  rw [if_neg (by
    rw [show ("**Authors:**".toList : List Char) =
      '*' :: '*' :: (tagLabel FTag.authors ++ [':', '*', '*']) from by decide]
    simp [marker_pref_false_of_no_label FTag.authors hnm])]
  rw [if_neg (by
    rw [show ("**Year:**".toList : List Char) =
      '*' :: '*' :: (tagLabel FTag.year ++ [':', '*', '*']) from by decide]
    simp [marker_pref_false_of_no_label FTag.year hnm])]
  rw [if_neg (by
    rw [show ("**SourceURL:**".toList : List Char) =
      '*' :: '*' :: (tagLabel FTag.sourceurl ++ [':', '*', '*']) from by decide]
    simp [marker_pref_false_of_no_label FTag.sourceurl hnm])]
  rw [if_neg (by
    rw [show ("**Summary:**".toList : List Char) =
      '*' :: '*' :: (tagLabel FTag.summary ++ [':', '*', '*']) from by decide]
    simp [marker_pref_false_of_no_label FTag.summary hnm])]
  rw [if_pos hr]

theorem lineStep_label_title (st : AppTsx.LineState) (v0 : List Char) :
    AppTsx.lineStep st (('*' :: '*' :: (tagLabel .title ++ [':', '*', '*', ' '])) ++ v0) =
      { st with title := some (trimL v0), reading := false } := by
  unfold AppTsx.lineStep
  rw [if_pos (isPrefixOf_append_true _ _ _ (by decide))]
  rw [List.drop_append_of_le_length (by decide)]
  rw [show (('*' :: '*' :: (tagLabel FTag.title ++ [':', '*', '*', ' '])) : List Char).drop 10
    = [' '] from by decide]
  rw [List.singleton_append, trimL_cons_ws (by decide)]

theorem lineStep_label_authors (st : AppTsx.LineState) (v0 : List Char) :
    AppTsx.lineStep st (('*' :: '*' :: (tagLabel .authors ++ [':', '*', '*', ' '])) ++ v0) =
      { st with authors := some (trimL v0), reading := false } := by
  unfold AppTsx.lineStep
  rw [if_neg (by
    have hf : ("**Title:**".toList).isPrefixOf
        (('*' :: '*' :: (tagLabel .authors ++ [':', '*', '*', ' '])) ++ v0) = false :=
      isPrefixOf_append_false2 _ _ _ (by decide) (by decide)
    rw [hf]
    simp)]
  rw [if_pos (isPrefixOf_append_true _ _ _ (by decide))]
  rw [List.drop_append_of_le_length (by decide)]
  rw [show (('*' :: '*' :: (tagLabel FTag.authors ++ [':', '*', '*', ' '])) : List Char).drop 12
    = [' '] from by decide]
  rw [List.singleton_append, trimL_cons_ws (by decide)]

theorem lineStep_label_year (st : AppTsx.LineState) (v0 : List Char) :
    AppTsx.lineStep st (('*' :: '*' :: (tagLabel .year ++ [':', '*', '*', ' '])) ++ v0) =
      { st with year := some (trimL v0), reading := false } := by
  unfold AppTsx.lineStep
  rw [if_neg (by
    have hf : ("**Title:**".toList).isPrefixOf
        (('*' :: '*' :: (tagLabel .year ++ [':', '*', '*', ' '])) ++ v0) = false :=
      isPrefixOf_append_false2 _ _ _ (by decide) (by decide)
    rw [hf]
    simp)]
  rw [if_neg (by
    have hf : ("**Authors:**".toList).isPrefixOf
        (('*' :: '*' :: (tagLabel .year ++ [':', '*', '*', ' '])) ++ v0) = false :=
      isPrefixOf_append_false2 _ _ _ (by decide) (by decide)
    rw [hf]
    simp)]
  rw [if_pos (isPrefixOf_append_true _ _ _ (by decide))]
  rw [List.drop_append_of_le_length (by decide)]
  rw [show (('*' :: '*' :: (tagLabel FTag.year ++ [':', '*', '*', ' '])) : List Char).drop 9
    = [' '] from by decide]
  rw [List.singleton_append, trimL_cons_ws (by decide)]

theorem lineStep_label_sourceurl (st : AppTsx.LineState) (v0 : List Char) :
    AppTsx.lineStep st (('*' :: '*' :: (tagLabel .sourceurl ++ [':', '*', '*', ' '])) ++ v0) =
      { st with sourceURL := some (trimL v0), reading := false } := by
  unfold AppTsx.lineStep
  rw [if_neg (by
    have hf : ("**Title:**".toList).isPrefixOf
        (('*' :: '*' :: (tagLabel .sourceurl ++ [':', '*', '*', ' '])) ++ v0) = false :=
      isPrefixOf_append_false2 _ _ _ (by decide) (by decide)
    rw [hf]
    simp)]
  rw [if_neg (by
    have hf : ("**Authors:**".toList).isPrefixOf
        (('*' :: '*' :: (tagLabel .sourceurl ++ [':', '*', '*', ' '])) ++ v0) = false :=
      isPrefixOf_append_false2 _ _ _ (by decide) (by decide)
    rw [hf]
    simp)]
  rw [if_neg (by
    have hf : ("**Year:**".toList).isPrefixOf
        (('*' :: '*' :: (tagLabel .sourceurl ++ [':', '*', '*', ' '])) ++ v0) = false :=
      isPrefixOf_append_false2 _ _ _ (by decide) (by decide)
    rw [hf]
    simp)]
  rw [if_pos (isPrefixOf_append_true _ _ _ (by decide))]
  rw [List.drop_append_of_le_length (by decide)]
  rw [show (('*' :: '*' :: (tagLabel FTag.sourceurl ++ [':', '*', '*', ' '])) : List Char).drop 14
    = [' '] from by decide]
  rw [List.singleton_append, trimL_cons_ws (by decide)]

theorem lineStep_label_summary (st : AppTsx.LineState) (v0 : List Char) :
    AppTsx.lineStep st (('*' :: '*' :: (tagLabel .summary ++ [':', '*', '*', ' '])) ++ v0) =
      { st with buf := trimL v0, reading := true } := by
  unfold AppTsx.lineStep
  rw [if_neg (by
    have hf : ("**Title:**".toList).isPrefixOf
        (('*' :: '*' :: (tagLabel .summary ++ [':', '*', '*', ' '])) ++ v0) = false :=
      isPrefixOf_append_false2 _ _ _ (by decide) (by decide)
    rw [hf]
    simp)]
  rw [if_neg (by
    have hf : ("**Authors:**".toList).isPrefixOf
        (('*' :: '*' :: (tagLabel .summary ++ [':', '*', '*', ' '])) ++ v0) = false :=
      isPrefixOf_append_false2 _ _ _ (by decide) (by decide)
    rw [hf]
    simp)]
  rw [if_neg (by
    have hf : ("**Year:**".toList).isPrefixOf
        (('*' :: '*' :: (tagLabel .summary ++ [':', '*', '*', ' '])) ++ v0) = false :=
      isPrefixOf_append_false2 _ _ _ (by decide) (by decide)
    rw [hf]
    simp)]
  rw [if_neg (by
    have hf : ("**SourceURL:**".toList).isPrefixOf
        (('*' :: '*' :: (tagLabel .summary ++ [':', '*', '*', ' '])) ++ v0) = false :=
      isPrefixOf_append_false2 _ _ _ (by decide) (by decide)
    rw [hf]
    simp)]
  rw [if_pos (isPrefixOf_append_true _ _ _ (by decide))]
  rw [List.drop_append_of_le_length (by decide)]
  rw [show (('*' :: '*' :: (tagLabel FTag.summary ++ [':', '*', '*', ' '])) : List Char).drop 12
    = [' '] from by decide]
  rw [List.singleton_append, trimL_cons_ws (by decide)]

theorem joinSp_cons_cons (a b : List Char) (ls : List (List Char)) :
    joinSp (a :: b :: ls) = a ++ ' ' :: joinSp (b :: ls) := rfl

theorem joinSp_acc : ∀ (xs : List (List Char)) (a : List Char),
    a ++ (xs.map fun l => ' ' :: trimL l).flatten = joinSp (a :: xs.map trimL)
  | [], a => by simp [joinSp]
  | x :: xs, a => by
    simp only [List.map_cons, List.flatten_cons, joinSp_cons_cons]
    rw [← joinSp_acc xs (trimL x)]
    simp [List.append_assoc]

theorem linesNoMarker_spec {v : List Char} (h : linesNoMarker v = true) :
    ∀ l ∈ splitNl v, (labelParse l).isSome = false := by
  unfold linesNoMarker at h
  simp only [List.all_eq_true, Bool.not_eq_true'] at h
  exact h

theorem foldl_cont : ∀ (ls : List (List Char)) (st : AppTsx.LineState),
    st.reading = true → (∀ l ∈ ls, (labelParse l).isSome = false) →
    ls.foldl AppTsx.lineStep st =
      { st with buf := st.buf ++ (ls.map fun l => ' ' :: trimL l).flatten }
  | [], st, _, _ => by simp
  | x :: xs, st, hr, hnm => by
    rw [List.foldl_cons, lineStep_cont hr (hnm x (List.mem_cons_self _ _))]
    rw [foldl_cont xs { st with buf := st.buf ++ ' ' :: trimL x } hr
      (fun l hl => hnm l (List.mem_cons_of_mem _ hl))]
    simp [List.append_assoc]

theorem lineGroupOf_eq {p : PaperSpec} {t : FTag} {v0 : List Char}
    {vtail : List (List Char)} (hv : splitNl (valueOf p t) = v0 :: vtail) :
    lineGroupOf p t =
      (('*' :: '*' :: (tagLabel t ++ [':', '*', '*', ' '])) ++ v0) :: vtail := by
  unfold lineGroupOf
  rw [hv]

theorem group_title (p : PaperSpec) (st : AppTsx.LineState)
    (hc : cleanValueB p.title = true) (hs : singleLineB p.title = true) :
    (lineGroupOf p .title).foldl AppTsx.lineStep st =
      { st with title := some p.title, reading := false } := by
  have hnl : ('\n' : Char) ∉ p.title := by
    unfold singleLineB at hs
    simpa using hs
  have hv : splitNl (valueOf p FTag.title) = [p.title] := splitNl_no_nl hnl
  rw [lineGroupOf_eq hv, List.foldl_cons, List.foldl_nil, lineStep_label_title]
  rw [(cleanValueB_spec hc).1]

theorem group_authors (p : PaperSpec) (st : AppTsx.LineState)
    (hc : cleanValueB p.authors = true) (hs : singleLineB p.authors = true) :
    (lineGroupOf p .authors).foldl AppTsx.lineStep st =
      { st with authors := some p.authors, reading := false } := by
  have hnl : ('\n' : Char) ∉ p.authors := by
    unfold singleLineB at hs
    simpa using hs
  have hv : splitNl (valueOf p FTag.authors) = [p.authors] := splitNl_no_nl hnl
  rw [lineGroupOf_eq hv, List.foldl_cons, List.foldl_nil, lineStep_label_authors]
  rw [(cleanValueB_spec hc).1]

theorem group_year (p : PaperSpec) (st : AppTsx.LineState)
    (hc : cleanValueB p.year = true) (hs : singleLineB p.year = true) :
    (lineGroupOf p .year).foldl AppTsx.lineStep st =
      { st with year := some p.year, reading := false } := by
  have hnl : ('\n' : Char) ∉ p.year := by
    unfold singleLineB at hs
    simpa using hs
  have hv : splitNl (valueOf p FTag.year) = [p.year] := splitNl_no_nl hnl
  rw [lineGroupOf_eq hv, List.foldl_cons, List.foldl_nil, lineStep_label_year]
  rw [(cleanValueB_spec hc).1]

theorem group_sourceurl (p : PaperSpec) (st : AppTsx.LineState) {u : List Char}
    (hu : p.sourceURL = some u)
    (hc : cleanValueB u = true) (hs : singleLineB u = true) :
    (lineGroupOf p .sourceurl).foldl AppTsx.lineStep st =
      { st with sourceURL := some u, reading := false } := by
  have hnl : ('\n' : Char) ∉ u := by
    unfold singleLineB at hs
    simpa using hs
  have hval : valueOf p FTag.sourceurl = u := by
    show p.sourceURL.getD [] = u
    rw [hu]
    rfl
  have hv : splitNl (valueOf p FTag.sourceurl) = [u] := by
    rw [hval]
    exact splitNl_no_nl hnl
  rw [lineGroupOf_eq hv, List.foldl_cons, List.foldl_nil, lineStep_label_sourceurl]
  rw [(cleanValueB_spec hc).1]

theorem group_summary (p : PaperSpec) (st : AppTsx.LineState)
    (hc : cleanValueB p.summary = true) :
    (lineGroupOf p .summary).foldl AppTsx.lineStep st =
      { st with buf := normSummary p.summary, reading := true } := by
  obtain ⟨v0, vtail, hv⟩ : ∃ v0 vtail, splitNl p.summary = v0 :: vtail := by
    cases h : splitNl p.summary with
    | nil => exact absurd h (splitNl_ne_nil _)
    | cons a b => exact ⟨a, b, rfl⟩
  have hv' : splitNl (valueOf p FTag.summary) = v0 :: vtail := hv
  rw [lineGroupOf_eq hv', List.foldl_cons, lineStep_label_summary]
  rw [foldl_cont vtail _ rfl (fun l hl =>
    linesNoMarker_spec (cleanValueB_spec hc).2.2.2.2 l
      (by rw [hv]; exact List.mem_cons_of_mem _ hl))]
  have hbuf : trimL v0 ++ (vtail.map fun l => ' ' :: trimL l).flatten =
      normSummary p.summary := by
    rw [joinSp_acc]
    unfold normSummary
    rw [hv, List.map_cons]
  show ({ st with
          buf := trimL v0 ++ (vtail.map fun l => ' ' :: trimL l).flatten,
          reading := true } : AppTsx.LineState) =
    { st with buf := normSummary p.summary, reading := true }
  rw [hbuf]

theorem marker_pref_no_nl (t : FTag) :
    ('\n' : Char) ∉ ('*' :: '*' :: (tagLabel t ++ [':', '*', '*', ' ']) : List Char) := by
  cases t <;> decide

theorem splitNl_mkField (p : PaperSpec) (t : FTag) :
    splitNl (mkFieldLine (tagLabel t) (valueOf p t)) = lineGroupOf p t := by
  obtain ⟨v0, vtail, hv⟩ : ∃ v0 vtail, splitNl (valueOf p t) = v0 :: vtail := by
    cases h : splitNl (valueOf p t) with
    | nil => exact absurd h (splitNl_ne_nil _)
    | cons a b => exact ⟨a, b, rfl⟩
  rw [lineGroupOf_eq hv, mkFieldLine_decomp]
  exact splitNl_prepend (marker_pref_no_nl t) hv

theorem splitNl_renderBlock (p : PaperSpec) : ∀ (ts : List FTag) (t : FTag),
    splitNl (renderBlockFields ((t :: ts).map fun x => (tagLabel x, valueOf p x))) =
      ((t :: ts).map (lineGroupOf p)).flatten := by
  intro ts
  induction ts with
  | nil =>
    intro t
    show splitNl (mkFieldLine (tagLabel t) (valueOf p t)) = _
    rw [splitNl_mkField p t]
    simp
  | cons t2 ts ih =>
    intro t
    have hrb : renderBlockFields ((t :: t2 :: ts).map fun x => (tagLabel x, valueOf p x)) =
        mkFieldLine (tagLabel t) (valueOf p t) ++
          '\n' :: renderBlockFields ((t2 :: ts).map fun x => (tagLabel x, valueOf p x)) := rfl
    rw [hrb, splitNl_append, splitNl_mkField p t, ih t2]
    simp

theorem lineFold_flatten (p : PaperSpec) (ts : List FTag) (st : AppTsx.LineState) :
    (ts.map (lineGroupOf p)).flatten.foldl AppTsx.lineStep st =
      ts.foldl (fun s x => (lineGroupOf p x).foldl AppTsx.lineStep s) st := by
  rw [List.foldl_flatten, List.foldl_map]

theorem lfold_title_absent (p : PaperSpec) (hc : cleanSpecB p = true) :
    ∀ (ts : List FTag) (st : AppTsx.LineState),
    (∀ u ∈ ts, u = FTag.sourceurl → p.sourceURL.isSome = true) →
    FTag.title ∉ ts →
    (ts.foldl (fun s x => (lineGroupOf p x).foldl AppTsx.lineStep s) st).title =
      st.title := by
  intro ts
  induction ts with
  | nil =>
    intro st _ _
    rfl
  | cons t ts ih =>
    intro st hso hmem
    obtain ⟨ct, stt, ca, sa, cy, sy, curl, csum⟩ := cleanSpec_parts hc
    have hso2 : ∀ u ∈ ts, u = FTag.sourceurl → p.sourceURL.isSome = true :=
      fun u hu => hso u (List.mem_cons_of_mem _ hu)
    have hso' := hso2
    have hmem' : FTag.title ∉ ts := fun h => hmem (List.mem_cons_of_mem _ h)
    simp only [List.foldl_cons]
    cases t with
    | title => exact absurd (List.mem_cons_self _ _) hmem
    | authors =>
      rw [group_authors p st ca sa]
      exact ih _ hso' hmem'
    | year =>
      rw [group_year p st cy sy]
      exact ih _ hso' hmem'
    | sourceurl =>
      obtain ⟨u, hu⟩ := Option.isSome_iff_exists.mp (hso _ (List.mem_cons_self _ _) rfl)
      obtain ⟨cu, su⟩ := curl u hu
      rw [group_sourceurl p st hu cu su]
      exact ih _ hso' hmem'
    | summary =>
      rw [group_summary p st csum]
      exact ih _ hso' hmem'

theorem lfold_title_found (p : PaperSpec) (hc : cleanSpecB p = true) :
    ∀ (ts : List FTag) (st : AppTsx.LineState),
    (∀ u ∈ ts, u = FTag.sourceurl → p.sourceURL.isSome = true) →
    FTag.title ∈ ts → ts.Nodup →
    (ts.foldl (fun s x => (lineGroupOf p x).foldl AppTsx.lineStep s) st).title =
      some p.title := by
  intro ts
  induction ts with
  | nil =>
    intro st _ h _
    exact absurd h (List.not_mem_nil _)
  | cons t ts ih =>
    intro st hso hmem hnd
    obtain ⟨ct, stt, ca, sa, cy, sy, curl, csum⟩ := cleanSpec_parts hc
    have hso2 : ∀ u ∈ ts, u = FTag.sourceurl → p.sourceURL.isSome = true :=
      fun u hu => hso u (List.mem_cons_of_mem _ hu)
    have hso' := hso2
    simp only [List.foldl_cons]
    cases t with
    | title =>
      rw [group_title p st ct stt]
      rw [lfold_title_absent p hc ts _ hso' (List.Nodup.not_mem hnd)]
    | authors =>
      rw [group_authors p st ca sa]
      rcases List.mem_cons.mp hmem with hh | hh
      · exact absurd hh (by intro hx; cases hx)
      · exact ih _ hso' hh (List.Nodup.of_cons hnd)
    | year =>
      rw [group_year p st cy sy]
      rcases List.mem_cons.mp hmem with hh | hh
      · exact absurd hh (by intro hx; cases hx)
      · exact ih _ hso' hh (List.Nodup.of_cons hnd)
    | sourceurl =>
      obtain ⟨u, hu⟩ := Option.isSome_iff_exists.mp (hso _ (List.mem_cons_self _ _) rfl)
      obtain ⟨cu, su⟩ := curl u hu
      rw [group_sourceurl p st hu cu su]
      rcases List.mem_cons.mp hmem with hh | hh
      · exact absurd hh (by intro hx; cases hx)
      · exact ih _ hso' hh (List.Nodup.of_cons hnd)
    | summary =>
      rw [group_summary p st csum]
      rcases List.mem_cons.mp hmem with hh | hh
      · exact absurd hh (by intro hx; cases hx)
      · exact ih _ hso' hh (List.Nodup.of_cons hnd)

theorem lfold_authors_absent (p : PaperSpec) (hc : cleanSpecB p = true) :
    ∀ (ts : List FTag) (st : AppTsx.LineState),
    (∀ u ∈ ts, u = FTag.sourceurl → p.sourceURL.isSome = true) →
    FTag.authors ∉ ts →
    (ts.foldl (fun s x => (lineGroupOf p x).foldl AppTsx.lineStep s) st).authors =
      st.authors := by
  intro ts
  induction ts with
  | nil =>
    intro st _ _
    rfl
  | cons t ts ih =>
    intro st hso hmem
    obtain ⟨ct, stt, ca, sa, cy, sy, curl, csum⟩ := cleanSpec_parts hc
    have hso2 : ∀ u ∈ ts, u = FTag.sourceurl → p.sourceURL.isSome = true :=
      fun u hu => hso u (List.mem_cons_of_mem _ hu)
    have hso' := hso2
    have hmem' : FTag.authors ∉ ts := fun h => hmem (List.mem_cons_of_mem _ h)
    simp only [List.foldl_cons]
    cases t with
    | title =>
      rw [group_title p st ct stt]
      exact ih _ hso' hmem'
    | authors => exact absurd (List.mem_cons_self _ _) hmem
    | year =>
      rw [group_year p st cy sy]
      exact ih _ hso' hmem'
    | sourceurl =>
      obtain ⟨u, hu⟩ := Option.isSome_iff_exists.mp (hso _ (List.mem_cons_self _ _) rfl)
      obtain ⟨cu, su⟩ := curl u hu
      rw [group_sourceurl p st hu cu su]
      exact ih _ hso' hmem'
    | summary =>
      rw [group_summary p st csum]
      exact ih _ hso' hmem'

theorem lfold_authors_found (p : PaperSpec) (hc : cleanSpecB p = true) :
    ∀ (ts : List FTag) (st : AppTsx.LineState),
    (∀ u ∈ ts, u = FTag.sourceurl → p.sourceURL.isSome = true) →
    FTag.authors ∈ ts → ts.Nodup →
    (ts.foldl (fun s x => (lineGroupOf p x).foldl AppTsx.lineStep s) st).authors =
      some p.authors := by
  intro ts
  induction ts with
  | nil =>
    intro st _ h _
    exact absurd h (List.not_mem_nil _)
  | cons t ts ih =>
    intro st hso hmem hnd
    obtain ⟨ct, stt, ca, sa, cy, sy, curl, csum⟩ := cleanSpec_parts hc
    have hso2 : ∀ u ∈ ts, u = FTag.sourceurl → p.sourceURL.isSome = true :=
      fun u hu => hso u (List.mem_cons_of_mem _ hu)
    have hso' := hso2
    simp only [List.foldl_cons]
    cases t with
    | title =>
      rw [group_title p st ct stt]
      rcases List.mem_cons.mp hmem with hh | hh
      · exact absurd hh (by intro hx; cases hx)
      · exact ih _ hso' hh (List.Nodup.of_cons hnd)
    | authors =>
      rw [group_authors p st ca sa]
      rw [lfold_authors_absent p hc ts _ hso' (List.Nodup.not_mem hnd)]
    | year =>
      rw [group_year p st cy sy]
      rcases List.mem_cons.mp hmem with hh | hh
      · exact absurd hh (by intro hx; cases hx)
      · exact ih _ hso' hh (List.Nodup.of_cons hnd)
    | sourceurl =>
      obtain ⟨u, hu⟩ := Option.isSome_iff_exists.mp (hso _ (List.mem_cons_self _ _) rfl)
      obtain ⟨cu, su⟩ := curl u hu
      rw [group_sourceurl p st hu cu su]
      rcases List.mem_cons.mp hmem with hh | hh
      · exact absurd hh (by intro hx; cases hx)
      · exact ih _ hso' hh (List.Nodup.of_cons hnd)
    | summary =>
      rw [group_summary p st csum]
      rcases List.mem_cons.mp hmem with hh | hh
      · exact absurd hh (by intro hx; cases hx)
      · exact ih _ hso' hh (List.Nodup.of_cons hnd)

theorem lfold_year_absent (p : PaperSpec) (hc : cleanSpecB p = true) :
    ∀ (ts : List FTag) (st : AppTsx.LineState),
    (∀ u ∈ ts, u = FTag.sourceurl → p.sourceURL.isSome = true) →
    FTag.year ∉ ts →
    (ts.foldl (fun s x => (lineGroupOf p x).foldl AppTsx.lineStep s) st).year =
      st.year := by
  intro ts
  induction ts with
  | nil =>
    intro st _ _
    rfl
  | cons t ts ih =>
    intro st hso hmem
    obtain ⟨ct, stt, ca, sa, cy, sy, curl, csum⟩ := cleanSpec_parts hc
    have hso2 : ∀ u ∈ ts, u = FTag.sourceurl → p.sourceURL.isSome = true :=
      fun u hu => hso u (List.mem_cons_of_mem _ hu)
    have hso' := hso2
    have hmem' : FTag.year ∉ ts := fun h => hmem (List.mem_cons_of_mem _ h)
    simp only [List.foldl_cons]
    cases t with
    | title =>
      rw [group_title p st ct stt]
      exact ih _ hso' hmem'
    | authors =>
      rw [group_authors p st ca sa]
      exact ih _ hso' hmem'
    | year => exact absurd (List.mem_cons_self _ _) hmem
    | sourceurl =>
      obtain ⟨u, hu⟩ := Option.isSome_iff_exists.mp (hso _ (List.mem_cons_self _ _) rfl)
      obtain ⟨cu, su⟩ := curl u hu
      rw [group_sourceurl p st hu cu su]
      exact ih _ hso' hmem'
    | summary =>
      rw [group_summary p st csum]
      exact ih _ hso' hmem'

theorem lfold_year_found (p : PaperSpec) (hc : cleanSpecB p = true) :
    ∀ (ts : List FTag) (st : AppTsx.LineState),
    (∀ u ∈ ts, u = FTag.sourceurl → p.sourceURL.isSome = true) →
    FTag.year ∈ ts → ts.Nodup →
    (ts.foldl (fun s x => (lineGroupOf p x).foldl AppTsx.lineStep s) st).year =
      some p.year := by
  intro ts
  induction ts with
  | nil =>
    intro st _ h _
    exact absurd h (List.not_mem_nil _)
  | cons t ts ih =>
    intro st hso hmem hnd
    obtain ⟨ct, stt, ca, sa, cy, sy, curl, csum⟩ := cleanSpec_parts hc
    have hso2 : ∀ u ∈ ts, u = FTag.sourceurl → p.sourceURL.isSome = true :=
      fun u hu => hso u (List.mem_cons_of_mem _ hu)
    have hso' := hso2
    simp only [List.foldl_cons]
    cases t with
    | title =>
      rw [group_title p st ct stt]
      rcases List.mem_cons.mp hmem with hh | hh
      · exact absurd hh (by intro hx; cases hx)
      · exact ih _ hso' hh (List.Nodup.of_cons hnd)
    | authors =>
      rw [group_authors p st ca sa]
      rcases List.mem_cons.mp hmem with hh | hh
      · exact absurd hh (by intro hx; cases hx)
      · exact ih _ hso' hh (List.Nodup.of_cons hnd)
    | year =>
      rw [group_year p st cy sy]
      rw [lfold_year_absent p hc ts _ hso' (List.Nodup.not_mem hnd)]
    | sourceurl =>
      obtain ⟨u, hu⟩ := Option.isSome_iff_exists.mp (hso _ (List.mem_cons_self _ _) rfl)
      obtain ⟨cu, su⟩ := curl u hu
      rw [group_sourceurl p st hu cu su]
      rcases List.mem_cons.mp hmem with hh | hh
      · exact absurd hh (by intro hx; cases hx)
      · exact ih _ hso' hh (List.Nodup.of_cons hnd)
    | summary =>
      rw [group_summary p st csum]
      rcases List.mem_cons.mp hmem with hh | hh
      · exact absurd hh (by intro hx; cases hx)
      · exact ih _ hso' hh (List.Nodup.of_cons hnd)

theorem lfold_sourceURL_absent (p : PaperSpec) (hc : cleanSpecB p = true) :
    ∀ (ts : List FTag) (st : AppTsx.LineState),
    (∀ u ∈ ts, u = FTag.sourceurl → p.sourceURL.isSome = true) →
    FTag.sourceurl ∉ ts →
    (ts.foldl (fun s x => (lineGroupOf p x).foldl AppTsx.lineStep s) st).sourceURL =
      st.sourceURL := by
  intro ts
  induction ts with
  | nil =>
    intro st _ _
    rfl
  | cons t ts ih =>
    intro st hso hmem
    obtain ⟨ct, stt, ca, sa, cy, sy, curl, csum⟩ := cleanSpec_parts hc
    have hso2 : ∀ u ∈ ts, u = FTag.sourceurl → p.sourceURL.isSome = true :=
      fun u hu => hso u (List.mem_cons_of_mem _ hu)
    have hso' := hso2
    have hmem' : FTag.sourceurl ∉ ts := fun h => hmem (List.mem_cons_of_mem _ h)
    simp only [List.foldl_cons]
    cases t with
    | title =>
      rw [group_title p st ct stt]
      exact ih _ hso' hmem'
    | authors =>
      rw [group_authors p st ca sa]
      exact ih _ hso' hmem'
    | year =>
      rw [group_year p st cy sy]
      exact ih _ hso' hmem'
    | sourceurl => exact absurd (List.mem_cons_self _ _) hmem
    | summary =>
      rw [group_summary p st csum]
      exact ih _ hso' hmem'

theorem lfold_sourceURL_found (p : PaperSpec) (hc : cleanSpecB p = true) :
    ∀ (ts : List FTag) (st : AppTsx.LineState),
    (∀ u ∈ ts, u = FTag.sourceurl → p.sourceURL.isSome = true) →
    FTag.sourceurl ∈ ts → ts.Nodup →
    (ts.foldl (fun s x => (lineGroupOf p x).foldl AppTsx.lineStep s) st).sourceURL =
      some (p.sourceURL.getD []) := by
  intro ts
  induction ts with
  | nil =>
    intro st _ h _
    exact absurd h (List.not_mem_nil _)
  | cons t ts ih =>
    intro st hso hmem hnd
    obtain ⟨ct, stt, ca, sa, cy, sy, curl, csum⟩ := cleanSpec_parts hc
    have hso2 : ∀ u ∈ ts, u = FTag.sourceurl → p.sourceURL.isSome = true :=
      fun u hu => hso u (List.mem_cons_of_mem _ hu)
    have hso' := hso2
    simp only [List.foldl_cons]
    cases t with
    | title =>
      rw [group_title p st ct stt]
      rcases List.mem_cons.mp hmem with hh | hh
      · exact absurd hh (by intro hx; cases hx)
      · exact ih _ hso' hh (List.Nodup.of_cons hnd)
    | authors =>
      rw [group_authors p st ca sa]
      rcases List.mem_cons.mp hmem with hh | hh
      · exact absurd hh (by intro hx; cases hx)
      · exact ih _ hso' hh (List.Nodup.of_cons hnd)
    | year =>
      rw [group_year p st cy sy]
      rcases List.mem_cons.mp hmem with hh | hh
      · exact absurd hh (by intro hx; cases hx)
      · exact ih _ hso' hh (List.Nodup.of_cons hnd)
    | sourceurl =>
      obtain ⟨u, hu⟩ := Option.isSome_iff_exists.mp (hso _ (List.mem_cons_self _ _) rfl)
      obtain ⟨cu, su⟩ := curl u hu
      rw [group_sourceurl p st hu cu su]
      rw [lfold_sourceURL_absent p hc ts _ hso' (List.Nodup.not_mem hnd)]
      rw [hu]
      rfl
    | summary =>
      rw [group_summary p st csum]
      rcases List.mem_cons.mp hmem with hh | hh
      · exact absurd hh (by intro hx; cases hx)
      · exact ih _ hso' hh (List.Nodup.of_cons hnd)

theorem lfold_buf_absent (p : PaperSpec) (hc : cleanSpecB p = true) :
    ∀ (ts : List FTag) (st : AppTsx.LineState),
    (∀ u ∈ ts, u = FTag.sourceurl → p.sourceURL.isSome = true) →
    FTag.summary ∉ ts →
    (ts.foldl (fun s x => (lineGroupOf p x).foldl AppTsx.lineStep s) st).buf =
      st.buf := by
  intro ts
  induction ts with
  | nil =>
    intro st _ _
    rfl
  | cons t ts ih =>
    intro st hso hmem
    obtain ⟨ct, stt, ca, sa, cy, sy, curl, csum⟩ := cleanSpec_parts hc
    have hso2 : ∀ u ∈ ts, u = FTag.sourceurl → p.sourceURL.isSome = true :=
      fun u hu => hso u (List.mem_cons_of_mem _ hu)
    have hso' := hso2
    have hmem' : FTag.summary ∉ ts := fun h => hmem (List.mem_cons_of_mem _ h)
    simp only [List.foldl_cons]
    cases t with
    | title =>
      rw [group_title p st ct stt]
      exact ih _ hso' hmem'
    | authors =>
      rw [group_authors p st ca sa]
      exact ih _ hso' hmem'
    | year =>
      rw [group_year p st cy sy]
      exact ih _ hso' hmem'
    | sourceurl =>
      obtain ⟨u, hu⟩ := Option.isSome_iff_exists.mp (hso _ (List.mem_cons_self _ _) rfl)
      obtain ⟨cu, su⟩ := curl u hu
      rw [group_sourceurl p st hu cu su]
      exact ih _ hso' hmem'
    | summary => exact absurd (List.mem_cons_self _ _) hmem

theorem lfold_buf_found (p : PaperSpec) (hc : cleanSpecB p = true) :
    ∀ (ts : List FTag) (st : AppTsx.LineState),
    (∀ u ∈ ts, u = FTag.sourceurl → p.sourceURL.isSome = true) →
    FTag.summary ∈ ts → ts.Nodup →
    (ts.foldl (fun s x => (lineGroupOf p x).foldl AppTsx.lineStep s) st).buf =
      normSummary p.summary := by
  intro ts
  induction ts with
  | nil =>
    intro st _ h _
    exact absurd h (List.not_mem_nil _)
  | cons t ts ih =>
    intro st hso hmem hnd
    obtain ⟨ct, stt, ca, sa, cy, sy, curl, csum⟩ := cleanSpec_parts hc
    have hso2 : ∀ u ∈ ts, u = FTag.sourceurl → p.sourceURL.isSome = true :=
      fun u hu => hso u (List.mem_cons_of_mem _ hu)
    have hso' := hso2
    simp only [List.foldl_cons]
    cases t with
    | title =>
      rw [group_title p st ct stt]
      rcases List.mem_cons.mp hmem with hh | hh
      · exact absurd hh (by intro hx; cases hx)
      · exact ih _ hso' hh (List.Nodup.of_cons hnd)
    | authors =>
      rw [group_authors p st ca sa]
      rcases List.mem_cons.mp hmem with hh | hh
      · exact absurd hh (by intro hx; cases hx)
      · exact ih _ hso' hh (List.Nodup.of_cons hnd)
    | year =>
      rw [group_year p st cy sy]
      rcases List.mem_cons.mp hmem with hh | hh
      · exact absurd hh (by intro hx; cases hx)
      · exact ih _ hso' hh (List.Nodup.of_cons hnd)
    | sourceurl =>
      obtain ⟨u, hu⟩ := Option.isSome_iff_exists.mp (hso _ (List.mem_cons_self _ _) rfl)
      obtain ⟨cu, su⟩ := curl u hu
      rw [group_sourceurl p st hu cu su]
      rcases List.mem_cons.mp hmem with hh | hh
      · exact absurd hh (by intro hx; cases hx)
      · exact ih _ hso' hh (List.Nodup.of_cons hnd)
    | summary =>
      rw [group_summary p st csum]
      rw [lfold_buf_absent p hc ts _ hso' (List.Nodup.not_mem hnd)]

theorem trimR_length_le (l : List Char) : (trimR l).length ≤ l.length := by
  unfold trimR
  rw [List.length_reverse]
  calc (l.reverse.dropWhile isWs).length ≤ l.reverse.length :=
        length_dropWhile_le _ _
    _ = l.length := List.length_reverse l

theorem normSummary_ne_nil {v : List Char} (h : cleanValueB v = true) :
    normSummary v ≠ [] := by
  obtain ⟨htr, hne, _, _, _⟩ := cleanValueB_spec h
  obtain ⟨c, cs, rfl⟩ : ∃ c cs, v = c :: cs := by
    cases v with
    | nil => exact absurd rfl hne
    | cons c cs => exact ⟨c, cs, rfl⟩
  have hcws : isWs c = false := by
    have hh := headNonWs_of_trim_fix htr
    unfold headNonWsB at hh
    simpa using hh
  have hcnl : c ≠ '\n' := by
    intro hcc
    rw [hcc] at hcws
    exact absurd hcws (by decide)
  obtain ⟨x, xs, hx⟩ : ∃ x xs, splitNl cs = x :: xs := by
    cases hh : splitNl cs with
    | nil => exact absurd hh (splitNl_ne_nil _)
    | cons a b => exact ⟨a, b, rfl⟩
  have hsplit : splitNl (c :: cs) = (c :: x) :: xs := splitNl_cons_head hcnl hx
  unfold normSummary
  rw [hsplit, List.map_cons]
  cases hxs : xs.map trimL with
  | nil =>
    show trimL (c :: x) ≠ []
    exact trimL_ne_nil_of_nonws (List.mem_cons_self _ _) hcws
  | cons b bs =>
    rw [joinSp_cons_cons]
    intro hcontra
    simp at hcontra

theorem lineBlock_render (p : PaperSpec) (hc : cleanSpecB p = true)
    (ho : orderOkB p = true) :
    AppTsx.blockToPaper (renderPaperSpec p) =
      if mandatoryTags p = true then some (specPaperLine p) else none := by
  obtain ⟨hnd, hurl⟩ := orderOkB_spec ho
  obtain ⟨ct, stt, ca, sa, cy, sy, curl, csum⟩ := cleanSpec_parts hc
  cases horder : p.order with
  | nil =>
    have hrp : renderPaperSpec p = [] := by
      unfold renderPaperSpec
      rw [horder]
      rfl
    have hmt : mandatoryTags p = false := by
      unfold mandatoryTags
      rw [horder]
      rfl
    rw [hrp, hmt]
    rfl
  | cons t ts =>
    have htrim : trimL (renderPaperSpec p) = renderPaperSpec p :=
      renderPaperSpec_trim_fix p hc ho
    have hsplit : splitNl (renderPaperSpec p) = ((t :: ts).map (lineGroupOf p)).flatten := by
      show splitNl (renderBlockFields (p.order.map fun x => (tagLabel x, valueOf p x))) = _
      rw [horder]
      exact splitNl_renderBlock p ts t
    have hso : ∀ u ∈ (t :: ts), u = FTag.sourceurl → p.sourceURL.isSome = true := by
      intro u hu hueq
      rw [hurl]
      apply contains_eq_true_iff.mpr
      rw [horder]
      exact hueq ▸ hu
    have hndts : (t :: ts).Nodup := horder ▸ hnd
    have hst : (splitNl (trimL (renderPaperSpec p))).foldl AppTsx.lineStep {} =
        (t :: ts).foldl (fun s x => (lineGroupOf p x).foldl AppTsx.lineStep s) {} := by
      rw [htrim, hsplit, lineFold_flatten]
    have h_t : ((t :: ts).foldl (fun s x => (lineGroupOf p x).foldl AppTsx.lineStep s)
        {}).title = (if FTag.title ∈ (t :: ts) then some p.title else none) := by
      by_cases hm : FTag.title ∈ (t :: ts)
      · rw [if_pos hm]
        exact lfold_title_found p hc _ {} hso hm hndts
      · rw [if_neg hm]
        exact lfold_title_absent p hc _ {} hso hm
    have h_a : ((t :: ts).foldl (fun s x => (lineGroupOf p x).foldl AppTsx.lineStep s)
        {}).authors = (if FTag.authors ∈ (t :: ts) then some p.authors else none) := by
      by_cases hm : FTag.authors ∈ (t :: ts)
      · rw [if_pos hm]
        exact lfold_authors_found p hc _ {} hso hm hndts
      · rw [if_neg hm]
        exact lfold_authors_absent p hc _ {} hso hm
    have h_y : ((t :: ts).foldl (fun s x => (lineGroupOf p x).foldl AppTsx.lineStep s)
        {}).year = (if FTag.year ∈ (t :: ts) then some p.year else none) := by
      by_cases hm : FTag.year ∈ (t :: ts)
      · rw [if_pos hm]
        exact lfold_year_found p hc _ {} hso hm hndts
      · rw [if_neg hm]
        exact lfold_year_absent p hc _ {} hso hm
    have h_u : ((t :: ts).foldl (fun s x => (lineGroupOf p x).foldl AppTsx.lineStep s)
        {}).sourceURL =
        (if FTag.sourceurl ∈ (t :: ts) then some (p.sourceURL.getD []) else none) := by
      by_cases hm : FTag.sourceurl ∈ (t :: ts)
      · rw [if_pos hm]
        exact lfold_sourceURL_found p hc _ {} hso hm hndts
      · rw [if_neg hm]
        exact lfold_sourceURL_absent p hc _ {} hso hm
    have h_b : ((t :: ts).foldl (fun s x => (lineGroupOf p x).foldl AppTsx.lineStep s)
        {}).buf = (if FTag.summary ∈ (t :: ts) then normSummary p.summary else []) := by
      by_cases hm : FTag.summary ∈ (t :: ts)
      · rw [if_pos hm]
        exact lfold_buf_found p hc _ {} hso hm hndts
      · rw [if_neg hm]
        exact lfold_buf_absent p hc _ {} hso hm
    have hbp : AppTsx.blockToPaper (renderPaperSpec p) =
        (let st := (t :: ts).foldl (fun s x => (lineGroupOf p x).foldl AppTsx.lineStep s) {}
         if fieldOk st.title && fieldOk st.authors && fieldOk st.year && !st.buf.isEmpty then
           some ({ title := st.title.getD [], authors := st.authors.getD [],
                   year := st.year.getD [], summary := st.buf,
                   sourceURL := st.sourceURL } : Paper)
         else none) := by
      unfold AppTsx.blockToPaper
      rw [hst]
    rw [hbp]
    show (if fieldOk ((t :: ts).foldl (fun s x => (lineGroupOf p x).foldl AppTsx.lineStep s)
            {}).title &&
          fieldOk ((t :: ts).foldl (fun s x => (lineGroupOf p x).foldl AppTsx.lineStep s)
            {}).authors &&
          fieldOk ((t :: ts).foldl (fun s x => (lineGroupOf p x).foldl AppTsx.lineStep s)
            {}).year &&
          !((t :: ts).foldl (fun s x => (lineGroupOf p x).foldl AppTsx.lineStep s)
            {}).buf.isEmpty then
        some ({ title := ((t :: ts).foldl (fun s x =>
                  (lineGroupOf p x).foldl AppTsx.lineStep s) {}).title.getD [],
                authors := ((t :: ts).foldl (fun s x =>
                  (lineGroupOf p x).foldl AppTsx.lineStep s) {}).authors.getD [],
                year := ((t :: ts).foldl (fun s x =>
                  (lineGroupOf p x).foldl AppTsx.lineStep s) {}).year.getD [],
                summary := ((t :: ts).foldl (fun s x =>
                  (lineGroupOf p x).foldl AppTsx.lineStep s) {}).buf,
                sourceURL := ((t :: ts).foldl (fun s x =>
                  (lineGroupOf p x).foldl AppTsx.lineStep s) {}).sourceURL } : Paper)
      else none) = if mandatoryTags p = true then some (specPaperLine p) else none
    rw [h_t, h_a, h_y, h_u, h_b]
    have hfo_t : fieldOk (if FTag.title ∈ (t :: ts) then some p.title else none) =
        p.order.contains FTag.title := by
      by_cases hm : FTag.title ∈ (t :: ts)
      · rw [if_pos hm, contains_eq_true_iff.mpr (show FTag.title ∈ p.order from horder ▸ hm)]
        exact fieldOk_some_of_ne (cleanValueB_spec ct).2.1
      · rw [if_neg hm, contains_eq_false_of_not_mem
          (show FTag.title ∉ p.order from fun hx => hm (horder ▸ hx))]
        rfl
    have hfo_a : fieldOk (if FTag.authors ∈ (t :: ts) then some p.authors else none) =
        p.order.contains FTag.authors := by
      by_cases hm : FTag.authors ∈ (t :: ts)
      · rw [if_pos hm, contains_eq_true_iff.mpr (show FTag.authors ∈ p.order from horder ▸ hm)]
        exact fieldOk_some_of_ne (cleanValueB_spec ca).2.1
      · rw [if_neg hm, contains_eq_false_of_not_mem
          (show FTag.authors ∉ p.order from fun hx => hm (horder ▸ hx))]
        rfl
    have hfo_y : fieldOk (if FTag.year ∈ (t :: ts) then some p.year else none) =
        p.order.contains FTag.year := by
      by_cases hm : FTag.year ∈ (t :: ts)
      · rw [if_pos hm, contains_eq_true_iff.mpr (show FTag.year ∈ p.order from horder ▸ hm)]
        exact fieldOk_some_of_ne (cleanValueB_spec cy).2.1
      · rw [if_neg hm, contains_eq_false_of_not_mem
          (show FTag.year ∉ p.order from fun hx => hm (horder ▸ hx))]
        rfl
    have hfo_b : (!(if FTag.summary ∈ (t :: ts) then normSummary p.summary else
        []).isEmpty) = p.order.contains FTag.summary := by
      by_cases hm : FTag.summary ∈ (t :: ts)
      · rw [if_pos hm, contains_eq_true_iff.mpr (show FTag.summary ∈ p.order from horder ▸ hm)]
        cases hns : normSummary p.summary with
        | nil => exact absurd hns (normSummary_ne_nil csum)
        | cons a as => rfl
      · rw [if_neg hm, contains_eq_false_of_not_mem
          (show FTag.summary ∉ p.order from fun hx => hm (horder ▸ hx))]
        rfl
    rw [hfo_t, hfo_a, hfo_y, hfo_b]
    rw [show (p.order.contains FTag.title && p.order.contains FTag.authors &&
        p.order.contains FTag.year && p.order.contains FTag.summary) = mandatoryTags p
        from rfl]
    by_cases hmand : mandatoryTags p = true
    · rw [if_pos hmand, if_pos hmand]
      have hmems : FTag.title ∈ p.order ∧ FTag.authors ∈ p.order ∧
          FTag.year ∈ p.order ∧ FTag.summary ∈ p.order := by
        unfold mandatoryTags at hmand
        simp only [Bool.and_eq_true] at hmand
        exact ⟨List.elem_iff.mp hmand.1.1.1, List.elem_iff.mp hmand.1.1.2,
          List.elem_iff.mp hmand.1.2, List.elem_iff.mp hmand.2⟩
      have hu_eq : (if FTag.sourceurl ∈ (t :: ts) then some (p.sourceURL.getD []) else none) =
          p.sourceURL := by
        cases hsrc : p.sourceURL with
        | some u =>
          have hm : FTag.sourceurl ∈ (t :: ts) := by
            rw [← horder]
            apply contains_eq_true_iff.mp
            rw [← hurl, hsrc]
            rfl
          rw [if_pos hm]
          rfl
        | none =>
          have hm : FTag.sourceurl ∉ (t :: ts) := by
            intro hmm
            have hcont : p.order.contains FTag.sourceurl = true :=
              contains_eq_true_iff.mpr (horder ▸ hmm)
            rw [← hurl, hsrc] at hcont
            simp at hcont
          rw [if_neg hm]
      rw [if_pos (show FTag.title ∈ (t :: ts) from horder ▸ hmems.1),
        if_pos (show FTag.authors ∈ (t :: ts) from horder ▸ hmems.2.1),
        if_pos (show FTag.year ∈ (t :: ts) from horder ▸ hmems.2.2.1),
        if_pos (show FTag.summary ∈ (t :: ts) from horder ▸ hmems.2.2.2),
        hu_eq]
      rfl
    · rw [if_neg hmand, if_neg hmand]

theorem lineBlock_trim_congr {x y : List Char} (h : trimL x = trimL y) :
    AppTsx.blockToPaper x = AppTsx.blockToPaper y := by
  unfold AppTsx.blockToPaper
  rw [h]

theorem filterMap_lineBlock_trim : ∀ (ds bs : List (List Char)),
    ds.map trimL = bs.map trimL →
    ds.filterMap AppTsx.blockToPaper = bs.filterMap AppTsx.blockToPaper := by
  intro ds
  induction ds with
  | nil =>
    intro bs h
    cases bs with
    | nil => rfl
    | cons b bs => simp at h
  | cons d ds ih =>
    intro bs h
    cases bs with
    | nil => simp at h
    | cons b bs =>
      simp only [List.map_cons, List.cons_eq_cons] at h
      rw [List.filterMap_cons, List.filterMap_cons, lineBlock_trim_congr h.1, ih bs h.2]

theorem parseLine_renderText (ps : List PaperSpec)
    (h : ∀ p ∈ ps, cleanSpecB p = true ∧ orderOkB p = true) :
    AppTsx.parseGeminiResponse (renderText ps) =
      ps.filterMap (fun p => if mandatoryTags p = true then some (specPaperLine p) else none) := by
  cases ps with
  | nil => rfl
  | cons p rest =>
    have hblocks : ∀ b ∈ (p :: rest).map renderPaperSpec,
        noTripleB b = true ∧ trimL b = b := by
      intro b hb
      obtain ⟨q, hq, rfl⟩ := List.mem_map.mp hb
      exact ⟨renderPaperSpec_noTriple q (h q hq).1 (h q hq).2,
        renderPaperSpec_trim_fix q (h q hq).1 (h q hq).2⟩
    have hsj : (splitDashes (joinDashes ((p :: rest).map renderPaperSpec))).map trimL =
        (p :: rest).map renderPaperSpec := by
      rw [List.map_cons]
      exact splitDashes_joinDashes _ _
        (hblocks _ (by simp)).1 (hblocks _ (by simp)).2
        (fun x hx => hblocks x (by simp only [List.map_cons]; exact List.mem_cons_of_mem _ hx))
    have hfm : (splitDashes (renderText (p :: rest))).filterMap AppTsx.blockToPaper =
        ((p :: rest).map renderPaperSpec).filterMap AppTsx.blockToPaper := by
      apply filterMap_lineBlock_trim
      rw [show renderText (p :: rest) = joinDashes ((p :: rest).map renderPaperSpec) from rfl,
        hsj, List.map_map]
      apply List.map_congr_left
      intro q hq
      exact (hblocks (renderPaperSpec q) (List.mem_map_of_mem _ hq)).2.symm
    have hper : ((p :: rest).map renderPaperSpec).filterMap AppTsx.blockToPaper =
        (p :: rest).filterMap
          (fun q => if mandatoryTags q = true then some (specPaperLine q) else none) := by
      rw [List.filterMap_map]
      apply List.filterMap_congr
      intro q hq
      exact lineBlock_render q (h q hq).1 (h q hq).2
    unfold AppTsx.parseGeminiResponse
    by_cases hguard : (trimL (renderText (p :: rest))).isEmpty = true
    · cases rest with
      | cons p2 rest2 =>
        exfalso
        have hmem : ('-' : Char) ∈ renderText (p :: p2 :: rest2) := by
          show ('-' : Char) ∈ joinDashes (renderPaperSpec p :: (p2 :: rest2).map renderPaperSpec)
          rw [show (p2 :: rest2).map renderPaperSpec =
            renderPaperSpec p2 :: rest2.map renderPaperSpec from rfl]
          show ('-' : Char) ∈ renderPaperSpec p ++
            '\n' :: '-' :: '-' :: '-' :: '\n' ::
              joinDashes (renderPaperSpec p2 :: rest2.map renderPaperSpec)
          exact List.mem_append.mpr (Or.inr (by simp))
        exact trimL_ne_nil_of_nonws hmem (by decide) (by simpa using hguard)
      | nil =>
        cases horder : p.order with
        | cons t ts =>
          exfalso
          have htf := renderPaperSpec_trim_fix p (h p (by simp)).1 (h p (by simp)).2
          have hne : renderPaperSpec p ≠ [] := by
            show renderBlockFields (p.order.map fun u => (tagLabel u, valueOf p u)) ≠ []
            rw [horder]
            exact renderBlockFields_ne_nil _ _
          have hne2 : trimL (renderText [p]) ≠ [] := by
            show trimL (renderPaperSpec p) ≠ []
            rw [htf]
            exact hne
          exact hne2 (by simpa using hguard)
        | nil =>
          have hmt : mandatoryTags p = false := by
            unfold mandatoryTags
            rw [horder]
            rfl
          rw [if_pos hguard]
          simp [hmt]
    · rw [if_neg hguard]
      rw [show renderText (p :: rest) = joinDashes ((p :: rest).map renderPaperSpec) from rfl]
        at hfm ⊢
      rw [hfm, hper]

/-! ## Lemmas: cache operations and the `handleSearch` slice -/

theorem cacheGet_cachePut_self (c : GeminiService.Cache) (k : List Char)
    (e : GeminiService.CacheEntry) :
    GeminiService.cacheGet (GeminiService.cachePut c k e) k = some e := by
  unfold GeminiService.cacheGet GeminiService.cachePut
  rw [List.find?_cons_of_pos _ (by simp)]
  rfl

theorem isCacheHit_some {c : GeminiService.Cache} {k : List Char}
    {e : GeminiService.CacheEntry} (now : Int)
    (h : GeminiService.cacheGet c k = some e) :
    GeminiService.isCacheHit c k now =
      decide (now - e.timestamp < GeminiService.CACHE_DURATION_MS) := by
  unfold GeminiService.isCacheHit
  rw [h]

theorem isCacheHit_none {c : GeminiService.Cache} {k : List Char} (now : Int)
    (h : GeminiService.cacheGet c k = none) :
    GeminiService.isCacheHit c k now = false := by
  unfold GeminiService.isCacheHit
  rw [h]

theorem handleSearch_hit (cache : GeminiService.Cache) (key : List Char) (now : Int)
    (outcome : GeminiService.FetchOutcome) (cits : List (List Char)) (now2 : Int)
    (hhit : GeminiService.isCacheHit cache key now = true) :
    GeminiService.handleSearchModel cache key now outcome cits now2 =
      { issuedRequest := false
        cache := cache
        papers := ((GeminiService.cacheGet cache key).map (·.papers)).getD []
        errorMsg := none } := by
  unfold GeminiService.handleSearchModel
  rw [if_pos hhit]

theorem handleSearch_miss_ok (cache : GeminiService.Cache) (key text : List Char)
    (now : Int) (cits : List (List Char)) (now2 : Int)
    (hmiss : GeminiService.isCacheHit cache key now = false) :
    GeminiService.handleSearchModel cache key now (.ok text) cits now2 =
      { issuedRequest := true
        cache := GeminiService.cachePut cache key
          ⟨GeminiService.parseGeminiResponse text,
           (if (GeminiService.parseGeminiResponse text).length > 0 then cits else []), now2⟩
        papers := GeminiService.parseGeminiResponse text
        errorMsg :=
          if (GeminiService.parseGeminiResponse text).isEmpty && text.isEmpty then
            some GeminiService.emptyResponseMsg
          else if (GeminiService.parseGeminiResponse text).isEmpty && !text.isEmpty then
            some GeminiService.unparsableMsg
          else none } := by
  unfold GeminiService.handleSearchModel
  rw [if_neg (by simp [hmiss])]

theorem handleSearch_miss_issued (cache : GeminiService.Cache) (key : List Char) (now : Int)
    (outcome : GeminiService.FetchOutcome) (cits : List (List Char)) (now2 : Int)
    (hmiss : GeminiService.isCacheHit cache key now = false) :
    (GeminiService.handleSearchModel cache key now outcome cits now2).issuedRequest = true := by
  unfold GeminiService.handleSearchModel
  rw [if_neg (by simp [hmiss])]
  cases outcome <;> rfl

theorem not_isEmpty_of_ne {l : List Char} (h : l ≠ []) : (!l.isEmpty) = true := by
  cases l with
  | nil => exact absurd rfl h
  | cons a as => rfl

/-! ## Lemmas: the parsers blockwise -/

theorem splitDashesAux_no_dash : ∀ (fuel : Nat) (s : List Char),
    s.length ≤ fuel + 1 → ('-' : Char) ∉ s → splitDashesAux (fuel + 1) s = [s]
  | _, [], _, _ => rfl
  | fuel, c :: cs, hlen, h => by
    have hc : c ≠ '-' := fun hh => h (hh ▸ List.mem_cons_self _ _)
    have hpf : (['-', '-', '-'] : List Char).isPrefixOf (c :: cs) = false := by
      show (('-' == c) && (['-', '-'] : List Char).isPrefixOf cs) = false
      rw [show ('-' == c) = false from beq_eq_false_iff_ne.mpr (Ne.symm hc)]
      rfl
    show (if (['-', '-', '-'] : List Char).isPrefixOf (c :: cs) = true then
        [] :: splitDashesAux fuel (cs.drop 2)
      else match splitDashesAux fuel cs with
        | r :: rs => (c :: r) :: rs
        | [] => [[c]]) = [c :: cs]
    rw [if_neg (by simp [hpf])]
    cases fuel with
    | zero =>
      have : cs = [] := by
        cases cs with
        | nil => rfl
        | cons d ds => simp [List.length_cons] at hlen
      subst this
      rfl
    | succ fuel2 =>
      have hlen2 : cs.length ≤ fuel2 + 1 := by
        simp only [List.length_cons] at hlen
        omega
      rw [splitDashesAux_no_dash fuel2 cs hlen2 (fun hm => h (List.mem_cons_of_mem _ hm))]

theorem splitDashes_no_dash {s : List Char} (h : ('-' : Char) ∉ s) :
    splitDashes s = [s] := by
  unfold splitDashes
  cases s with
  | nil => rfl
  | cons c cs =>
    rw [show (c :: cs).length = cs.length + 1 from rfl]
    exact splitDashesAux_no_dash cs.length (c :: cs) (by simp) h

theorem blockToPaper_none_of_trim_nil {block : List Char} (h : trimL block = []) :
    GeminiService.blockToPaper block = none := by
  unfold GeminiService.blockToPaper
  rw [h]
  rfl

theorem opt_isSome_ite (c : Bool) (x : Paper) :
    (if c = true then some x else none).isSome = c := by
  cases c with
  | false => rfl
  | true => rfl

theorem blockToPaper_isSome (block : List Char) :
    (GeminiService.blockToPaper block).isSome = GeminiService.mandatoryPresent block := by
  by_cases he : (trimL block).isEmpty = true
  · have hnil : trimL block = [] := List.isEmpty_iff.mp he
    unfold GeminiService.blockToPaper GeminiService.mandatoryPresent GeminiService.blockFields
    rw [hnil]
    rfl
  · unfold GeminiService.blockToPaper GeminiService.mandatoryPresent GeminiService.blockFields
    dsimp only
    rw [if_neg he]
    exact opt_isSome_ite _ _

theorem fieldOk_getD_ne {o : Option (List Char)} (h : fieldOk o = true) :
    o.getD [] ≠ [] := by
  cases o with
  | none => exact absurd h (by simp [fieldOk])
  | some v =>
    cases v with
    | nil => exact absurd h (by simp [fieldOk])
    | cons a as => simp

theorem scanValue_split : ∀ s : List Char, (scanValue s).1 ++ (scanValue s).2 = s
  | [] => rfl
  | c :: cs => by
    rw [scanValue_cons]
    by_cases h : labelReachable (c :: cs) = true
    · rw [if_pos h]
      rfl
    · rw [if_neg h]
      dsimp only
      rw [List.cons_append, scanValue_split cs]

theorem scanValue_tail_or : ∀ s : List Char,
    (scanValue s).2 = [] ∨ labelReachable (scanValue s).2 = true
  | [] => Or.inl rfl
  | c :: cs => by
    rw [scanValue_cons]
    by_cases h : labelReachable (c :: cs) = true
    · rw [if_pos h]
      exact Or.inr h
    · rw [if_neg h]
      exact scanValue_tail_or cs

theorem scanValue_min : ∀ (s : List Char) (i : Nat),
    i < (scanValue s).1.length → labelReachable (s.drop i) = false
  | [], i, h => by simp [scanValue] at h
  | c :: cs, i, h => by
    rw [scanValue_cons] at h
    by_cases hr : labelReachable (c :: cs) = true
    · rw [if_pos hr] at h
      simp at h
    · rw [if_neg hr] at h
      have hfalse : labelReachable (c :: cs) = false := by
        cases hb : labelReachable (c :: cs) with
        | false => rfl
        | true => exact absurd hb hr
      cases i with
      | zero => exact hfalse
      | succ j =>
        show labelReachable (cs.drop j) = false
        apply scanValue_min cs j
        dsimp only at h
        simp only [List.length_cons] at h
        omega

theorem applyField_lower_congr (p : PartialPaper) (l1 l2 v : List Char)
    (h : lower l1 = lower l2) :
    GeminiService.applyField p (l1, v) = GeminiService.applyField p (l2, v) := by
  unfold GeminiService.applyField
  dsimp only
  rw [h]

theorem applyFieldConn_lower_congr (q : GeminiService.PartialConn) (l1 l2 v : List Char)
    (h : lower l1 = lower l2) :
    GeminiService.applyFieldConn q (l1, v) = GeminiService.applyFieldConn q (l2, v) := by
  unfold GeminiService.applyFieldConn
  dsimp only
  rw [h]

theorem applyField_unrecognized (p : PartialPaper) (l v : List Char)
    (h : lower l ∉ ["title".toList, "authors".toList, "year".toList,
      "sourceurl".toList, "summary".toList]) :
    GeminiService.applyField p (l, v) = p := by
  simp only [List.mem_cons, List.not_mem_nil, or_false, not_or] at h
  obtain ⟨h1, h2, h3, h4, h5⟩ := h
  unfold GeminiService.applyField
  dsimp only
  rw [if_neg h1, if_neg h2, if_neg h3, if_neg h4, if_neg h5]

theorem applyFieldConn_unrecognized (q : GeminiService.PartialConn) (l v : List Char)
    (h : lower l ∉ ["title".toList, "authors".toList, "year".toList,
      "sourceurl".toList, "summary".toList, "connection".toList]) :
    GeminiService.applyFieldConn q (l, v) = q := by
  simp only [List.mem_cons, List.not_mem_nil, or_false, not_or] at h
  obtain ⟨h1, h2, h3, h4, h5, h6⟩ := h
  unfold GeminiService.applyFieldConn
  dsimp only
  rw [if_neg h1, if_neg h2, if_neg h3, if_neg h4, if_neg h5, if_neg h6]

theorem applyFieldConn_set_connection (q : GeminiService.PartialConn) (v : List Char) :
    GeminiService.applyFieldConn q ("Connection".toList, v) =
      { q with connection := some (trimL v) } := by
  unfold GeminiService.applyFieldConn
  dsimp only
  rw [if_neg (by decide), if_neg (by decide), if_neg (by decide), if_neg (by decide),
    if_neg (by decide), if_pos (by decide)]

/-! ## Lemmas: cache-key decomposition -/

theorem sep_split_inj {c : Char} : ∀ (a1 a2 r1 r2 : List Char),
    c ∉ a1 → c ∉ a2 → a1 ++ c :: r1 = a2 ++ c :: r2 → a1 = a2 ∧ r1 = r2
  | [], [], r1, r2, _, _, h => ⟨rfl, by simpa using h⟩
  | [], b :: bs, r1, r2, _, h2, h => by
    simp only [List.nil_append, List.cons_append, List.cons_eq_cons] at h
    exact absurd (by rw [h.1]; exact List.mem_cons_self b bs) h2
  | a :: as, [], r1, r2, h1, _, h => by
    simp only [List.nil_append, List.cons_append, List.cons_eq_cons] at h
    exact absurd (by rw [← h.1]; exact List.mem_cons_self a as) h1
  | a :: as, b :: bs, r1, r2, h1, h2, h => by
    simp only [List.cons_append, List.cons_eq_cons] at h
    obtain ⟨hab, htail⟩ := h
    obtain ⟨he, hr⟩ := sep_split_inj as bs r1 r2
      (fun hm => h1 (List.mem_cons_of_mem _ hm))
      (fun hm => h2 (List.mem_cons_of_mem _ hm)) htail
    exact ⟨by rw [hab, he], hr⟩

theorem joinSemi_ne_nil : ∀ (x : List Char) (xs : List (List Char)),
    x ≠ [] → GeminiService.joinSemi (x :: xs) ≠ []
  | x, [], hx => hx
  | x, y :: ys, hx => by
    show x ++ ';' :: GeminiService.joinSemi (y :: ys) ≠ []
    cases x with
    | nil => exact absurd rfl hx
    | cons a as => simp

theorem joinSemi_inj : ∀ (xs ys : List (List Char)),
    (∀ x ∈ xs, x ≠ [] ∧ (';' : Char) ∉ x) → (∀ y ∈ ys, y ≠ [] ∧ (';' : Char) ∉ y) →
    GeminiService.joinSemi xs = GeminiService.joinSemi ys → xs = ys
  | [], [], _, _, _ => rfl
  | [], y :: ys, _, hy, h =>
    absurd h.symm (joinSemi_ne_nil y ys (hy y (List.mem_cons_self _ _)).1)
  | x :: xs, [], hx, _, h =>
    absurd h (joinSemi_ne_nil x xs (hx x (List.mem_cons_self _ _)).1)
  | [x], [y], _, _, h => by
    have h' : x = y := h
    rw [h']
  | [x], y :: z :: zs, hx, hy, h => by
    exfalso
    have hmem : (';' : Char) ∈ x := by
      show (';' : Char) ∈ GeminiService.joinSemi [x]
      rw [h]
      show (';' : Char) ∈ y ++ ';' :: GeminiService.joinSemi (z :: zs)
      exact List.mem_append.mpr (Or.inr (List.mem_cons_self _ _))
    exact (hx x (List.mem_cons_self _ _)).2 hmem
  | x :: w :: ws, [y], hx, hy, h => by
    exfalso
    have hmem : (';' : Char) ∈ y := by
      show (';' : Char) ∈ GeminiService.joinSemi [y]
      rw [← h]
      show (';' : Char) ∈ x ++ ';' :: GeminiService.joinSemi (w :: ws)
      exact List.mem_append.mpr (Or.inr (List.mem_cons_self _ _))
    exact (hy y (List.mem_cons_self _ _)).2 hmem
  | x :: w :: ws, y :: z :: zs, hx, hy, h => by
    have h' : x ++ ';' :: GeminiService.joinSemi (w :: ws) =
        y ++ ';' :: GeminiService.joinSemi (z :: zs) := h
    obtain ⟨hxy, htail⟩ := sep_split_inj x y _ _
      (hx x (List.mem_cons_self _ _)).2 (hy y (List.mem_cons_self _ _)).2 h'
    have hrest := joinSemi_inj (w :: ws) (z :: zs)
      (fun u hu => hx u (List.mem_cons_of_mem _ hu))
      (fun u hu => hy u (List.mem_cons_of_mem _ hu)) htail
    rw [hxy, hrest]

theorem sourceStr_no_bar : ∀ s : GeminiService.SearchSource,
    ('|' : Char) ∉ GeminiService.sourceStr s := by
  intro s
  cases s <;> decide

theorem lengthStr_no_bar : ∀ s : GeminiService.SummaryLength,
    ('|' : Char) ∉ GeminiService.lengthStr s := by
  intro s
  cases s <;> decide

theorem styleStr_no_bar : ∀ s : GeminiService.SummaryStyle,
    ('|' : Char) ∉ GeminiService.styleStr s := by
  intro s
  cases s <;> decide

theorem sourceStr_inj : ∀ a b : GeminiService.SearchSource,
    GeminiService.sourceStr a = GeminiService.sourceStr b → a = b := by
  intro a b h
  cases a <;> cases b <;> first | rfl | exact absurd h (by decide)

theorem lengthStr_inj : ∀ a b : GeminiService.SummaryLength,
    GeminiService.lengthStr a = GeminiService.lengthStr b → a = b := by
  intro a b h
  cases a <;> cases b <;> first | rfl | exact absurd h (by decide)

theorem styleStr_inj : ∀ a b : GeminiService.SummaryStyle,
    GeminiService.styleStr a = GeminiService.styleStr b → a = b := by
  intro a b h
  cases a <;> cases b <;> first | rfl | exact absurd h (by decide)

/-! ## Claim theorems -/

/-- C2: the error classifier's precedence. A gateway `Error` whose message
matches the rate-limit test (`429` or case-insensitive `rate limit`) raises
`RateLimitError` regardless of the other tests; otherwise one matching the
server-error test (`5` followed by two digits, or case-insensitive
`server error`) raises `ServerError`; any other `Error` raises the generic
`ApiError`, as does a non-`Error` throw; and a `SyntaxError` from JSON
parsing a structured-output response raises `ParsingError` instead of going
through `handleApiError`, while a non-`SyntaxError` failure there is
classified exactly by `handleApiError`. -/
theorem c2_error_precedence (msg : List Char) (syn : Bool) :
    (GeminiService.rateLimitMatch msg = true →
      GeminiService.handleApiError (.jsError msg syn) = .rateLimit) ∧
    (GeminiService.rateLimitMatch msg = false →
      GeminiService.serverErrorMatch msg = true →
      GeminiService.handleApiError (.jsError msg syn) = .serverError) ∧
    (GeminiService.rateLimitMatch msg = false →
      GeminiService.serverErrorMatch msg = false →
      GeminiService.handleApiError (.jsError msg syn) = .apiError) ∧
    GeminiService.handleApiError .nonError = .apiError ∧
    GeminiService.classifyStructuredFailure (.jsError msg true) = .parsingError ∧
    GeminiService.classifyStructuredFailure (.jsError msg false) =
      GeminiService.handleApiError (.jsError msg false) ∧
    GeminiService.classifyStructuredFailure .nonError =
      GeminiService.handleApiError .nonError := by
  refine ⟨?_, ?_, ?_, rfl, rfl, rfl, rfl⟩
  · intro h
    simp only [GeminiService.handleApiError]
    rw [if_pos h]
  · intro h1 h2
    simp only [GeminiService.handleApiError]
    rw [if_neg (by simp [h1]), if_pos h2]
  · intro h1 h2
    simp only [GeminiService.handleApiError]
    rw [if_neg (by simp [h1]), if_neg (by simp [h2])]

/-- Witness for C2: a message matching both the rate-limit and the
server-error tests classifies as rate limit; a pure 5xx message as server
error; an unmatched message as the generic error. -/
theorem c2_witness :
    GeminiService.handleApiError (.jsError "HTTP 429 server error".toList false) =
      .rateLimit ∧
    GeminiService.handleApiError (.jsError "503 Service Unavailable".toList false) =
      .serverError ∧
    GeminiService.handleApiError (.jsError "boom".toList false) = .apiError :=
  ⟨(c2_error_precedence "HTTP 429 server error".toList false).1 (by decide),
   (c2_error_precedence "503 Service Unavailable".toList false).2.1 (by decide) (by decide),
   (c2_error_precedence "boom".toList false).2.2.1 (by decide) (by decide)⟩

/-- C3: an entry is served from the cache exactly when its age is strictly
under `CACHE_DURATION_MS` (5 minutes): a hit at `T+4:59`, a miss at
`T+5:01`; `set` overwrites unconditionally; on a hit `handleSearch` issues
no request and returns the cached papers, on a miss it issues one. -/
theorem c3_cache_expiry (c : GeminiService.Cache) (k : List Char)
    (e : GeminiService.CacheEntry) (now : Int) :
    (GeminiService.cacheGet c k = some e →
      (GeminiService.isCacheHit c k now = true ↔
        now - e.timestamp < GeminiService.CACHE_DURATION_MS)) ∧
    (GeminiService.cacheGet c k = none → GeminiService.isCacheHit c k now = false) ∧
    (GeminiService.cacheGet c k = some e →
      GeminiService.isCacheHit c k (e.timestamp + 299000) = true) ∧
    (GeminiService.cacheGet c k = some e →
      GeminiService.isCacheHit c k (e.timestamp + 301000) = false) ∧
    (∀ e2, GeminiService.cacheGet (GeminiService.cachePut c k e2) k = some e2) ∧
    (∀ outcome cits now2, GeminiService.isCacheHit c k now = true →
      (GeminiService.handleSearchModel c k now outcome cits now2).issuedRequest = false ∧
      (GeminiService.handleSearchModel c k now outcome cits now2).papers =
        ((GeminiService.cacheGet c k).map (·.papers)).getD []) ∧
    (∀ outcome cits now2, GeminiService.isCacheHit c k now = false →
      (GeminiService.handleSearchModel c k now outcome cits now2).issuedRequest = true) := by
  refine ⟨?_, fun h => isCacheHit_none now h, ?_, ?_, ?_, ?_, ?_⟩
  · intro h
    rw [isCacheHit_some now h]
    exact decide_eq_true_iff
  · intro h
    rw [isCacheHit_some _ h]
    apply decide_eq_true_iff.mpr
    rw [show GeminiService.CACHE_DURATION_MS = 300000 from rfl]
    omega
  · intro h
    rw [isCacheHit_some _ h]
    apply decide_eq_false_iff_not.mpr
    rw [show GeminiService.CACHE_DURATION_MS = 300000 from rfl]
    omega
  · intro e2
    exact cacheGet_cachePut_self c k e2
  · intro outcome cits now2 h
    rw [handleSearch_hit c k now outcome cits now2 h]
    exact ⟨rfl, rfl⟩
  · intro outcome cits now2 h
    exact handleSearch_miss_issued c k now outcome cits now2 h

/-- Witness for C3: a concrete entry written at time 0 is a hit at 299000 ms
and a miss at 301000 ms. -/
theorem c3_witness :
    GeminiService.isCacheHit [("k".toList, ⟨[], [], 0⟩)] "k".toList 299000 = true ∧
    GeminiService.isCacheHit [("k".toList, ⟨[], [], 0⟩)] "k".toList 301000 = false :=
  ⟨(c3_cache_expiry [("k".toList, ⟨[], [], 0⟩)] "k".toList ⟨[], [], 0⟩ 0).2.2.1 (by decide),
   (c3_cache_expiry [("k".toList, ⟨[], [], 0⟩)] "k".toList ⟨[], [], 0⟩ 0).2.2.2.1 (by decide)⟩

/-- C8: the suggestions call is total. A query under 5 trimmed characters
issues no request and yields `[]`; a gateway failure, a JSON-parse failure
or a missing `suggestions` key each degrade to `[]`; a parsed list comes
back as-is once a request was issued. -/
theorem c8_suggestions_safe (q : List Char) (o : GeminiService.SuggestOutcome) :
    ((trimL q).length < 5 →
      GeminiService.suggestRequestIssued q = false ∧
      GeminiService.generateSearchSuggestions q o = []) ∧
    (∀ e, GeminiService.generateSearchSuggestions q (.gatewayError e) = []) ∧
    GeminiService.generateSearchSuggestions q .jsonError = [] ∧
    GeminiService.generateSearchSuggestions q (.parsed none) = [] ∧
    (∀ s, ¬ (trimL q).length < 5 →
      GeminiService.generateSearchSuggestions q (.parsed (some s)) = s) := by
  refine ⟨?_, ?_, ?_, ?_, ?_⟩
  · intro h
    constructor
    · unfold GeminiService.suggestRequestIssued
      simp [h]
    · unfold GeminiService.generateSearchSuggestions
      rw [if_pos h]
  · intro e
    unfold GeminiService.generateSearchSuggestions
    by_cases h : (trimL q).length < 5
    · rw [if_pos h]
    · rw [if_neg h]
  · unfold GeminiService.generateSearchSuggestions
    by_cases h : (trimL q).length < 5
    · rw [if_pos h]
    · rw [if_neg h]
  · unfold GeminiService.generateSearchSuggestions
    by_cases h : (trimL q).length < 5
    · rw [if_pos h]
    · rw [if_neg h]
  · intro s h
    unfold GeminiService.generateSearchSuggestions
    rw [if_neg h]

/-- Witness for C8: the four-character query "abc " short-circuits, and a
five-character query survives any outcome with an empty or parsed result. -/
theorem c8_witness :
    (GeminiService.suggestRequestIssued "abc ".toList = false ∧
      GeminiService.generateSearchSuggestions "abc ".toList .jsonError = []) ∧
    GeminiService.generateSearchSuggestions "abcde".toList
      (.gatewayError .nonError) = [] ∧
    GeminiService.generateSearchSuggestions "abcde".toList
      (.parsed (some ["x".toList])) = ["x".toList] :=
  ⟨(c8_suggestions_safe "abc ".toList .jsonError).1 (by decide),
   (c8_suggestions_safe "abcde".toList (.gatewayError .nonError)).2.1 .nonError,
   (c8_suggestions_safe "abcde".toList (.parsed (some ["x".toList]))).2.2.2.2
     ["x".toList] (by decide)⟩

/-- C9: the advanced-search prompt contributes a clause exactly for the
non-empty options: all options blank gives the empty string; both years
give the single published-between clause; only a start or only an end year
gives the in-or-after / in-or-before clause; the authors and the
exclude-keywords clauses are empty exactly when their field is; and the
prompt is the concatenation of the three parts in source order. -/
theorem c9_prompt_clauses (o : GeminiService.AdvancedSearchOptions) :
    (o.startYear = [] → o.endYear = [] → o.authors = [] → o.excludeKeywords = [] →
      GeminiService.buildAdvancedSearchPrompt o = []) ∧
    (o.startYear ≠ [] → o.endYear ≠ [] →
      GeminiService.yearsPart o =
        "\n- The papers MUST be published between ".toList ++ o.startYear
          ++ " and ".toList ++ o.endYear ++ ".".toList) ∧
    (o.startYear ≠ [] → o.endYear = [] →
      GeminiService.yearsPart o =
        "\n- The papers MUST be published in or after ".toList ++ o.startYear
          ++ ".".toList) ∧
    (o.startYear = [] → o.endYear ≠ [] →
      GeminiService.yearsPart o =
        "\n- The papers MUST be published in or before ".toList ++ o.endYear
          ++ ".".toList) ∧
    (o.startYear = [] → o.endYear = [] → GeminiService.yearsPart o = []) ∧
    (GeminiService.authorsPart o = [] ↔ o.authors = []) ∧
    (GeminiService.excludePart o = [] ↔ o.excludeKeywords = []) ∧
    GeminiService.buildAdvancedSearchPrompt o =
      GeminiService.yearsPart o ++ GeminiService.authorsPart o ++
        GeminiService.excludePart o := by
  refine ⟨?_, ?_, ?_, ?_, ?_, ?_, ?_, rfl⟩
  · intro h1 h2 h3 h4
    unfold GeminiService.buildAdvancedSearchPrompt GeminiService.yearsPart
      GeminiService.authorsPart GeminiService.excludePart
    rw [h1, h2, h3, h4]
    rfl
  · intro h1 h2
    unfold GeminiService.yearsPart
    rw [if_pos (by rw [not_isEmpty_of_ne h1, not_isEmpty_of_ne h2]; rfl)]
  · intro h1 h2
    unfold GeminiService.yearsPart
    rw [if_neg (by rw [h2]; simp), if_pos (not_isEmpty_of_ne h1)]
  · intro h1 h2
    unfold GeminiService.yearsPart
    rw [if_neg (by rw [h1]; simp), if_neg (by rw [h1]; simp),
      if_pos (not_isEmpty_of_ne h2)]
  · intro h1 h2
    unfold GeminiService.yearsPart
    rw [h1, h2]
    rfl
  · by_cases h : o.authors = []
    · rw [h]
      unfold GeminiService.authorsPart
      rw [h]
      simp
    · unfold GeminiService.authorsPart
      rw [if_pos (not_isEmpty_of_ne h)]
      constructor
      · intro habs
        exact absurd (List.append_eq_nil.mp (List.append_eq_nil.mp habs).1).1 (by decide)
      · intro hh
        exact absurd hh h
  · by_cases h : o.excludeKeywords = []
    · rw [h]
      unfold GeminiService.excludePart
      rw [h]
      simp
    · unfold GeminiService.excludePart
      rw [if_pos (not_isEmpty_of_ne h)]
      constructor
      · intro habs
        exact absurd (List.append_eq_nil.mp (List.append_eq_nil.mp habs).1).1 (by decide)
      · intro hh
        exact absurd hh h

/-- Witness for C9: blank options give an empty prompt; a concrete
start/end year pair gives the published-between clause. -/
theorem c9_witness :
    GeminiService.buildAdvancedSearchPrompt ⟨[], [], [], []⟩ = [] ∧
    GeminiService.yearsPart ⟨"2000".toList, "2020".toList, [], []⟩ =
      "\n- The papers MUST be published between ".toList ++ "2000".toList
        ++ " and ".toList ++ "2020".toList ++ ".".toList :=
  ⟨(c9_prompt_clauses ⟨[], [], [], []⟩).1 rfl rfl rfl rfl,
   (c9_prompt_clauses ⟨"2000".toList, "2020".toList, [], []⟩).2.1
     (by decide) (by decide)⟩

/-- C10: when the gateway call succeeds but the response parses to zero
papers, `handleSearch` still writes a cache entry with empty papers and
citations under its key (while showing the empty-response or the
unparsable-format message), and an identical search within 5 minutes is
served from that cached empty result without a new request. -/
theorem c10_empty_parse_cached (cache : GeminiService.Cache) (key text : List Char)
    (now now2 : Int) (cits : List (List Char))
    (hmiss : GeminiService.isCacheHit cache key now = false)
    (hparse : GeminiService.parseGeminiResponse text = []) :
    (GeminiService.handleSearchModel cache key now (.ok text) cits now2).cache =
      GeminiService.cachePut cache key ⟨[], [], now2⟩ ∧
    GeminiService.cacheGet
        (GeminiService.handleSearchModel cache key now (.ok text) cits now2).cache key =
      some ⟨[], [], now2⟩ ∧
    (GeminiService.handleSearchModel cache key now (.ok text) cits now2).issuedRequest =
      true ∧
    ((GeminiService.handleSearchModel cache key now (.ok text) cits now2).errorMsg =
        some GeminiService.emptyResponseMsg ∨
      (GeminiService.handleSearchModel cache key now (.ok text) cits now2).errorMsg =
        some GeminiService.unparsableMsg) ∧
    (∀ (now3 now4 : Int) (outcome2 : GeminiService.FetchOutcome)
        (cits2 : List (List Char)),
      now3 - now2 < GeminiService.CACHE_DURATION_MS →
      (GeminiService.handleSearchModel
          (GeminiService.handleSearchModel cache key now (.ok text) cits now2).cache
          key now3 outcome2 cits2 now4).issuedRequest = false ∧
      (GeminiService.handleSearchModel
          (GeminiService.handleSearchModel cache key now (.ok text) cits now2).cache
          key now3 outcome2 cits2 now4).papers = []) := by
  have hrun := handleSearch_miss_ok cache key text now cits now2 hmiss
  rw [hparse] at hrun
  rw [show (if ([] : List Paper).length > 0 then cits else []) = [] from rfl] at hrun
  have hcache :
      (GeminiService.handleSearchModel cache key now (.ok text) cits now2).cache =
        GeminiService.cachePut cache key ⟨[], [], now2⟩ := by
    rw [hrun]
  have hget : GeminiService.cacheGet
      (GeminiService.handleSearchModel cache key now (.ok text) cits now2).cache key =
        some ⟨[], [], now2⟩ := by
    rw [hcache]
    exact cacheGet_cachePut_self cache key ⟨[], [], now2⟩
  refine ⟨hcache, hget, by rw [hrun], ?_, ?_⟩
  · rw [hrun]
    show (if (([] : List Paper).isEmpty && text.isEmpty) = true then
        some GeminiService.emptyResponseMsg
      else if (([] : List Paper).isEmpty && !text.isEmpty) = true then
        some GeminiService.unparsableMsg
      else none) = some GeminiService.emptyResponseMsg ∨
      (if (([] : List Paper).isEmpty && text.isEmpty) = true then
        some GeminiService.emptyResponseMsg
      else if (([] : List Paper).isEmpty && !text.isEmpty) = true then
        some GeminiService.unparsableMsg
      else none) = some GeminiService.unparsableMsg
    cases htxt : text.isEmpty with
    | true =>
      left
      rw [if_pos (by rfl)]
    | false =>
      right
      rw [if_neg (by simp), if_pos (by rfl)]
  · intro now3 now4 outcome2 cits2 hlt
    have hhit : GeminiService.isCacheHit
        (GeminiService.handleSearchModel cache key now (.ok text) cits now2).cache key
          now3 = true := by
      rw [isCacheHit_some now3 hget]
      exact decide_eq_true_iff.mpr hlt
    rw [handleSearch_hit _ _ _ _ _ now4 hhit]
    refine ⟨rfl, ?_⟩
    show ((GeminiService.cacheGet
        (GeminiService.handleSearchModel cache key now (.ok text) cits now2).cache
          key).map (·.papers)).getD [] = []
    rw [hget]
    rfl

/-- Witness for C10: a concrete empty cache, all-whitespace response text
and timestamps 0/10: the run writes the empty entry and a repeat at 1000 ms
is served from it. -/
theorem c10_witness :
    (GeminiService.handleSearchModel [] "k".toList 0 (.ok "  ".toList) [] 10).cache =
      GeminiService.cachePut [] "k".toList ⟨[], [], 10⟩ ∧
    (GeminiService.handleSearchModel
        (GeminiService.handleSearchModel [] "k".toList 0 (.ok "  ".toList) [] 10).cache
        "k".toList 1000 (.ok "  ".toList) [] 20).issuedRequest = false :=
  ⟨(c10_empty_parse_cached [] "k".toList "  ".toList 0 10 [] (by decide) (by decide)).1,
   ((c10_empty_parse_cached [] "k".toList "  ".toList 0 10 [] (by decide)
       (by decide)).2.2.2.2 1000 20 (.ok "  ".toList) [] (by decide)).1⟩

/-- C1: the paper-search parser yields exactly one record per `---` block in
which all four mandatory fields were found non-empty, in block order: the
parse is the block-order `filterMap` of the per-block extraction; a block
contributes a record exactly when its four mandatory fields are present and
non-empty (`sourceURL` plays no part in the test); and an accepted block's
record carries exactly the collected field values, all four mandatory ones
non-empty — never a partial or default-filled record. -/
theorem c1_per_block (text block : List Char) (p : Paper) :
    GeminiService.parseGeminiResponse text =
      (splitDashes text).filterMap GeminiService.blockToPaper ∧
    (GeminiService.blockToPaper block).isSome = GeminiService.mandatoryPresent block ∧
    (GeminiService.blockToPaper block = some p →
      p.title ≠ [] ∧ p.authors ≠ [] ∧ p.year ≠ [] ∧ p.summary ≠ [] ∧
      p.title =
        (GeminiService.collectFields (GeminiService.blockFields block)).title.getD [] ∧
      p.authors =
        (GeminiService.collectFields (GeminiService.blockFields block)).authors.getD [] ∧
      p.year =
        (GeminiService.collectFields (GeminiService.blockFields block)).year.getD [] ∧
      p.summary =
        (GeminiService.collectFields (GeminiService.blockFields block)).summary.getD [] ∧
      p.sourceURL =
        (GeminiService.collectFields (GeminiService.blockFields block)).sourceURL) := by
  refine ⟨?_, blockToPaper_isSome block, ?_⟩
  · by_cases hg : (trimL text).isEmpty = true
    · have hnil : trimL text = [] := List.isEmpty_iff.mp hg
      have hnd : ('-' : Char) ∉ text := fun hmem => by
        have hws := all_ws_of_trimL_nil hnil '-' hmem
        exact absurd hws (by decide)
      unfold GeminiService.parseGeminiResponse
      rw [if_pos hg, splitDashes_no_dash hnd, List.filterMap_cons,
        blockToPaper_none_of_trim_nil hnil]
      rfl
    · unfold GeminiService.parseGeminiResponse
      rw [if_neg hg]
  · intro hsome
    by_cases he : (trimL block).isEmpty = true
    · rw [blockToPaper_none_of_trim_nil (List.isEmpty_iff.mp he)] at hsome
      exact absurd hsome (by simp)
    · have h' : (if (trimL block).isEmpty = true then none
          else if (fieldOk (GeminiService.collectFields (scanFields (trimL block))).title &&
              fieldOk (GeminiService.collectFields (scanFields (trimL block))).authors &&
              fieldOk (GeminiService.collectFields (scanFields (trimL block))).year &&
              fieldOk (GeminiService.collectFields (scanFields (trimL block))).summary)
              = true then
            some (⟨(GeminiService.collectFields (scanFields (trimL block))).title.getD [],
                   (GeminiService.collectFields (scanFields (trimL block))).authors.getD [],
                   (GeminiService.collectFields (scanFields (trimL block))).year.getD [],
                   (GeminiService.collectFields (scanFields (trimL block))).summary.getD [],
                   (GeminiService.collectFields (scanFields (trimL block))).sourceURL⟩ : Paper)
          else none) = some p := hsome
      rw [if_neg he] at h'
      cases hC : (fieldOk (GeminiService.collectFields (scanFields (trimL block))).title &&
          fieldOk (GeminiService.collectFields (scanFields (trimL block))).authors &&
          fieldOk (GeminiService.collectFields (scanFields (trimL block))).year &&
          fieldOk (GeminiService.collectFields (scanFields (trimL block))).summary) with
      | false =>
        rw [hC] at h'
        exact absurd h' (by simp)
      | true =>
        rw [hC, if_pos rfl] at h'
        have hp := Option.some_inj.mp h'
        simp only [Bool.and_eq_true] at hC
        obtain ⟨⟨⟨hT, hA⟩, hY⟩, hS⟩ := hC
        rw [← hp]
        exact ⟨fieldOk_getD_ne hT, fieldOk_getD_ne hA, fieldOk_getD_ne hY,
          fieldOk_getD_ne hS, rfl, rfl, rfl, rfl, rfl⟩

/-- Witness for C1: a concrete block with the four mandatory fields parses
into the full record, whose mandatory fields are non-empty. -/
theorem c1_witness :
    GeminiService.mandatoryPresent
        "**Title:** A\n**Authors:** B\n**Year:** 2020\n**Summary:** S".toList = true ∧
    ("A".toList : List Char) ≠ [] := by
  have hb := c1_per_block []
    "**Title:** A\n**Authors:** B\n**Year:** 2020\n**Summary:** S".toList
    ⟨"A".toList, "B".toList, "2020".toList, "S".toList, none⟩
  refine ⟨?_, (hb.2.2 (by decide)).1⟩
  rw [← hb.2.1]
  decide

theorem filterMap_all_mandatory : ∀ (ps : List PaperSpec),
    (∀ p ∈ ps, mandatoryTags p = true) →
    ps.filterMap (fun p => if mandatoryTags p = true then some (specPaper p) else none) =
      ps.map specPaper
  | [], _ => rfl
  | p :: ps, h => by
    rw [List.filterMap_cons_some (by rw [if_pos (h p (List.mem_cons_self _ _))]),
      List.map_cons,
      filterMap_all_mandatory ps (fun q hq => h q (List.mem_cons_of_mem _ hq))]

set_option maxRecDepth 200000 in
/-- C5: round-trip. Rendering papers with clean non-empty field values
(fields in any order, `Summary` possibly multi-line, `SourceURL` possibly
omitted) and parsing the result with the regex parser recovers exactly
those values; and the spec's two-block example text parses into exactly the
two expected papers — verbatim multi-line summary for the regex parser,
space-joined for the line parser. -/
theorem c5_round_trip (ps : List PaperSpec)
    (h : ∀ p ∈ ps, cleanSpecB p = true ∧ orderOkB p = true ∧ mandatoryTags p = true) :
    GeminiService.parseGeminiResponse (renderText ps) = ps.map specPaper ∧
    GeminiService.parseGeminiResponse "**Title:** A\n**Authors:** B\n**Year:** 2020\n**Summary:** S1\n---\n**Title:** C\n**Authors:** D\n**Year:** 2021\n**SourceURL:** url\n**Summary:** S2\nline2".toList =
      [⟨"A".toList, "B".toList, "2020".toList, "S1".toList, none⟩,
       ⟨"C".toList, "D".toList, "2021".toList, "S2\nline2".toList, some "url".toList⟩] ∧
    AppTsx.parseGeminiResponse "**Title:** A\n**Authors:** B\n**Year:** 2020\n**Summary:** S1\n---\n**Title:** C\n**Authors:** D\n**Year:** 2021\n**SourceURL:** url\n**Summary:** S2\nline2".toList =
      [⟨"A".toList, "B".toList, "2020".toList, "S1".toList, none⟩,
       ⟨"C".toList, "D".toList, "2021".toList, "S2 line2".toList, some "url".toList⟩] := by
  refine ⟨?_, by decide, by decide⟩
  rw [parse_renderText ps (fun p hp => ⟨(h p hp).1, (h p hp).2.1⟩)]
  exact filterMap_all_mandatory ps (fun p hp => (h p hp).2.2)

/-- Witness for C5: two concrete paper specifications (the second with a
multi-line summary, a URL and all five fields) render and parse back to
their values. -/
theorem c5_witness :
    GeminiService.parseGeminiResponse (renderText
      [⟨"A".toList, "B".toList, "2020".toList, none, "S1".toList,
        [.title, .authors, .year, .summary]⟩,
       ⟨"C".toList, "D".toList, "2021".toList, some "url".toList, "S2\nline2".toList,
        [.title, .authors, .year, .sourceurl, .summary]⟩]) =
      List.map specPaper
      [⟨"A".toList, "B".toList, "2020".toList, none, "S1".toList,
        [.title, .authors, .year, .summary]⟩,
       ⟨"C".toList, "D".toList, "2021".toList, some "url".toList, "S2\nline2".toList,
        [.title, .authors, .year, .sourceurl, .summary]⟩] :=
  (c5_round_trip
    [⟨"A".toList, "B".toList, "2020".toList, none, "S1".toList,
      [.title, .authors, .year, .summary]⟩,
     ⟨"C".toList, "D".toList, "2021".toList, some "url".toList, "S2\nline2".toList,
      [.title, .authors, .year, .sourceurl, .summary]⟩]
    (by decide)).1

set_option maxRecDepth 200000 in
/-- Counterexample to C7 as stated: the regex parser matches labels
case-insensitively while the line parser's `startsWith` tests are
case-sensitive, so on a block with lowercase labels the two accept
different sets of blocks. -/
theorem c7_counterexample :
    GeminiService.parseGeminiResponse
        "**title:** A\n**authors:** B\n**year:** 2020\n**summary:** S".toList =
      [⟨"A".toList, "B".toList, "2020".toList, "S".toList, none⟩] ∧
    AppTsx.parseGeminiResponse
        "**title:** A\n**authors:** B\n**year:** 2020\n**summary:** S".toList = [] := by
  constructor
  · decide
  · decide

/-- C7 (amended): on rendered texts with representable field values —
fields in any order, `SourceURL` possibly omitted, `Summary` possibly
multi-line — the line parser returns exactly the regex parser's records
with each summary's lines trimmed and joined by single spaces; the claim's
unrestricted every-input equivalence is false (see the counterexample). -/
theorem c7_parsers_agree_normalized (ps : List PaperSpec)
    (h : ∀ p ∈ ps, cleanSpecB p = true ∧ orderOkB p = true) :
    AppTsx.parseGeminiResponse (renderText ps) =
      (GeminiService.parseGeminiResponse (renderText ps)).map
        (fun q => ⟨q.title, q.authors, q.year, normSummary q.summary, q.sourceURL⟩) := by
  rw [parseLine_renderText ps h, parse_renderText ps h, List.map_filterMap]
  apply List.filterMap_congr
  intro p _
  by_cases hm : mandatoryTags p = true
  · rw [if_pos hm, if_pos hm]
    rfl
  · rw [if_neg hm, if_neg hm]
    rfl

/-- Witness for C7: a concrete paper with a two-line summary and no URL,
rendered and parsed by both implementations. -/
theorem c7_witness :
    AppTsx.parseGeminiResponse (renderText
      [⟨"T".toList, "U".toList, "1999".toList, none, "l1\nl2".toList,
        [.title, .authors, .year, .summary]⟩]) =
      (GeminiService.parseGeminiResponse (renderText
        [⟨"T".toList, "U".toList, "1999".toList, none, "l1\nl2".toList,
          [.title, .authors, .year, .summary]⟩])).map
        (fun q => ⟨q.title, q.authors, q.year, normSummary q.summary, q.sourceURL⟩) :=
  c7_parsers_agree_normalized
    [⟨"T".toList, "U".toList, "1999".toList, none, "l1\nl2".toList,
      [.title, .authors, .year, .summary]⟩]
    (by decide)

/-- C6: field matching within a block. Labels are matched case-insensitively
(two labels with the same lowercasing act identically) against the fixed
recognized set — title, authors, year, sourceurl, summary for the search
parser, plus connection for the connected-papers variant; a label outside
the set changes nothing. The scanner's captured value runs from the label
to the earliest position from which whitespace-skipping reaches the next
label marker, or to the end of the block. The single-line fields Title,
Authors, Year and SourceURL keep only the first line of the trimmed value,
while Summary and Connection keep the full multi-line value. -/
theorem c6_field_matching (p : PartialPaper) (q : GeminiService.PartialConn)
    (l1 l2 v s : List Char) :
    (lower l1 = lower l2 →
      GeminiService.applyField p (l1, v) = GeminiService.applyField p (l2, v)) ∧
    (lower l1 = lower l2 →
      GeminiService.applyFieldConn q (l1, v) = GeminiService.applyFieldConn q (l2, v)) ∧
    (lower l1 ∉ ["title".toList, "authors".toList, "year".toList,
        "sourceurl".toList, "summary".toList] →
      GeminiService.applyField p (l1, v) = p) ∧
    (lower l1 ∉ ["title".toList, "authors".toList, "year".toList,
        "sourceurl".toList, "summary".toList, "connection".toList] →
      GeminiService.applyFieldConn q (l1, v) = q) ∧
    (scanValue s).1 ++ (scanValue s).2 = s ∧
    ((scanValue s).2 = [] ∨ labelReachable (scanValue s).2 = true) ∧
    (∀ i, i < (scanValue s).1.length → labelReachable (s.drop i) = false) ∧
    GeminiService.applyField p ("Title".toList, v) =
      { p with title := some (trimL (firstLine (trimL v))) } ∧
    GeminiService.applyField p ("Authors".toList, v) =
      { p with authors := some (trimL (firstLine (trimL v))) } ∧
    GeminiService.applyField p ("Year".toList, v) =
      { p with year := some (trimL (firstLine (trimL v))) } ∧
    GeminiService.applyField p ("SourceURL".toList, v) =
      { p with sourceURL := some (trimL (firstLine (trimL v))) } ∧
    GeminiService.applyField p ("Summary".toList, v) =
      { p with summary := some (trimL v) } ∧
    GeminiService.applyFieldConn q ("Connection".toList, v) =
      { q with connection := some (trimL v) } :=
  ⟨applyField_lower_congr p l1 l2 v,
   applyFieldConn_lower_congr q l1 l2 v,
   applyField_unrecognized p l1 v,
   applyFieldConn_unrecognized q l1 v,
   scanValue_split s,
   scanValue_tail_or s,
   scanValue_min s,
   applyField_set_title p v,
   applyField_set_authors p v,
   applyField_set_year p v,
   applyField_set_sourceURL p v,
   applyField_set_summary p v,
   applyFieldConn_set_connection q v⟩

/-- Witness for C6: the uppercase label `TITLE` acts like `Title`, an
unrecognized label is ignored, and a concrete value's capture stops exactly
at the next marker. -/
theorem c6_witness :
    GeminiService.applyField {} ("TITLE".toList, "A".toList) =
      GeminiService.applyField {} ("Title".toList, "A".toList) ∧
    GeminiService.applyField {} ("Journal".toList, "X".toList) = ({} : PartialPaper) ∧
    (scanValue "A B \n**Year:** 2020".toList).1 ++
      (scanValue "A B \n**Year:** 2020".toList).2 = "A B \n**Year:** 2020".toList := by
  have hc := c6_field_matching {} {} "TITLE".toList "Title".toList "A".toList
    "A B \n**Year:** 2020".toList
  have hu := c6_field_matching {} {} "Journal".toList "Title".toList "X".toList
    "A B \n**Year:** 2020".toList
  exact ⟨hc.1 (by decide), hu.2.2.1 (by decide), hc.2.2.2.2.1⟩

/-- Counterexample to C4 as stated: the raw string concatenation is not
injective — start/end year pairs `("1", "2-3")` and `("1-2", "3")` differ
but produce the same `startYear-endYear` segment and hence the same key. -/
theorem c4_counterexample :
    GeminiService.cacheKeyOf "q".toList .general .short .paragraph
        ⟨"1".toList, "2-3".toList, [], []⟩ [] =
      GeminiService.cacheKeyOf "q".toList .general .short .paragraph
        ⟨"1-2".toList, "3".toList, [], []⟩ [] ∧
    (⟨"1".toList, "2-3".toList, [], []⟩ : GeminiService.AdvancedSearchOptions) ≠
      ⟨"1-2".toList, "3".toList, [], []⟩ := by
  constructor
  · decide
  · decide

/-- C4 (amended): the cache key is injective provided the interpolated
fields cannot mimic the separators — the normalized query, the end year,
the authors and the exclude-keywords fields contain no `|`, the start year
contains no `-`, and every favorite title is non-empty and free of `;`.
Under these conditions equal keys force equal normalized queries, sources,
lengths, styles, advanced options and favorite-title lists. Without them
the construction is not injective (see the counterexample). -/
theorem c4_key_injective (q1 q2 : List Char)
    (s1 s2 : GeminiService.SearchSource) (l1 l2 : GeminiService.SummaryLength)
    (y1 y2 : GeminiService.SummaryStyle)
    (a1 a2 : GeminiService.AdvancedSearchOptions) (f1 f2 : List (List Char))
    (hq1 : ('|' : Char) ∉ lower (trimL q1)) (hq2 : ('|' : Char) ∉ lower (trimL q2))
    (hd1 : ('-' : Char) ∉ a1.startYear) (hd2 : ('-' : Char) ∉ a2.startYear)
    (he1 : ('|' : Char) ∉ a1.endYear) (he2 : ('|' : Char) ∉ a2.endYear)
    (ha1 : ('|' : Char) ∉ a1.authors) (ha2 : ('|' : Char) ∉ a2.authors)
    (hx1 : ('|' : Char) ∉ a1.excludeKeywords) (hx2 : ('|' : Char) ∉ a2.excludeKeywords)
    (hf1 : ∀ t ∈ f1, t ≠ [] ∧ (';' : Char) ∉ t)
    (hf2 : ∀ t ∈ f2, t ≠ [] ∧ (';' : Char) ∉ t)
    (h : GeminiService.cacheKeyOf q1 s1 l1 y1 a1 f1 =
      GeminiService.cacheKeyOf q2 s2 l2 y2 a2 f2) :
    lower (trimL q1) = lower (trimL q2) ∧ s1 = s2 ∧ l1 = l2 ∧ y1 = y2 ∧
      a1 = a2 ∧ f1 = f2 := by
  unfold GeminiService.cacheKeyOf at h
  obtain ⟨hquery, h⟩ := sep_split_inj _ _ _ _ hq1 hq2 h
  obtain ⟨hsrc', h⟩ := sep_split_inj _ _ _ _ (sourceStr_no_bar s1) (sourceStr_no_bar s2) h
  obtain ⟨hlen', h⟩ := sep_split_inj _ _ _ _ (lengthStr_no_bar l1) (lengthStr_no_bar l2) h
  obtain ⟨hsty', h⟩ := sep_split_inj _ _ _ _ (styleStr_no_bar y1) (styleStr_no_bar y2) h
  obtain ⟨hS, h⟩ := sep_split_inj _ _ _ _ hd1 hd2 h
  obtain ⟨hE, h⟩ := sep_split_inj _ _ _ _ he1 he2 h
  obtain ⟨hA, h⟩ := sep_split_inj _ _ _ _ ha1 ha2 h
  obtain ⟨hX, h⟩ := sep_split_inj _ _ _ _ hx1 hx2 h
  have hfav := joinSemi_inj f1 f2 hf1 hf2 (List.append_cancel_left h)
  refine ⟨hquery, sourceStr_inj s1 s2 hsrc', lengthStr_inj l1 l2 hlen',
    styleStr_inj y1 y2 hsty', ?_, hfav⟩
  cases a1 with
  | mk sy1 ey1 au1 ex1 =>
    cases a2 with
    | mk sy2 ey2 au2 ex2 =>
      dsimp only at hS hE hA hX
      rw [hS, hE, hA, hX]

/-- Witness for C4: concrete identical parameter tuples satisfying the
side conditions yield (via the injectivity theorem applied to the trivially
equal keys) componentwise equal parameters. -/
theorem c4_witness :
    lower (trimL "Ab".toList) = lower (trimL "Ab".toList) ∧
    GeminiService.SearchSource.arxiv = GeminiService.SearchSource.arxiv ∧
    GeminiService.SummaryLength.short = GeminiService.SummaryLength.short ∧
    GeminiService.SummaryStyle.qa = GeminiService.SummaryStyle.qa ∧
    (⟨"1".toList, "2".toList, "au".toList, "ex".toList⟩ :
      GeminiService.AdvancedSearchOptions) = ⟨"1".toList, "2".toList, "au".toList,
        "ex".toList⟩ ∧
    [("t".toList : List Char)] = [("t".toList : List Char)] :=
  c4_key_injective "Ab".toList "Ab".toList .arxiv .arxiv .short .short .qa .qa
    ⟨"1".toList, "2".toList, "au".toList, "ex".toList⟩
    ⟨"1".toList, "2".toList, "au".toList, "ex".toList⟩
    [("t".toList : List Char)] [("t".toList : List Char)]
    (by decide) (by decide) (by decide) (by decide) (by decide) (by decide)
    (by decide) (by decide) (by decide) (by decide) (by decide) (by decide) rfl

end AIScholar
